import Mathlib

/-!
PDF management backend: page ranges, the document handlers and the external tools

A shallow embedding of `src/backend/index.js` (and of `handleMerge` and `handleWatermark` of
`src/frontend/src/ToolPage.js`), with the properties of the specification proved about it.

Conventions of the embedding:

* A JavaScript string is a list of characters (`String.toList` of a Lean string).
* The numbers of this code come from `parseInt`, from `+`, `- 1` and from `%`, so they are
  integers, infinities or `NaN`.  `parsePageRanges` is given twice: on exact integers
  (`parsePageRanges`, with `NaN` as `none`), and as a run on doubles (`parsePageRangesRun`), in
  which `parseInt` and every sum are rounded to 53 significant bits and a loop may never stop.
  Whenever the run on a document of fewer than `2 ^ 53` pages returns, it returns the sequence
  on exact integers (`parsePageRangesRun_some`).  The rotate handler is on doubles.  The
  lengths of the watermark (page sizes, text widths, coordinates) are exact rational numbers.
* A `Set` of numbers is the list of its elements in insertion order.
* A handler is a function from its request to the list of its effects, in order; a call that
  throws is `none`, and the `catch` block of the handler turns it into a response.
* The calls into pdf-lib (`load`, `copyPages`, `addPage`, `setRotation`, `drawText`, `save`)
  act on a document that is the list of its pages.
* The handlers that run an external tool also return the paths that exist on disk at the end;
  what the file system and the child process do is given by a `World`.
* `path.join`, `path.extname` and `path.basename` are the POSIX functions of Node.
-/

namespace PdfManagement

/-! ## JavaScript string and number primitives -/

/-- Code points that ECMAScript counts as `WhiteSpace` or `LineTerminator`: the characters that
`String.prototype.trim` strips and that `parseInt` skips at the start of its input. -/
def whiteSpaceCodes : List Nat :=
  [0x09, 0x0A, 0x0B, 0x0C, 0x0D, 0x20, 0xA0, 0x1680,
   0x2000, 0x2001, 0x2002, 0x2003, 0x2004, 0x2005, 0x2006, 0x2007, 0x2008, 0x2009, 0x200A,
   0x2028, 0x2029, 0x202F, 0x205F, 0x3000, 0xFEFF]

/-- Whether a character is stripped by `trim`. -/
def isWhiteSpace (c : Char) : Bool :=
  decide (c.toNat ∈ whiteSpaceCodes)

/-- `String.prototype.trimStart`. -/
def trimStart (s : List Char) : List Char :=
  s.dropWhile isWhiteSpace

/-- `String.prototype.trimEnd`. -/
def trimEnd (s : List Char) : List Char :=
  (s.reverse.dropWhile isWhiteSpace).reverse

/-- `String.prototype.trim`: white space is removed from both ends. -/
def trim (s : List Char) : List Char :=
  trimStart (trimEnd s)

/-- `String.prototype.split` with a one-character separator: the pieces between the occurrences
of the separator, in order.  The empty string gives one empty piece. -/
def split (sep : Char) : List Char → List (List Char)
  | [] => [[]]
  | c :: cs =>
    if c = sep then [] :: split sep cs
    else match split sep cs with
      | [] => [[c]]
      | piece :: pieces => (c :: piece) :: pieces

/-- `String.prototype.includes` with a one-character argument. -/
def includes (s : List Char) (c : Char) : Bool :=
  decide (c ∈ s)

/-- The value of a run of decimal digits. -/
def digitsValue (z : List Char) : Nat :=
  z.foldl (fun acc c => 10 * acc + (c.toNat - 48)) 0

/-- What `parseInt(s, 10)` reads, as an exact integer: leading white space is skipped, one sign
is read, then the longest run of decimal digits; whatever follows is ignored.  No digit gives
`NaN`, here `none`.  The number that the call returns is this integer rounded to a double,
`parseIntDouble`; below `2 ^ 53` in magnitude the two are the same. -/
def parseInt (s : List Char) : Option Int :=
  let body := s.dropWhile isWhiteSpace
  let signed : Int × List Char :=
    match body with
    | '-' :: rest => (-1, rest)
    | '+' :: rest => (1, rest)
    | _ => (1, body)
  let z := signed.2.takeWhile Char.isDigit
  if z = [] then none else some (signed.1 * (digitsValue z : Int))

/-! ## parsePageRanges (index.js, lines 381-401) -/

/-- `Set.prototype.add` on the insertion-ordered element list: a present value is not added
again. -/
def setAdd (indices : List Int) (x : Int) : List Int :=
  if x ∈ indices then indices else indices ++ [x]

/-- One pass of the body of `for (let i = start; i <= end; i++)` of line 389. -/
def rangeBody (maxPage : Int) (indices : List Int) (i : Int) : List Int :=
  if 0 < i ∧ i ≤ maxPage then setAdd indices (i - 1) else indices

/-- The loop of lines 389-391 on exact integers, started at `i`, with a bound on the number of
passes.  On doubles the loop is `loopRun`, which is this loop while the end is below `2 ^ 53`
and need not stop otherwise. -/
def rangeLoop (maxPage e : Int) : Nat → Int → List Int → List Int
  | 0, _, indices => indices
  | fuel + 1, i, indices =>
    if i ≤ e then rangeLoop maxPage e fuel (i + 1) (rangeBody maxPage indices i)
    else indices

/-- The number of passes after which `i <= end` is false. -/
def rangePasses (start e : Int) : Nat :=
  (e + 1 - start).toNat

/-- The same loop with the end of the bound made visible: `none` when the bound on the passes
is used up while `i <= end` still holds, `some` when the loop has stopped by its condition. -/
def rangeLoopBounded (maxPage e : Int) : Nat → Int → List Int → Option (List Int)
  | 0, i, indices => if i ≤ e then none else some indices
  | fuel + 1, i, indices =>
    if i ≤ e then rangeLoopBounded maxPage e fuel (i + 1) (rangeBody maxPage indices i)
    else some indices

/-- The body of `for (const part of parts)`, lines 386-398. -/
def processPart (maxPage : Int) (indices : List Int) (part : List Char) : List Int :=
  if includes part '-' then
    let nums := (split '-' part).map (fun num => parseInt (trim num))
    match nums[0]?, nums[1]? with
    | some (some start), some (some e) =>
      rangeLoop maxPage e (rangePasses start e) start indices
    | _, _ => indices
  else
    match parseInt (trim part) with
    | some pageNum =>
      if 0 < pageNum ∧ pageNum ≤ maxPage then setAdd indices (pageNum - 1) else indices
    | none => indices

/-- The set `indices` after the loop over the parts, before it is sorted. -/
def collectIndices (ranges : List Char) (maxPage : Int) : List Int :=
  (split ',' ranges).foldl (processPart maxPage) []

/-- The function `parsePageRanges(ranges, maxPage)` on exact integers: the collected set as an
array, sorted with the comparator `(a, b) => a - b`.  It is the array that the call returns for
a document of fewer than `2 ^ 53` pages, whenever the call returns; `parsePageRangesRun` is
the call itself, on doubles. -/
def parsePageRanges (ranges : List Char) (maxPage : Int) : List Int :=
  (collectIndices ranges maxPage).insertionSort (· ≤ ·)

/-! ## Reading a token as the code reads it -/

/-- The token read as a single number by the code: a token without a hyphen, and the leading
integer of its trimmed text as `parseInt` reads it, so that `1.9` and `3abc` read as 1 and
3. -/
def singleInteger (tok : List Char) : Option Int :=
  if '-' ∈ tok then none else parseInt (trim tok)

/-- The token read as a pair by the code: a token with a hyphen whose first two
hyphen-separated fields both have a leading integer as `parseInt` reads it, so that `1-3x` and
`1-3-5` read as the pair of 1 and 3. -/
def hyphenPair (tok : List Char) : Option (Int × Int) :=
  if '-' ∈ tok then
    match (split '-' tok)[0]?.bind (fun f => parseInt (trim f)),
          (split '-' tok)[1]?.bind (fun f => parseInt (trim f)) with
    | some start, some e => some (start, e)
    | _, _ => none
  else none

/-- A token selects the one-based page number `p` as the code reads it: its single number is
`p`, or its pair is `start`, `end` with `start ≤ p ≤ end`. -/
def tokenSelects (tok : List Char) (p : Int) : Prop :=
  singleInteger tok = some p ∨ ∃ start e, hyphenPair tok = some (start, e) ∧ start ≤ p ∧ p ≤ e

/-- A pair token that the code skips: a token with a hyphen whose start or end has no leading
integer, or whose range is reversed (`start > end`). -/
def malformedPair (tok : List Char) : Prop :=
  '-' ∈ tok ∧ (hyphenPair tok = none ∨ ∃ start e, hyphenPair tok = some (start, e) ∧ e < start)

/-- `Array.prototype.join(',')`: the tokens written one after the other with commas between. -/
def joinComma : List (List Char) → List Char
  | [] => []
  | [tok] => tok
  | tok :: rest => tok ++ ',' :: joinComma rest

/-! ## Numbers as doubles -/

/-- A value of a JavaScript number in this code: `NaN`, an integer that a double holds, or an
infinity.  Every number of `parsePageRanges` and of the rotate handler comes from `parseInt`,
`+`, `- 1` or `%` on such values, so no fraction arises. -/
inductive JSNumber where
  | nan
  | finite (value : Int)
  | infinite (negative : Bool)
deriving DecidableEq

/-- The number of low bits that do not fit into the 53 significant bits of a double: how often
`x` is halved until it is below `2 ^ 53`. -/
def excessBits : Nat → Nat → Nat
  | 0, _ => 0
  | fuel + 1, x => if x < 2 ^ 53 then 0 else excessBits fuel (x / 2) + 1

/-- The double nearest to a natural number, ties to the even significand (IEEE 754
round-to-nearest-even, the rounding of every arithmetic operation and of the number that
`parseInt` returns).  Below `2 ^ 53` every natural number is a double. -/
def roundNat (x : Nat) : Nat :=
  let e := excessBits x x
  let q := x / 2 ^ e
  let r := x % 2 ^ e
  if 2 * r < 2 ^ e then q * 2 ^ e
  else if 2 ^ e < 2 * r then (q + 1) * 2 ^ e
  else if q % 2 = 0 then q * 2 ^ e
  else (q + 1) * 2 ^ e

/-- The double nearest to an integer, as an integer; rounding is symmetric in the sign. -/
def roundInt (v : Int) : Int :=
  if v < 0 then -(roundNat v.natAbs : Int) else (roundNat v.natAbs : Int)

/-- The number that holds the exact integer `v`: the nearest double, and an infinity when the
nearest value is `2 ^ 1024` or more in magnitude. -/
def toDouble (v : Int) : JSNumber :=
  if (2 ^ 128) ^ 8 ≤ roundNat v.natAbs then JSNumber.infinite (decide (v < 0))
  else JSNumber.finite (roundInt v)

/-- `parseInt(s, 10)` as the number it returns: the integer of the digit run, rounded to a
double; `NaN` when there is no digit. -/
def parseIntDouble (s : List Char) : JSNumber :=
  match parseInt s with
  | none => JSNumber.nan
  | some v => toDouble v

/-- The comparison `a <= b`; it is false when an operand is `NaN`. -/
def JSNumber.le : JSNumber → JSNumber → Bool
  | JSNumber.finite a, JSNumber.finite b => decide (a ≤ b)
  | JSNumber.finite _, JSNumber.infinite negative => !negative
  | JSNumber.infinite negative, JSNumber.finite _ => negative
  | JSNumber.infinite n1, JSNumber.infinite n2 => n1 || !n2
  | _, _ => false

/-- The value of `i` after `i++`: `i + 1`, rounded to a double. -/
def JSNumber.increment : JSNumber → JSNumber
  | JSNumber.finite a => toDouble (a + 1)
  | x => x

/-! ## parsePageRanges run on doubles -/

/-- One pass of the body of the loop of line 389 for the number `i`: the test
`i > 0 && i <= maxPage` and `indices.add(i - 1)`.  The difference `i - 1` is finite, since
`0 < i`. -/
def bodyRun (maxPage : Int) (indices : List Int) : JSNumber → List Int
  | JSNumber.finite i =>
    if 0 < i ∧ i ≤ maxPage then setAdd indices (roundInt (i - 1)) else indices
  | _ => indices

/-- The loop `for (let i = start; i <= end; i++)` of lines 389-391 on doubles, with a bound on
the number of passes: `some` when the loop has stopped by its condition, `none` when it is
still running after `fuel` passes. -/
def loopRun (maxPage : Int) (e : JSNumber) : Nat → JSNumber → List Int → Option (List Int)
  | 0, i, indices => if JSNumber.le i e then none else some indices
  | fuel + 1, i, indices =>
    if JSNumber.le i e then loopRun maxPage e fuel i.increment (bodyRun maxPage indices i)
    else some indices

/-- The body of `for (const part of parts)`, lines 386-398, on doubles; `none` when the loop of
a pair is still running after `fuel` passes. -/
def processPartRun (fuel : Nat) (maxPage : Int) (indices : List Int) (part : List Char) :
    Option (List Int) :=
  if includes part '-' then
    let nums := (split '-' part).map (fun num => parseIntDouble (trim num))
    match nums[0]?, nums[1]? with
    | some start, some e =>
      if start ≠ JSNumber.nan ∧ e ≠ JSNumber.nan then loopRun maxPage e fuel start indices
      else some indices
    | _, _ => some indices
  else
    match parseIntDouble (trim part) with
    | JSNumber.finite pageNum =>
      if 0 < pageNum ∧ pageNum ≤ maxPage then some (setAdd indices (roundInt (pageNum - 1)))
      else some indices
    | _ => some indices

/-- The loop over the parts on doubles: the parts are processed in order, and a pair whose loop
does not stop keeps the later parts from being reached. -/
def collectRun (fuel : Nat) (maxPage : Int) : List (List Char) → List Int → Option (List Int)
  | [], indices => some indices
  | part :: rest, indices =>
    match processPartRun fuel maxPage indices part with
    | none => none
    | some next => collectRun fuel maxPage rest next

/-- A run of `parsePageRanges(ranges, maxPage)` on doubles in which every loop of a pair may
make up to `fuel` passes: `some` of the array that is returned, `none` when a loop is still
running, so that `none` for every `fuel` is a call that never returns. -/
def parsePageRangesRun (fuel : Nat) (ranges : List Char) (maxPage : Int) : Option (List Int) :=
  (collectRun fuel maxPage (split ',' ranges) []).map (fun indices =>
    indices.insertionSort (· ≤ ·))

/-! ## Bounds within which doubles are exact -/

/-- The bound `2 ^ 53`: every integer up to it in magnitude is a double, `2 ^ 53 + 1` is not,
and `i++` adds one below it. -/
def safeLimit : Int :=
  2 ^ 53

/-- The largest magnitude of an angle for which the sum with a rotation below 360 in magnitude
is below `2 ^ 53`, so that the sum is a double and no rounding takes place. -/
def angleLimit : Int :=
  2 ^ 53 - 360

/-- Every pair of the expression has an end below `2 ^ 53`. -/
def pairEndsSafe (ranges : List Char) : Prop :=
  ∀ tok ∈ split ',' ranges, ∀ pair ∈ hyphenPair tok, pair.2 < safeLimit

instance (ranges : List Char) : Decidable (pairEndsSafe ranges) := by
  unfold pairEndsSafe
  infer_instance

/-- The number of passes that the loop of a token makes on integers; no pass for a token that
is not a pair. -/
def tokenPasses (tok : List Char) : Nat :=
  match hyphenPair tok with
  | some (start, e) => rangePasses start e
  | none => 0

/-- The number of passes that the longest loop of the tokens makes on integers. -/
def passesNeeded : List (List Char) → Nat
  | [] => 0
  | tok :: rest => max (tokenPasses tok) (passesNeeded rest)

/-- A number that is `2 ^ 53` or more: the values at which `i++` no longer adds one. -/
def JSNumber.atLeastLimit : JSNumber → Prop
  | JSNumber.finite w => safeLimit ≤ w
  | JSNumber.infinite negative => negative = false
  | JSNumber.nan => False

/-! ## Reading a token in the words of the specification -/

/-- A text that is a decimal integer and nothing else: a non-empty run of decimal digits, with
white space allowed around it. -/
def decimalInteger (text : List Char) : Option Int :=
  if trim text ≠ [] ∧ ∀ c ∈ trim text, c ∈ "0123456789".toList then
    some ((digitsValue (trim text) : Nat) : Int)
  else none

/-- A token that is a single integer and nothing else. -/
def strictSingle (tok : List Char) : Option Int :=
  if '-' ∈ tok then none else decimalInteger tok

/-- A token that is a hyphenated pair `start-end` and nothing else: two decimal integers with
one hyphen between them. -/
def strictPair (tok : List Char) : Option (Int × Int) :=
  match split '-' tok with
  | [first, second] =>
    match decimalInteger first, decimalInteger second with
    | some start, some e => some (start, e)
    | _, _ => none
  | _ => none

/-- A token selects the page number `p` in the strict reading: it is a single integer equal to
`p`, or a pair `start-end` with `start ≤ p ≤ end`, and holds nothing else. -/
def strictlySelects (tok : List Char) (p : Int) : Prop :=
  strictSingle tok = some p ∨
    ∃ start e, strictPair tok = some (start, e) ∧ start ≤ p ∧ p ≤ e

/-- A malformed pair token in the strict reading: a token with a hyphen that is not two decimal
integers with one hyphen between them, or whose range is reversed. -/
def strictlyMalformed (tok : List Char) : Prop :=
  '-' ∈ tok ∧
    (strictPair tok = none ∨ ∃ start e, strictPair tok = some (start, e) ∧ e < start)

/-! ## Documents: the pdf-lib operations that the handlers call -/

/-- A page of a document: a reference to its content and its rotation angle in degrees. -/
structure PDFPage where
  content : Nat
  rotation : Int
deriving DecidableEq

/-- A loaded document: its pages in order. -/
structure PDFDocument where
  pages : List PDFPage
deriving DecidableEq

/-- `PDFDocument.create()`: a document with no page. -/
def PDFDocument.create : PDFDocument :=
  ⟨[]⟩

/-- `doc.getPageCount()`. -/
def PDFDocument.getPageCount (doc : PDFDocument) : Int :=
  doc.pages.length

/-- `doc.getPageIndices()`: `0, 1, ..., pageCount - 1`. -/
def PDFDocument.getPageIndices (doc : PDFDocument) : List Int :=
  (List.range doc.pages.length).map Int.ofNat

/-- The page at a zero-based index; no page (`undefined`) outside the document. -/
def PDFDocument.pageAt (doc : PDFDocument) (i : Int) : Option PDFPage :=
  if 0 ≤ i then doc.pages[i.toNat]? else none

/-- `dest.copyPages(src, indices)`: copies of the pages of `src` at the indices, in the order of
the indices.  An index without a page makes the call throw, here `none`. -/
def PDFDocument.copyPages (src : PDFDocument) : List Int → Option (List PDFPage)
  | [] => some []
  | i :: rest =>
    match src.pageAt i, PDFDocument.copyPages src rest with
    | some page, some pages => some (page :: pages)
    | _, _ => none

/-- `doc.addPage(page)`: the page is appended. -/
def PDFDocument.addPage (doc : PDFDocument) (page : PDFPage) : PDFDocument :=
  ⟨doc.pages ++ [page]⟩

/-- `page.setRotation(degrees(angle))`.  The method of pdf-lib begins with
`assertMultiple(degreesAngle, 'degreesAngle', 90)`, which throws when `angle % 90 !== 0`, so
also on `NaN`; a throw is `none`.  Otherwise the angle is stored as it is. -/
def PDFPage.setRotation (page : PDFPage) (angle : Option Int) : Option PDFPage :=
  match angle with
  | some a => if Int.tmod a 90 = 0 then some { page with rotation := a } else none
  | none => none

/-! ## The request handlers -/

/-- A file of a multipart request, as multer's memory storage gives it. -/
structure UploadedFile where
  originalname : String
  buffer : List Nat
deriving DecidableEq

/-- What is outside the handlers: `PDFDocument.load` (`none` when it throws), the value of
`Date.now()`, and the uploads directory `path.join(__dirname, 'uploads')`. -/
structure Env where
  load : List Nat → Option PDFDocument
  now : Nat
  uploadsDir : String

/-- Bytes that a handler writes: a buffer of the request, or what `doc.save()` returns. -/
inductive FileData where
  | buffer (bytes : List Nat)
  | saved (doc : PDFDocument)
deriving DecidableEq

/-- The effects of a handler, in the order in which they happen. -/
inductive Action where
  | send (status : Nat) (message : String)
  | createDocument
  | writeFile (path : String) (data : FileData)
  | download (path : String) (fileName : String)
  | unlink (path : String)
  | logError (label : String)
deriving DecidableEq

/-- `path.join(uploadsDir, fileName)` for a plain file name. -/
def uploadPath (env : Env) (fileName : String) : String :=
  env.uploadsDir ++ "/" ++ fileName

/-- The tail shared by the document handlers: the saved document is written to the uploads
directory under `<label>-<Date.now()>.pdf`, sent with `res.download`, and unlinked in the
callback of the download. -/
def writeAndDownload (env : Env) (label : String) (doc : PDFDocument) : List Action :=
  let fileName := label ++ "-" ++ toString env.now ++ ".pdf"
  let filePath := uploadPath env fileName
  [Action.writeFile filePath (FileData.saved doc), Action.download filePath fileName,
    Action.unlink filePath]

/-- The body of `POST /api/merge`. -/
structure MergeRequest where
  files : Option (List UploadedFile)

/-- The loop of lines 37-43: each file is loaded, all its pages are copied and added. -/
def mergeLoop (env : Env) : List UploadedFile → PDFDocument → Option PDFDocument
  | [], mergedPdf => some mergedPdf
  | file :: rest, mergedPdf =>
    match env.load file.buffer with
    | none => none
    | some pdf =>
      match PDFDocument.copyPages pdf pdf.getPageIndices with
      | none => none
      | some copiedPages => mergeLoop env rest (copiedPages.foldl PDFDocument.addPage mergedPdf)

/-- The handler `POST /api/merge` (lines 30-63). -/
def mergeHandler (env : Env) (req : MergeRequest) : List Action :=
  match req.files with
  | none => [Action.send 400 "No files uploaded."]
  | some files =>
    if files.length = 0 then [Action.send 400 "No files uploaded."]
    else
      match mergeLoop env files PDFDocument.create with
      | none =>
        [Action.createDocument, Action.logError "Error merging PDFs:",
          Action.send 500 "An error occurred while merging the PDFs."]
      | some mergedPdf => Action.createDocument :: writeAndDownload env "merged" mergedPdf

/-- What `handleMerge` of the frontend does with the selected files (ToolPage.js, lines 17-33). -/
inductive ClientAction where
  | alert (message : String)
  | post (url : String) (files : List UploadedFile)
deriving DecidableEq

/-- The function `handleMerge` of ToolPage.js up to the request it sends. -/
def handleMerge (selectedFiles : List UploadedFile) : List ClientAction :=
  if selectedFiles.length < 2 then [ClientAction.alert "Please select at least 2 files to merge."]
  else [ClientAction.post "http://localhost:5000/api/merge" selectedFiles]

/-- The body of `POST /api/split`; a field that was not sent is `none`. -/
structure SplitRequest where
  file : Option UploadedFile
  ranges : Option (List Char)

/-- The handler `POST /api/split` (lines 67-104). -/
def splitHandler (env : Env) (req : SplitRequest) : List Action :=
  match req.file with
  | none => [Action.send 400 "No file uploaded."]
  | some file =>
    match req.ranges with
    | none => [Action.send 400 "No page ranges provided."]
    | some ranges =>
      if ranges = [] then [Action.send 400 "No page ranges provided."]
      else
        match env.load file.buffer with
        | none =>
          [Action.logError "Error splitting PDF:",
            Action.send 500 "An error occurred while splitting the PDF."]
        | some originalPdf =>
          let pageIndices := parsePageRanges ranges originalPdf.getPageCount
          if pageIndices.length = 0 then [Action.send 400 "Invalid page ranges provided."]
          else
            match PDFDocument.copyPages originalPdf pageIndices with
            | none =>
              [Action.createDocument, Action.logError "Error splitting PDF:",
                Action.send 500 "An error occurred while splitting the PDF."]
            | some copiedPages =>
              Action.createDocument ::
                writeAndDownload env "split" (copiedPages.foldl PDFDocument.addPage PDFDocument.create)

/-- The body of `POST /api/rotate`. -/
structure RotateRequest where
  file : Option UploadedFile
  angle : Option (List Char)

/-- The remainder operator `%` on integers: the result has the sign of the dividend. -/
def jsRem (a b : Int) : Int :=
  Int.tmod a b

/-- Line 126: `newRotation = (currentRotation + rotationAngle) % 360` on doubles: the sum is
rounded to a double, and the remainder of a finite sum is exact; the remainder of an infinite
sum is `NaN`, and `NaN` stays `NaN`, here `none`. -/
def newRotation (currentRotation : Int) (rotationAngle : JSNumber) : Option Int :=
  match rotationAngle with
  | JSNumber.finite r =>
    match toDouble (currentRotation + r) with
    | JSNumber.finite sum => some (jsRem sum 360)
    | _ => none
  | _ => none

/-- The loop of lines 124-128 over the pages. -/
def rotatePages (rotationAngle : JSNumber) : List PDFPage → Option (List PDFPage)
  | [] => some []
  | page :: rest =>
    match page.setRotation (newRotation page.rotation rotationAngle) with
    | none => none
    | some rotated =>
      match rotatePages rotationAngle rest with
      | none => none
      | some others => some (rotated :: others)

/-- The handler `POST /api/rotate` (lines 107-145). -/
def rotateHandler (env : Env) (req : RotateRequest) : List Action :=
  match req.file with
  | none => [Action.send 400 "No file uploaded."]
  | some file =>
    match req.angle with
    | none => [Action.send 400 "No rotation angle provided."]
    | some angle =>
      if angle = [] then [Action.send 400 "No rotation angle provided."]
      else
        match env.load file.buffer with
        | none =>
          [Action.logError "Error rotating PDF:",
            Action.send 500 "An error occurred while rotating the PDF."]
        | some pdfDoc =>
          match rotatePages (parseIntDouble angle) pdfDoc.pages with
          | none =>
            [Action.logError "Error rotating PDF:",
              Action.send 500 "An error occurred while rotating the PDF."]
          | some pages => writeAndDownload env "rotated" ⟨pages⟩

/-- The body of `POST /api/unlock`; a password that was not sent is `none`. -/
structure UnlockRequest where
  file : Option UploadedFile
  password : Option (List Char)

/-- Lines 196-200: the document is opened with `{ password }` when the password is a non-empty
string, and without options otherwise.  The argument `loadWithPassword` is
`PDFDocument.load(buffer, { password })`; `none` is a call that throws. -/
def unlockOpen (env : Env) (loadWithPassword : List Nat → List Char → Option PDFDocument)
    (file : UploadedFile) (password : Option (List Char)) : Option PDFDocument :=
  match password with
  | none => env.load file.buffer
  | some pw => if pw = [] then env.load file.buffer else loadWithPassword file.buffer pw

/-- The handler `POST /api/unlock` (lines 186-222).  The inner `catch` answers every failure of
the load with status 401; the document is saved with `pdfDoc.save()`, without options. -/
def unlockHandler (env : Env) (loadWithPassword : List Nat → List Char → Option PDFDocument)
    (req : UnlockRequest) : List Action :=
  match req.file with
  | none => [Action.send 400 "No file uploaded."]
  | some file =>
    match unlockOpen env loadWithPassword file req.password with
    | none =>
      [Action.send 401 "Failed to unlock PDF. Incorrect password or file is not encrypted."]
    | some pdfDoc => writeAndDownload env "unlocked" pdfDoc

/-- One call of `page.drawText`: the text and the options it was drawn with.  Lengths, sizes
and opacities are exact rational numbers. -/
structure DrawnText where
  text : List Char
  x : ℚ
  y : ℚ
  size : ℚ
  opacity : ℚ
  color : ℚ × ℚ × ℚ
deriving DecidableEq

/-- A page as the watermark handler sees it: its size and the texts drawn on it. -/
structure CanvasPage where
  width : ℚ
  height : ℚ
  drawn : List DrawnText
deriving DecidableEq

/-- What is outside the watermark handler: `PDFDocument.load`, the method
`font.widthOfTextAtSize` of the embedded Helvetica-Bold font (`none` when it throws, as it does
on a character that the font cannot encode), `Date.now()` and the uploads directory. -/
structure WatermarkEnv where
  load : List Nat → Option (List CanvasPage)
  widthOfTextAtSize : List Char → ℚ → Option ℚ
  now : Nat
  uploadsDir : String

/-- The effects of the watermark handler, in order. -/
inductive WatermarkAction where
  | send (status : Nat) (message : String)
  | embedFont (name : String)
  | writeFile (path : String) (pages : List CanvasPage)
  | download (path : String) (fileName : String)
  | unlink (path : String)
  | logError (label : String)
deriving DecidableEq

/-- The body of `POST /api/watermark`. -/
structure WatermarkRequest where
  file : Option UploadedFile
  text : Option (List Char)

/-- The body of the loop of lines 243-253 for one page. -/
def drawWatermark (env : WatermarkEnv) (text : List Char) (page : CanvasPage) :
    Option CanvasPage :=
  let fontSize : ℚ := 50
  let opacity : ℚ := 0.3
  match env.widthOfTextAtSize text fontSize with
  | none => none
  | some w =>
    some { page with
      drawn := page.drawn ++
        [{ text := text, x := page.width / 2 - w / 2, y := page.height / 2 - fontSize / 2,
           size := fontSize, opacity := opacity, color := (0.5, 0.5, 0.5) }] }

/-- The loop of lines 243-253 over the pages. -/
def watermarkPages (env : WatermarkEnv) (text : List Char) :
    List CanvasPage → Option (List CanvasPage)
  | [] => some []
  | page :: rest =>
    match drawWatermark env text page with
    | none => none
    | some marked =>
      match watermarkPages env text rest with
      | none => none
      | some others => some (marked :: others)

/-- The handler `POST /api/watermark` (lines 225-270). -/
def watermarkHandler (env : WatermarkEnv) (req : WatermarkRequest) : List WatermarkAction :=
  match req.file with
  | none => [WatermarkAction.send 400 "No file uploaded."]
  | some file =>
    match req.text with
    | none => [WatermarkAction.send 400 "No watermark text provided."]
    | some text =>
      if text = [] then [WatermarkAction.send 400 "No watermark text provided."]
      else
        match env.load file.buffer with
        | none =>
          [WatermarkAction.logError "Error adding watermark:",
            WatermarkAction.send 500 "An error occurred while adding the watermark."]
        | some pages =>
          match watermarkPages env text pages with
          | none =>
            [WatermarkAction.embedFont "Helvetica-Bold",
              WatermarkAction.logError "Error adding watermark:",
              WatermarkAction.send 500 "An error occurred while adding the watermark."]
          | some marked =>
            let fileName := "watermarked-" ++ toString env.now ++ ".pdf"
            let filePath := env.uploadsDir ++ "/" ++ fileName
            [WatermarkAction.embedFont "Helvetica-Bold",
              WatermarkAction.writeFile filePath marked,
              WatermarkAction.download filePath fileName, WatermarkAction.unlink filePath]

/-- What `handleWatermark` of the frontend does (ToolPage.js, lines 164-177). -/
inductive WatermarkClientAction where
  | alert (message : String)
  | post (url : String) (file : UploadedFile) (text : List Char)
deriving DecidableEq

/-- The function `handleWatermark` of ToolPage.js up to the request it sends. -/
def handleWatermark (selectedFile : Option UploadedFile) (watermarkText : List Char) :
    List WatermarkClientAction :=
  match selectedFile with
  | none => [WatermarkClientAction.alert "Please select a PDF file."]
  | some file =>
    if trim watermarkText = [] then [WatermarkClientAction.alert "Please enter watermark text."]
    else [WatermarkClientAction.post "http://localhost:5000/api/watermark" file watermarkText]

/-! ## Paths: the functions of Node's `path` module that the handlers call -/

/-- `Array.prototype.join` with a one-character separator. -/
def joinSep (sep : Char) : List (List Char) → List Char
  | [] => []
  | [piece] => piece
  | piece :: rest => piece ++ sep :: joinSep sep rest

/-- One segment of `normalizeString`: an empty segment and `.` are dropped, `..` removes the
segment before it (or, when there is none to remove, stays if the path is relative), every
other segment is kept. -/
def normalizeStep (allowAboveRoot : Bool) (res : List (List Char)) (seg : List Char) :
    List (List Char) :=
  if seg = [] ∨ seg = ['.'] then res
  else if seg = ['.', '.'] then
    match res.getLast? with
    | none => if allowAboveRoot then [seg] else []
    | some last =>
      if last = ['.', '.'] then (if allowAboveRoot then res ++ [seg] else res)
      else res.dropLast
  else res ++ [seg]

/-- `path.normalize(path)`. -/
def normalize (path : List Char) : List Char :=
  if path = [] then ['.']
  else
    let isAbsolute : Bool := path.head? = some '/'
    let trailingSeparator : Bool := path.getLast? = some '/'
    let body := joinSep '/' ((split '/' path).foldl (normalizeStep (!isAbsolute)) [])
    if body = [] then
      (if isAbsolute then ['/'] else if trailingSeparator then ['.', '/'] else ['.'])
    else
      (if isAbsolute then ['/'] else []) ++ body ++ (if trailingSeparator then ['/'] else [])

/-- `path.join(a, b)`: the non-empty arguments joined with `/`, then normalized. -/
def pathJoin (a b : List Char) : List Char :=
  if a = [] then (if b = [] then ['.'] else normalize b)
  else if b = [] then normalize a
  else normalize (a ++ '/' :: b)

/-- The last portion of a path: trailing slashes are ignored, and what follows the last
remaining slash is taken. -/
def lastPortion (path : List Char) : List Char :=
  ((split '/' (path.reverse.dropWhile (fun c => c = '/')).reverse).getLast?).getD []

/-- The text before the last `.` of a name and the text from that `.` on; `none` without a
`.`. -/
def cutAtLastDot : List Char → Option (List Char × List Char)
  | [] => none
  | c :: cs =>
    match cutAtLastDot cs with
    | some (stem, ext) => some (c :: stem, ext)
    | none => if c = '.' then some ([], c :: cs) else none

/-- `path.extname(path)`: the last portion from its last `.` on; empty when the portion has no
`.`, when its only `.` is its first character, and when the portion is `..`. -/
def extname (path : List Char) : List Char :=
  let portion := lastPortion path
  if portion = ['.', '.'] then []
  else
    match cutAtLastDot portion with
    | some (stem, ext) => if stem = [] then [] else ext
    | none => []

/-- `path.basename(path, suffix)`: the last portion, without the suffix when the portion ends
with it and is longer than it. -/
def basename (path suffix : List Char) : List Char :=
  let portion := lastPortion path
  if suffix ≠ [] ∧ suffix.length ≤ path.length then
    if suffix = path then []
    else if suffix.length < portion.length ∧
        portion.drop (portion.length - suffix.length) = suffix then
      portion.take (portion.length - suffix.length)
    else portion
  else portion

/-! ## The handlers that run an external tool -/

/-- The effects of a handler that runs an external tool, in order.  `uncaught` is an exception
that no `catch` block and no listener of the handler receives. -/
inductive ProcAction where
  | send (status : Nat) (message : String)
  | writeFile (path : List Char) (bytes : List Nat)
  | spawn (command : String) (args : List (List Char))
  | logError (text : String)
  | download (path : List Char) (fileName : List Char)
  | unlink (path : List Char)
  | uncaught (what : String)
deriving DecidableEq

/-- How `fs.writeFileSync(inputFilePath, buffer)` ends: the file is written, or the call throws,
with or without the file having been created. -/
inductive StageOutcome where
  | written
  | failed (created : Bool)
deriving DecidableEq

/-- How `spawn` and the child end.  `spawnThrows`: the call throws.  `errorEvent`: the child
object emits `error`, which is how Node reports a tool that could not be started; the handlers
register listeners for `stderr` data and for `close` only.  `closed`: the child ran and `close`
arrives with the exit code (`none` for `null`), after the chunks of `stderr`, the child having
created the listed files. -/
inductive ChildOutcome where
  | spawnThrows
  | errorEvent
  | closed (code : Option Int) (stderr : List String) (created : List (List Char))
deriving DecidableEq

/-- What happens outside the handler during one request. -/
structure World where
  stage : StageOutcome
  child : ChildOutcome
  secondNow : Nat

/-- The effects of one run and the paths that exist on disk after it. -/
structure Run where
  actions : List ProcAction
  disk : List (List Char)
deriving DecidableEq

/-- The paths on disk after `fs.unlinkSync(path)` has removed the file. -/
def removePath (disk : List (List Char)) (path : List Char) : List (List Char) :=
  disk.filter (fun p => p ≠ path)

/-- The texts in which the two handlers differ. -/
structure ToolTexts where
  command : String
  stderrLabel : String
  exitLabel : String
  failedMessage : String
  setupLabel : String
  setupMessage : String

/-- The texts of `POST /api/compress`. -/
def gsTexts : ToolTexts :=
  { command := "gs",
    stderrLabel := "Ghostscript stderr: ",
    exitLabel := "Ghostscript process exited with code ",
    failedMessage := "PDF compression failed.",
    setupLabel := "Error during PDF compression setup:",
    setupMessage := "An error occurred during PDF compression." }

/-- The texts of `POST /api/convert-office`. -/
def sofficeTexts : ToolTexts :=
  { command := "soffice",
    stderrLabel := "LibreOffice stderr: ",
    exitLabel := "LibreOffice process exited with code ",
    failedMessage := "File conversion failed.",
    setupLabel := "Error during office conversion setup:",
    setupMessage := "An error occurred during office conversion." }

/-- The `catch` block (lines 314-319 and 372-377): the error is logged, status 500 is sent,
and each of the two paths is unlinked if it exists. -/
def setupFailure (t : ToolTexts) (inputFilePath outputFilePath : List Char)
    (disk : List (List Char)) : Run :=
  let afterInput := if inputFilePath ∈ disk then removePath disk inputFilePath else disk
  let afterOutput :=
    if outputFilePath ∈ afterInput then removePath afterInput outputFilePath else afterInput
  { actions :=
      [ProcAction.logError t.setupLabel, ProcAction.send 500 t.setupMessage] ++
        (if inputFilePath ∈ disk then [ProcAction.unlink inputFilePath] else []) ++
        (if outputFilePath ∈ afterInput then [ProcAction.unlink outputFilePath] else []),
    disk := afterOutput }

/-- The callback of `res.download` on exit code 0 (lines 301-305 and 359-363): two calls of
`fs.unlinkSync` without a check; a call on a path that does not exist throws, and nothing
catches it. -/
def successCleanup (inputFilePath outputFilePath : List Char) (disk : List (List Char)) :
    Run :=
  if inputFilePath ∈ disk then
    if outputFilePath ∈ removePath disk inputFilePath then
      { actions := [ProcAction.unlink inputFilePath, ProcAction.unlink outputFilePath],
        disk := removePath (removePath disk inputFilePath) outputFilePath }
    else
      { actions := [ProcAction.unlink inputFilePath,
          ProcAction.uncaught "ENOENT: no such file or directory, unlink"],
        disk := removePath disk inputFilePath }
  else
    { actions := [ProcAction.uncaught "ENOENT: no such file or directory, unlink"],
      disk := disk }

/-- The branch of a non-zero exit code (lines 307-310 and 365-368): the input is unlinked
without a check, the output if it exists. -/
def failureCleanup (inputFilePath outputFilePath : List Char) (disk : List (List Char)) :
    Run :=
  if inputFilePath ∈ disk then
    if outputFilePath ∈ removePath disk inputFilePath then
      { actions := [ProcAction.unlink inputFilePath, ProcAction.unlink outputFilePath],
        disk := removePath (removePath disk inputFilePath) outputFilePath }
    else
      { actions := [ProcAction.unlink inputFilePath], disk := removePath disk inputFilePath }
  else
    { actions := [ProcAction.uncaught "ENOENT: no such file or directory, unlink"],
      disk := disk }

/-- The part that the two handlers share (lines 282-319 and 341-377): the input is staged, the
tool is spawned, its `stderr` is logged, and on `close` the result is sent or status 500.  An
error of the download itself is only logged by the code and is left out here. -/
def runTool (t : ToolTexts) (args : List (List Char))
    (inputFilePath outputFilePath outputFileName : List Char) (buffer : List Nat)
    (world : World) (disk : List (List Char)) : Run :=
  match world.stage with
  | StageOutcome.failed created =>
    setupFailure t inputFilePath outputFilePath
      (if created then inputFilePath :: disk else disk)
  | StageOutcome.written =>
    let staged := inputFilePath :: disk
    match world.child with
    | ChildOutcome.spawnThrows =>
      let r := setupFailure t inputFilePath outputFilePath staged
      { r with actions := ProcAction.writeFile inputFilePath buffer :: r.actions }
    | ChildOutcome.errorEvent =>
      { actions := [ProcAction.writeFile inputFilePath buffer, ProcAction.spawn t.command args,
          ProcAction.uncaught "unhandled error event of the child"],
        disk := staged }
    | ChildOutcome.closed code stderr created =>
      let logs := stderr.map (fun chunk => ProcAction.logError (t.stderrLabel ++ chunk))
      let start := [ProcAction.writeFile inputFilePath buffer, ProcAction.spawn t.command args]
      if code = some 0 then
        let r := successCleanup inputFilePath outputFilePath (created ++ staged)
        { r with
          actions := start ++ logs ++
            ProcAction.download outputFilePath outputFileName :: r.actions }
      else
        let r := failureCleanup inputFilePath outputFilePath (created ++ staged)
        { r with
          actions := start ++ logs ++
            [ProcAction.logError
              (t.exitLabel ++ (match code with | some c => toString c | none => "null")),
              ProcAction.send 500 t.failedMessage] ++ r.actions }

/-- The body of `POST /api/compress`. -/
structure CompressRequest where
  file : Option UploadedFile

/-- Line 278: `path.join(uploadsDir, 'input-' + Date.now() + '.pdf')`. -/
def compressInputPath (env : Env) : List Char :=
  pathJoin env.uploadsDir.toList ("input-" ++ toString env.now ++ ".pdf").toList

/-- Line 279, with the value of the second call of `Date.now()`. -/
def compressOutputName (world : World) : List Char :=
  ("compressed-" ++ toString world.secondNow ++ ".pdf").toList

/-- Line 280. -/
def compressOutputPath (env : Env) (world : World) : List Char :=
  pathJoin env.uploadsDir.toList (compressOutputName world)

/-- The handler `POST /api/compress` (lines 273-320). -/
def compressHandler (env : Env) (world : World) (disk : List (List Char))
    (req : CompressRequest) : Run :=
  match req.file with
  | none => { actions := [ProcAction.send 400 "No file uploaded."], disk := disk }
  | some file =>
    runTool gsTexts
      ["-sDEVICE=pdfwrite".toList, "-dCompatibilityLevel=1.4".toList,
        "-dPDFSETTINGS=/ebook".toList, "-dNOPAUSE".toList, "-dBATCH".toList,
        "-sOutputFile=".toList ++ compressOutputPath env world, compressInputPath env]
      (compressInputPath env) (compressOutputPath env world) (compressOutputName world)
      file.buffer world disk

/-- The body of `POST /api/convert-office`. -/
structure ConvertRequest where
  file : Option UploadedFile
  outputFormat : Option (List Char)

/-- Lines 333-338: the name of the output file. -/
def convertOutputName (originalname outputFormat : List Char) : List Char :=
  let inputFileExtension := extname originalname
  let inputBaseName := basename originalname inputFileExtension
  inputBaseName ++ '.' :: outputFormat

/-- Line 337: `path.join(uploadsDir, inputFileName)`. -/
def convertInputPath (env : Env) (file : UploadedFile) : List Char :=
  pathJoin env.uploadsDir.toList file.originalname.toList

/-- Line 339: `path.join(uploadsDir, outputFileName)`. -/
def convertOutputPath (env : Env) (file : UploadedFile) (outputFormat : List Char) :
    List Char :=
  pathJoin env.uploadsDir.toList (convertOutputName file.originalname.toList outputFormat)

/-- The handler `POST /api/convert-office` (lines 323-378). -/
def convertHandler (env : Env) (world : World) (disk : List (List Char))
    (req : ConvertRequest) : Run :=
  match req.file with
  | none => { actions := [ProcAction.send 400 "No file uploaded."], disk := disk }
  | some file =>
    match req.outputFormat with
    | none => { actions := [ProcAction.send 400 "No output format specified."], disk := disk }
    | some outputFormat =>
      if outputFormat = [] then
        { actions := [ProcAction.send 400 "No output format specified."], disk := disk }
      else
        runTool sofficeTexts
          ["--headless".toList, "--convert-to".toList, outputFormat,
            convertInputPath env file, "--outdir".toList, env.uploadsDir.toList]
          (convertInputPath env file) (convertOutputPath env file outputFormat)
          (convertOutputName file.originalname.toList outputFormat) file.buffer world disk

/-- The response of a run: what the handler sends to the caller, a status with a message or a
download. -/
def responseOf (actions : List ProcAction) : List ProcAction :=
  actions.filter (fun a =>
    match a with
    | ProcAction.send _ _ => true
    | ProcAction.download _ _ => true
    | _ => false)

/-! ## Sample data for the concrete cases -/

/-- A toy codec for the concrete cases: every byte `b` is one page with content `b` and
rotation `90 * (b % 4)`. -/
def sampleEnv : Env :=
  { load := fun bytes => some ⟨bytes.map (fun b => ⟨b, 90 * ((b % 4 : Nat) : Int)⟩)⟩,
    now := 0,
    uploadsDir := "uploads" }

/-- A two-page upload. -/
def sampleA : UploadedFile :=
  ⟨"a.pdf", [0, 4]⟩

/-- A three-page upload. -/
def sampleB : UploadedFile :=
  ⟨"b.pdf", [8, 12, 16]⟩

/-- A five-page upload. -/
def sampleFive : UploadedFile :=
  ⟨"five.pdf", [0, 4, 8, 12, 16]⟩

/-- A second toy codec: two bytes `c, q` are one page with content `c` and rotation
`90 * (q - 4)`, so that a saved page at any multiple of 90 can be uploaded again. -/
def decodePairs : List Nat → List PDFPage
  | c :: q :: rest => ⟨c, 90 * ((q : Int) - 4)⟩ :: decodePairs rest
  | _ => []

/-- The environment of the second toy codec. -/
def pairEnv : Env :=
  { load := fun bytes => some ⟨decodePairs bytes⟩,
    now := 0,
    uploadsDir := "uploads" }

/-- A toy environment for the watermark: every byte is a page of 600 by 800, and every
character is 30 wide at size 50. -/
def sampleWatermarkEnv : WatermarkEnv :=
  { load := fun bytes => some (bytes.map (fun _ => ⟨600, 800, []⟩)),
    widthOfTextAtSize := fun text size => some ((text.length : ℚ) * (size * 3 / 5)),
    now := 0,
    uploadsDir := "uploads" }

/-- A toy `PDFDocument.load(buffer, { password })`: the password `secret` opens every buffer as
`sampleEnv` reads it, every other password fails. -/
def sampleLoadWithPassword (bytes : List Nat) (password : List Char) : Option PDFDocument :=
  if password = "secret".toList then sampleEnv.load bytes else none

/-- An environment with an absolute uploads directory. -/
def procEnv : Env :=
  { load := sampleEnv.load,
    now := 7,
    uploadsDir := "/srv/app/uploads" }

/-! ## Further notions in the words of the specification -/

/-- A file name without a directory part: not empty, without `/`, and not `.` or `..`. -/
def plainName (name : List Char) : Prop :=
  name ≠ [] ∧ '/' ∉ name ∧ name ≠ ['.'] ∧ name ≠ ['.', '.']

instance (name : List Char) : Decidable (plainName name) := by
  unfold plainName
  infer_instance

/-- An absolute directory in normal form, as `path.join(__dirname, 'uploads')` is: `/` followed
by plain names with `/` between them. -/
def absoluteDir (dir : List Char) : Prop :=
  ∃ segs : List (List Char), segs ≠ [] ∧ (∀ seg ∈ segs, plainName seg) ∧
    dir = '/' :: joinSep '/' segs

/-- The ascending duplicate-free union of two sequences. -/
def ascendingUnion (xs ys : List Int) : List Int :=
  ((xs ++ ys).dedup).insertionSort (· ≤ ·)

/-! ## Facts about the primitives -/

theorem mem_setAdd (s : List Int) (x y : Int) : y ∈ setAdd s x ↔ y ∈ s ∨ y = x := by
  unfold setAdd
  split
  · constructor
    · intro h; exact Or.inl h
    · rintro (h | h)
      · exact h
      · subst h; assumption
  · simp

theorem nodup_setAdd (s : List Int) (x : Int) (h : s.Nodup) : (setAdd s x).Nodup := by
  unfold setAdd
  split
  · exact h
  · rename_i hx
    refine List.Nodup.append h (List.nodup_singleton x) ?_
    intro a ha hb
    rw [List.mem_singleton] at hb
    subst hb
    exact hx ha

theorem mem_rangeBody (n : Int) (s : List Int) (i y : Int) :
    y ∈ rangeBody n s i ↔ y ∈ s ∨ (0 < i ∧ i ≤ n ∧ y = i - 1) := by
  unfold rangeBody
  split
  · rename_i h
    rw [mem_setAdd]
    constructor
    · rintro (h1 | h1)
      · exact Or.inl h1
      · exact Or.inr ⟨h.1, h.2, h1⟩
    · rintro (h1 | ⟨_, _, h1⟩)
      · exact Or.inl h1
      · exact Or.inr h1
  · rename_i h
    constructor
    · intro h1; exact Or.inl h1
    · rintro (h1 | ⟨h1, h2, _⟩)
      · exact h1
      · exact absurd ⟨h1, h2⟩ h

theorem nodup_rangeBody (n : Int) (s : List Int) (i : Int) (h : s.Nodup) :
    (rangeBody n s i).Nodup := by
  unfold rangeBody
  split
  · exact nodup_setAdd s _ h
  · exact h

theorem mem_rangeLoop (n e : Int) : ∀ (fuel : Nat) (i : Int) (s : List Int) (y : Int),
    y ∈ rangeLoop n e fuel i s ↔
      y ∈ s ∨ ∃ j, i ≤ j ∧ j ≤ e ∧ j < i + fuel ∧ 0 < j ∧ j ≤ n ∧ y = j - 1 := by
  intro fuel
  induction fuel with
  | zero =>
    intro i s y
    simp only [rangeLoop]
    constructor
    · intro h; exact Or.inl h
    · rintro (h | ⟨j, h1, _, h3, _⟩)
      · exact h
      · simp at h3; omega
  | succ fuel ih =>
    intro i s y
    simp only [rangeLoop]
    split
    · rename_i hie
      rw [ih, mem_rangeBody]
      constructor
      · rintro ((h | ⟨h1, h2, h3⟩) | ⟨j, h1, h2, h3, h4, h5, h6⟩)
        · exact Or.inl h
        · exact Or.inr ⟨i, le_refl i, hie, by push_cast; omega, h1, h2, h3⟩
        · exact Or.inr ⟨j, by omega, h2, by push_cast; omega, h4, h5, h6⟩
      · rintro (h | ⟨j, h1, h2, h3, h4, h5, h6⟩)
        · exact Or.inl (Or.inl h)
        · by_cases hj : j = i
          · subst hj; exact Or.inl (Or.inr ⟨h4, h5, h6⟩)
          · refine Or.inr ⟨j, by omega, h2, ?_, h4, h5, h6⟩
            push_cast at h3; omega
    · rename_i hie
      constructor
      · intro h; exact Or.inl h
      · rintro (h | ⟨j, h1, h2, _⟩)
        · exact h
        · omega

theorem nodup_rangeLoop (n e : Int) : ∀ (fuel : Nat) (i : Int) (s : List Int),
    s.Nodup → (rangeLoop n e fuel i s).Nodup := by
  intro fuel
  induction fuel with
  | zero => intro i s h; simpa [rangeLoop] using h
  | succ fuel ih =>
    intro i s h
    simp only [rangeLoop]
    split
    · exact ih _ _ (nodup_rangeBody n s i h)
    · exact h

/-- The loop of lines 389-391 stops because `i <= end` fails, not because the bound on the
passes is reached: every larger bound gives the same set. -/
theorem rangeLoop_fuel (n e : Int) : ∀ (fuel : Nat) (i : Int) (s : List Int),
    rangePasses i e ≤ fuel → rangeLoop n e fuel i s = rangeLoop n e (rangePasses i e) i s := by
  intro fuel
  induction fuel with
  | zero =>
    intro i s h
    have : rangePasses i e = 0 := by omega
    rw [this]
  | succ fuel ih =>
    intro i s h
    by_cases hie : i ≤ e
    · have hk : rangePasses i e = rangePasses (i + 1) e + 1 := by
        unfold rangePasses; omega
      rw [hk]
      simp only [rangeLoop, hie, if_true]
      exact ih _ _ (by omega)
    · have hk : rangePasses i e = 0 := by unfold rangePasses; omega
      rw [hk]
      simp only [rangeLoop, hie, if_false]

/-- With the bound that `processPart` passes, or any larger one, the loop stops by its
condition `i <= end`, and its result is the set that `processPart` takes. -/
theorem rangeLoopBounded_eq (n e : Int) : ∀ (fuel : Nat) (i : Int) (s : List Int),
    rangePasses i e ≤ fuel →
    rangeLoopBounded n e fuel i s = some (rangeLoop n e (rangePasses i e) i s) := by
  intro fuel
  induction fuel with
  | zero =>
    intro i s h
    have hk : rangePasses i e = 0 := by omega
    have hie : ¬ i ≤ e := by unfold rangePasses at hk; omega
    rw [hk]
    simp only [rangeLoopBounded, rangeLoop, hie, if_false]
  | succ fuel ih =>
    intro i s h
    by_cases hie : i ≤ e
    · have hk : rangePasses i e = rangePasses (i + 1) e + 1 := by
        unfold rangePasses; omega
      rw [hk]
      simp only [rangeLoopBounded, rangeLoop, hie, if_true]
      exact ih _ _ (by omega)
    · have hk : rangePasses i e = 0 := by unfold rangePasses; omega
      rw [hk]
      simp only [rangeLoopBounded, rangeLoop, hie, if_false]

/-- Membership after the loop with the bound that `processPart` passes. -/
theorem mem_rangeLoop_passes (n start e : Int) (s : List Int) (y : Int) :
    y ∈ rangeLoop n e (rangePasses start e) start s ↔
      y ∈ s ∨ ∃ j, start ≤ j ∧ j ≤ e ∧ 0 < j ∧ j ≤ n ∧ y = j - 1 := by
  rw [mem_rangeLoop]
  constructor
  · rintro (h | ⟨j, h1, h2, _, h4, h5, h6⟩)
    · exact Or.inl h
    · exact Or.inr ⟨j, h1, h2, h4, h5, h6⟩
  · rintro (h | ⟨j, h1, h2, h4, h5, h6⟩)
    · exact Or.inl h
    · refine Or.inr ⟨j, h1, h2, ?_, h4, h5, h6⟩
      unfold rangePasses; omega

/-- The body of the loop over the parts, written with the two readers of a token. -/
theorem processPart_eq (n : Int) (s : List Int) (part : List Char) :
    processPart n s part =
      match hyphenPair part with
      | some (start, e) => rangeLoop n e (rangePasses start e) start s
      | none =>
        match singleInteger part with
        | some p => if 0 < p ∧ p ≤ n then setAdd s (p - 1) else s
        | none => s := by
  unfold processPart hyphenPair singleInteger includes
  by_cases h : '-' ∈ part
  · simp only [h, decide_True, if_true, List.getElem?_map]
    generalize (split '-' part)[0]? = o0
    generalize (split '-' part)[1]? = o1
    cases o0 with
    | none => simp
    | some f0 =>
      cases o1 with
      | none =>
        simp only [Option.map, Option.bind]
        generalize parseInt (trim f0) = a
        cases a <;> simp
      | some f1 =>
        simp only [Option.map, Option.bind]
        generalize parseInt (trim f0) = a
        generalize parseInt (trim f1) = b
        cases a <;> cases b <;> simp
  · simp only [h, decide_False, if_false]
    generalize parseInt (trim part) = a
    cases a <;> simp

theorem mem_processPart (n : Int) (s : List Int) (part : List Char) (y : Int) :
    y ∈ processPart n s part ↔
      y ∈ s ∨ ∃ p, tokenSelects part p ∧ 0 < p ∧ p ≤ n ∧ y = p - 1 := by
  rw [processPart_eq]
  unfold tokenSelects
  cases hp : hyphenPair part with
  | some se =>
    obtain ⟨start, e⟩ := se
    have hs : singleInteger part = none := by
      unfold hyphenPair at hp
      unfold singleInteger
      by_cases h : '-' ∈ part
      · simp [h]
      · simp [h] at hp
    simp only [mem_rangeLoop_passes, hs]
    constructor
    · rintro (h | ⟨j, h1, h2, h3, h4, h5⟩)
      · exact Or.inl h
      · exact Or.inr ⟨j, Or.inr ⟨start, e, rfl, h1, h2⟩, h3, h4, h5⟩
    · rintro (h | ⟨p, (h0 | ⟨a, b, hab, h1, h2⟩), h3, h4, h5⟩)
      · exact Or.inl h
      · exact absurd h0 (by simp)
      · simp only [Option.some.injEq, Prod.mk.injEq] at hab
        obtain ⟨rfl, rfl⟩ := hab
        exact Or.inr ⟨p, h1, h2, h3, h4, h5⟩
  | none =>
    cases hs : singleInteger part with
    | none =>
      simp only
      constructor
      · intro h; exact Or.inl h
      · rintro (h | ⟨p, (h0 | ⟨a, b, hab, _⟩), _⟩)
        · exact h
        · exact absurd h0 (by simp)
        · exact absurd hab (by simp)
    | some q =>
      simp only
      split
      · rename_i hq
        rw [mem_setAdd]
        constructor
        · rintro (h | h)
          · exact Or.inl h
          · exact Or.inr ⟨q, Or.inl rfl, hq.1, hq.2, h⟩
        · rintro (h | ⟨p, (h0 | ⟨a, b, hab, _⟩), _, _, h5⟩)
          · exact Or.inl h
          · simp only [Option.some.injEq] at h0
            subst h0
            exact Or.inr h5
          · exact absurd hab (by simp)
      · rename_i hq
        constructor
        · intro h; exact Or.inl h
        · rintro (h | ⟨p, (h0 | ⟨a, b, hab, _⟩), h3, h4, _⟩)
          · exact h
          · simp only [Option.some.injEq] at h0
            subst h0
            exact absurd ⟨h3, h4⟩ hq
          · exact absurd hab (by simp)

theorem nodup_processPart (n : Int) (s : List Int) (part : List Char) (h : s.Nodup) :
    (processPart n s part).Nodup := by
  rw [processPart_eq]
  cases hyphenPair part with
  | some se => exact nodup_rangeLoop n se.2 _ _ _ h
  | none =>
    cases singleInteger part with
    | none => exact h
    | some q =>
      simp only
      split
      · exact nodup_setAdd s _ h
      · exact h

theorem mem_foldl_processPart (n : Int) : ∀ (parts : List (List Char)) (s : List Int) (y : Int),
    y ∈ parts.foldl (processPart n) s ↔
      y ∈ s ∨ ∃ part ∈ parts, ∃ p, tokenSelects part p ∧ 0 < p ∧ p ≤ n ∧ y = p - 1 := by
  intro parts
  induction parts with
  | nil => intro s y; simp
  | cons part parts ih =>
    intro s y
    rw [List.foldl_cons, ih, mem_processPart]
    constructor
    · rintro ((h | h) | ⟨q, hq, h⟩)
      · exact Or.inl h
      · exact Or.inr ⟨part, List.mem_cons_self _ _, h⟩
      · exact Or.inr ⟨q, List.mem_cons_of_mem _ hq, h⟩
    · rintro (h | ⟨q, hq, h⟩)
      · exact Or.inl (Or.inl h)
      · rcases List.mem_cons.mp hq with rfl | hq
        · exact Or.inl (Or.inr h)
        · exact Or.inr ⟨q, hq, h⟩

theorem nodup_foldl_processPart (n : Int) : ∀ (parts : List (List Char)) (s : List Int),
    s.Nodup → (parts.foldl (processPart n) s).Nodup := by
  intro parts
  induction parts with
  | nil => intro s h; simpa using h
  | cons part parts ih =>
    intro s h
    rw [List.foldl_cons]
    exact ih _ (nodup_processPart n s part h)

/-- Membership in the result of `parsePageRanges`, by the tokens of the expression. -/
theorem mem_parsePageRanges_iff (ranges : List Char) (n y : Int) :
    y ∈ parsePageRanges ranges n ↔
      ∃ part ∈ split ',' ranges, ∃ p, tokenSelects part p ∧ 0 < p ∧ p ≤ n ∧ y = p - 1 := by
  unfold parsePageRanges collectIndices
  rw [(List.perm_insertionSort _ _).mem_iff, mem_foldl_processPart]
  simp

theorem sorted_parsePageRanges (ranges : List Char) (n : Int) :
    (parsePageRanges ranges n).Sorted (· < ·) := by
  unfold parsePageRanges collectIndices
  refine (List.sorted_insertionSort (· ≤ ·) _).lt_of_le ?_
  exact (List.perm_insertionSort _ _).nodup_iff.mpr
    (nodup_foldl_processPart n _ [] List.nodup_nil)

/-- Two results of `parsePageRanges` with the same elements are the same sequence. -/
theorem parsePageRanges_ext (r1 r2 : List Char) (n1 n2 : Int)
    (h : ∀ y, y ∈ parsePageRanges r1 n1 ↔ y ∈ parsePageRanges r2 n2) :
    parsePageRanges r1 n1 = parsePageRanges r2 n2 := by
  have s1 := sorted_parsePageRanges r1 n1
  have s2 := sorted_parsePageRanges r2 n2
  exact List.eq_of_perm_of_sorted ((List.perm_ext_iff_of_nodup s1.nodup s2.nodup).mpr h) s1 s2

/-! ## Splitting and joining -/

theorem split_ne_nil (sep : Char) : ∀ s : List Char, split sep s ≠ [] := by
  intro s
  cases s with
  | nil => simp [split]
  | cons c cs =>
    unfold split
    split
    · simp
    · split <;> simp

theorem split_cons_sep (sep : Char) (cs : List Char) :
    split sep (sep :: cs) = [] :: split sep cs := by
  simp [split]

theorem split_cons_ne (sep c : Char) (cs piece : List Char) (pieces : List (List Char))
    (h : c ≠ sep) (hs : split sep cs = piece :: pieces) :
    split sep (c :: cs) = (c :: piece) :: pieces := by
  simp [split, h, hs]

theorem split_append_sep (sep : Char) : ∀ a b : List Char,
    split sep (a ++ sep :: b) = split sep a ++ split sep b := by
  intro a b
  induction a with
  | nil => simp [split]
  | cons c cs ih =>
    rw [List.cons_append]
    by_cases h : c = sep
    · subst h
      rw [split_cons_sep, split_cons_sep, ih]
      rfl
    · cases hs : split sep cs with
      | nil => exact absurd hs (split_ne_nil sep cs)
      | cons piece pieces =>
        rw [split_cons_ne sep c cs piece pieces h hs,
          split_cons_ne sep c (cs ++ sep :: b) piece (pieces ++ split sep b) h
            (by rw [ih, hs]; rfl)]
        rfl

theorem split_of_not_mem (sep : Char) : ∀ tok : List Char, sep ∉ tok → split sep tok = [tok] := by
  intro tok
  induction tok with
  | nil => intro _; rfl
  | cons c cs ih =>
    intro h
    have hc : c ≠ sep := fun hc => h (by simp [hc])
    have hcs : sep ∉ cs := fun hcs => h (List.mem_cons_of_mem _ hcs)
    simp only [split, hc, if_false, ih hcs]

theorem split_joinComma : ∀ toks : List (List Char), toks ≠ [] →
    (∀ tok ∈ toks, ',' ∉ tok) → split ',' (joinComma toks) = toks := by
  intro toks
  induction toks with
  | nil => intro h; exact absurd rfl h
  | cons tok rest ih =>
    intro _ hfree
    cases rest with
    | nil =>
      simp only [joinComma]
      exact split_of_not_mem ',' tok (hfree tok (List.mem_cons_self _ _))
    | cons tok2 rest2 =>
      simp only [joinComma]
      rw [split_append_sep, split_of_not_mem ',' tok (hfree tok (List.mem_cons_self _ _))]
      have := ih (by simp) (fun t ht => hfree t (List.mem_cons_of_mem _ ht))
      simp only [joinComma] at this
      rw [this]
      rfl

/-- A malformed pair token leaves the set as it is. -/
theorem processPart_malformed (n : Int) (s : List Int) (tok : List Char)
    (h : malformedPair tok) : processPart n s tok = s := by
  rw [processPart_eq]
  obtain ⟨hmem, hbad⟩ := h
  have hs : singleInteger tok = none := by simp [singleInteger, hmem]
  rcases hbad with hnone | ⟨start, e, hpair, hlt⟩
  · simp [hnone, hs]
  · simp only [hpair]
    have : rangePasses start e = 0 := by unfold rangePasses; omega
    rw [this]
    rfl

/-! ## The claims about parsePageRanges -/

/-- C1: for every range expression and every page count `n`, `parsePageRanges` returns a strictly
ascending, duplicate-free sequence in which every element `k` satisfies `0 ≤ k ≤ n - 1`. -/
theorem parsePageRanges_ascending_in_bounds (ranges : List Char) (n : Int) :
    (parsePageRanges ranges n).Sorted (· < ·) ∧ (parsePageRanges ranges n).Nodup ∧
      ∀ k ∈ parsePageRanges ranges n, 0 ≤ k ∧ k ≤ n - 1 := by
  refine ⟨sorted_parsePageRanges ranges n, (sorted_parsePageRanges ranges n).nodup, ?_⟩
  intro k hk
  obtain ⟨_, _, p, _, h1, h2, h3⟩ := (mem_parsePageRanges_iff ranges n k).mp hk
  omega

/-- C3: the result of `parsePageRanges` does not depend on the order of the tokens: for every
list of comma-free tokens, every permutation of it and every page count, joining the tokens with
commas and parsing gives the same sequence. -/
theorem parsePageRanges_token_order (toks toks' : List (List Char)) (n : Int)
    (hfree : ∀ tok ∈ toks, ',' ∉ tok) (hperm : toks.Perm toks') :
    parsePageRanges (joinComma toks) n = parsePageRanges (joinComma toks') n := by
  by_cases hnil : toks = []
  · subst hnil
    rw [List.nil_perm.mp hperm]
  · have hnil' : toks' ≠ [] := fun h => hnil (by subst h; exact List.perm_nil.mp hperm)
    have hfree' : ∀ tok ∈ toks', ',' ∉ tok := fun t ht => hfree t (hperm.mem_iff.mpr ht)
    apply parsePageRanges_ext
    intro y
    rw [mem_parsePageRanges_iff, mem_parsePageRanges_iff, split_joinComma toks hnil hfree,
      split_joinComma toks' hnil' hfree']
    constructor
    · rintro ⟨t, ht, h⟩; exact ⟨t, hperm.mem_iff.mp ht, h⟩
    · rintro ⟨t, ht, h⟩; exact ⟨t, hperm.mem_iff.mpr ht, h⟩

/-- The order of the tokens `5` and `1-2` does not matter on a 5-page document: both orders give
`[0,1,4]`. -/
theorem parsePageRanges_token_order_witness :
    parsePageRanges (joinComma ["5".toList, "1-2".toList]) 5 =
        parsePageRanges (joinComma ["1-2".toList, "5".toList]) 5 ∧
      parsePageRanges "5,1-2".toList 5 = [0, 1, 4] ∧
      parsePageRanges "1-2,5".toList 5 = [0, 1, 4] :=
  ⟨parsePageRanges_token_order ["5".toList, "1-2".toList] ["1-2".toList, "5".toList] 5
      (by decide) (List.Perm.swap _ _ _),
    by decide, by decide⟩

/-- The set collected from an expression with a malformed pair token at its end, in its middle
or at its start. -/
theorem collectIndices_malformed (a b tok : List Char) (n : Int) (hfree : ',' ∉ tok)
    (hbad : malformedPair tok) :
    collectIndices (a ++ ',' :: tok ++ ',' :: b) n = collectIndices (a ++ ',' :: b) n ∧
      collectIndices (tok ++ ',' :: b) n = collectIndices b n ∧
      collectIndices (a ++ ',' :: tok) n = collectIndices a n ∧
      collectIndices tok n = [] := by
  unfold collectIndices
  refine ⟨?_, ?_, ?_, ?_⟩
  · rw [split_append_sep, split_append_sep, split_append_sep, split_of_not_mem ',' tok hfree]
    simp only [List.foldl_append, List.foldl_cons, List.foldl_nil]
    rw [processPart_malformed n _ tok hbad]
  · rw [split_append_sep, split_of_not_mem ',' tok hfree]
    simp only [List.foldl_append, List.foldl_cons, List.foldl_nil]
    rw [processPart_malformed n _ tok hbad]
  · rw [split_append_sep, split_of_not_mem ',' tok hfree]
    simp only [List.foldl_append, List.foldl_cons, List.foldl_nil]
    rw [processPart_malformed n _ tok hbad]
  · rw [split_of_not_mem ',' tok hfree]
    simp only [List.foldl_cons, List.foldl_nil]
    rw [processPart_malformed n _ tok hbad]

/-! ## Facts about the document operations -/

theorem foldl_addPage : ∀ (pages : List PDFPage) (doc : PDFDocument),
    pages.foldl PDFDocument.addPage doc = ⟨doc.pages ++ pages⟩ := by
  intro pages
  induction pages with
  | nil => intro doc; simp
  | cons page rest ih =>
    intro doc
    rw [List.foldl_cons, ih]
    simp [PDFDocument.addPage]

/-- Copying at indices that all lie inside the document succeeds and gives, index by index, the
page at that index. -/
theorem copyPages_of_bounds (src : PDFDocument) : ∀ indices : List Int,
    (∀ i ∈ indices, 0 ≤ i ∧ i < src.getPageCount) →
    ∃ picked, PDFDocument.copyPages src indices = some picked ∧
      List.Forall₂ (fun i page => src.pageAt i = some page) indices picked := by
  intro indices
  induction indices with
  | nil => intro _; exact ⟨[], rfl, List.Forall₂.nil⟩
  | cons i rest ih =>
    intro h
    obtain ⟨picked, hp, hf⟩ := ih (fun k hk => h k (List.mem_cons_of_mem _ hk))
    obtain ⟨h0, h1⟩ := h i (List.mem_cons_self _ _)
    have hlt : i.toNat < src.pages.length := by
      unfold PDFDocument.getPageCount at h1
      omega
    have hat : src.pageAt i = some (src.pages[i.toNat]) := by
      unfold PDFDocument.pageAt
      rw [if_pos h0, List.getElem?_eq_getElem hlt]
    refine ⟨src.pages[i.toNat] :: picked, ?_, List.Forall₂.cons hat hf⟩
    simp only [PDFDocument.copyPages, hat, hp]

/-- Copying the indices that follow the front part of the document gives the pages after
it. -/
theorem copyPages_suffix : ∀ (l front : List PDFPage),
    PDFDocument.copyPages ⟨front ++ l⟩ ((List.range' front.length l.length).map Int.ofNat) =
      some l := by
  intro l
  induction l with
  | nil => intro front; rfl
  | cons page rest ih =>
    intro front
    have hat : PDFDocument.pageAt ⟨front ++ page :: rest⟩ (Int.ofNat front.length) =
        some page := by
      unfold PDFDocument.pageAt
      have hnn : (0 : Int) ≤ Int.ofNat front.length := Int.ofNat_nonneg _
      rw [if_pos hnn]
      show (front ++ page :: rest)[front.length]? = some page
      rw [List.getElem?_append_right (Nat.le_refl _)]
      simp
    have hrest := ih (front ++ [page])
    rw [List.append_assoc, List.length_append] at hrest
    simp only [List.singleton_append, List.length_singleton] at hrest
    simp only [List.length_cons, List.range'_succ, List.map_cons, PDFDocument.copyPages, hat,
      hrest]

/-- Copying all page indices of a document gives its pages in their order. -/
theorem copyPages_all (pdf : PDFDocument) :
    PDFDocument.copyPages pdf pdf.getPageIndices = some pdf.pages := by
  have h := copyPages_suffix pdf.pages []
  simp only [List.nil_append, List.length_nil] at h
  unfold PDFDocument.getPageIndices
  rw [List.range_eq_range']
  exact h

/-- The loop of merge over files that all load appends the pages of every document, file by
file. -/
theorem mergeLoop_eq (env : Env) : ∀ (files : List UploadedFile) (docs : List PDFDocument)
    (mergedPdf : PDFDocument),
    files.map (fun f => env.load f.buffer) = docs.map some →
    mergeLoop env files mergedPdf =
      some ⟨mergedPdf.pages ++ (docs.map (fun d => d.pages)).flatten⟩ := by
  intro files
  induction files with
  | nil =>
    intro docs mergedPdf h
    cases docs with
    | nil => simp [mergeLoop]
    | cons d ds => simp at h
  | cons file rest ih =>
    intro docs mergedPdf h
    cases docs with
    | nil => simp at h
    | cons d ds =>
      simp only [List.map_cons, List.cons.injEq] at h
      obtain ⟨hd, hrest⟩ := h
      simp only [mergeLoop, hd, copyPages_all, foldl_addPage, ih ds _ hrest, List.map_cons,
        List.flatten_cons, List.append_assoc]

/-- A comma-joined token list is the empty string only for no token or one empty token. -/
theorem joinComma_eq_nil (toks : List (List Char)) :
    joinComma toks = [] ↔ toks = [] ∨ toks = [[]] := by
  cases toks with
  | nil => simp [joinComma]
  | cons tok rest =>
    cases rest with
    | nil => simp [joinComma]
    | cons tok2 rest2 => simp [joinComma]

/-- Expressions with the same tokens parse to the same sequence. -/
theorem parsePageRanges_of_same_tokens (r1 r2 : List Char) (n : Int)
    (h : ∀ tok, tok ∈ split ',' r1 ↔ tok ∈ split ',' r2) :
    parsePageRanges r1 n = parsePageRanges r2 n := by
  apply parsePageRanges_ext
  intro y
  rw [mem_parsePageRanges_iff, mem_parsePageRanges_iff]
  constructor
  · rintro ⟨t, ht, hy⟩; exact ⟨t, (h t).mp ht, hy⟩
  · rintro ⟨t, ht, hy⟩; exact ⟨t, (h t).mpr ht, hy⟩

/-- The handler of split does not see the order of comma-free tokens. -/
theorem splitHandler_perm (env : Env) (file : Option UploadedFile) (toks toks' : List (List Char))
    (hfree : ∀ tok ∈ toks, ',' ∉ tok) (hperm : toks.Perm toks') :
    splitHandler env ⟨file, some (joinComma toks)⟩ =
      splitHandler env ⟨file, some (joinComma toks')⟩ := by
  have hfree' : ∀ tok ∈ toks', ',' ∉ tok := fun t ht => hfree t (hperm.mem_iff.mpr ht)
  by_cases hnil : joinComma toks = []
  · have hnil' : joinComma toks' = [] := by
      rcases (joinComma_eq_nil toks).mp hnil with h | h
      · subst h
        rw [List.nil_perm.mp hperm]
        rfl
      · subst h
        have h2 : toks' = [[]] := (List.singleton_perm.mp hperm).symm
        subst h2
        rfl
    rw [hnil, hnil']
  · have hne : toks ≠ [] := fun h => hnil (by subst h; rfl)
    have hne' : toks' ≠ [] := fun h => hne (by subst h; exact List.perm_nil.mp hperm)
    have hparse : ∀ n, parsePageRanges (joinComma toks) n = parsePageRanges (joinComma toks') n := by
      intro n
      apply parsePageRanges_of_same_tokens
      intro t
      rw [split_joinComma toks hne hfree, split_joinComma toks' hne' hfree']
      exact hperm.mem_iff
    have hnil' : joinComma toks' ≠ [] := by
      intro h
      rcases (joinComma_eq_nil toks').mp h with h | h
      · exact hne' h
      · subst h
        have h2 : toks = [[]] := List.perm_singleton.mp hperm
        subst h2
        exact hnil rfl
    simp only [splitHandler, hnil, hnil', if_false, hparse]

/-! ## Facts about doubles -/

theorem excessBits_of_lt (fuel x : Nat) (h : x < 2 ^ 53) : excessBits fuel x = 0 := by
  cases fuel with
  | zero => rfl
  | succ fuel => simp only [excessBits, h, if_true]

theorem roundNat_of_lt (x : Nat) (h : x < 2 ^ 53) : roundNat x = x := by
  unfold roundNat
  rw [excessBits_of_lt x x h]
  simp [Nat.mod_one]

theorem roundNat_limit : roundNat (2 ^ 53) = 2 ^ 53 := by
  decide

theorem roundNat_of_le (x : Nat) (h : x ≤ 2 ^ 53) : roundNat x = x := by
  rcases Nat.lt_or_ge x (2 ^ 53) with h1 | h1
  · exact roundNat_of_lt x h1
  · have : x = 2 ^ 53 := Nat.le_antisymm h h1
    rw [this]
    exact roundNat_limit

theorem div_mul_pow_succ (x k : Nat) :
    x / 2 ^ (k + 1) * 2 ^ (k + 1) = x / 2 / 2 ^ k * 2 ^ k * 2 := by
  rw [pow_succ', Nat.div_div_eq_div_mul]
  ring

theorem le_div_mul_excessBits : ∀ (fuel x : Nat), 2 ^ 52 ≤ x →
    2 ^ 52 ≤ x / 2 ^ excessBits fuel x * 2 ^ excessBits fuel x := by
  intro fuel
  induction fuel with
  | zero =>
    intro x h
    simpa [excessBits] using h
  | succ fuel ih =>
    intro x h
    by_cases hx : x < 2 ^ 53
    · rw [excessBits_of_lt _ x hx]
      simpa using h
    · have h2 : 2 ^ 52 ≤ x / 2 := by omega
      have := ih (x / 2) h2
      simp only [excessBits, hx, if_false]
      rw [div_mul_pow_succ]
      omega

theorem limit_le_roundNat (x : Nat) (h : 2 ^ 53 ≤ x) : 2 ^ 53 ≤ roundNat x := by
  have hx : ¬ x < 2 ^ 53 := by omega
  have hkey : 2 ^ 53 ≤ x / 2 ^ excessBits x x * 2 ^ excessBits x x := by
    cases x with
    | zero => simp at h
    | succ y =>
      have h2 : 2 ^ 52 ≤ (y + 1) / 2 := by omega
      have := le_div_mul_excessBits y ((y + 1) / 2) h2
      simp only [excessBits, hx, if_false]
      rw [div_mul_pow_succ]
      omega
  have hstep : x / 2 ^ excessBits x x * 2 ^ excessBits x x ≤
      (x / 2 ^ excessBits x x + 1) * 2 ^ excessBits x x :=
    Nat.mul_le_mul_right _ (Nat.le_succ _)
  unfold roundNat
  simp only
  split
  · exact hkey
  · split
    · exact Nat.le_trans hkey hstep
    · split
      · exact hkey
      · exact Nat.le_trans hkey hstep

theorem limit_lt_overflow : (2 : Nat) ^ 53 < (2 ^ 128) ^ 8 := by
  norm_num

/-- An integer of magnitude at most `2 ^ 53` is a double. -/
theorem toDouble_of_abs_le (v : Int) (h1 : -safeLimit ≤ v) (h2 : v ≤ safeLimit) :
    toDouble v = JSNumber.finite v := by
  unfold safeLimit at h1 h2
  have hn : v.natAbs ≤ 2 ^ 53 := by omega
  have hr := roundNat_of_le v.natAbs hn
  have hlt := limit_lt_overflow
  have hno : ¬ (2 ^ 128) ^ 8 ≤ v.natAbs := by omega
  unfold toDouble roundInt
  rw [hr, if_neg hno]
  congr 1
  split <;> omega

theorem roundInt_of_abs_le (v : Int) (h1 : -safeLimit ≤ v) (h2 : v ≤ safeLimit) :
    roundInt v = v := by
  unfold safeLimit at h1 h2
  have hn : v.natAbs ≤ 2 ^ 53 := by omega
  unfold roundInt
  rw [roundNat_of_le v.natAbs hn]
  split <;> omega

/-- An integer from `2 ^ 53` on is held by a number that is `2 ^ 53` or more. -/
theorem toDouble_atLeastLimit (v : Int) (h : safeLimit ≤ v) : (toDouble v).atLeastLimit := by
  unfold safeLimit at h
  have hn : 2 ^ 53 ≤ v.natAbs := by omega
  have hr := limit_le_roundNat v.natAbs hn
  have hv : ¬ v < 0 := by omega
  have hri : safeLimit ≤ roundInt v := by
    unfold roundInt safeLimit
    rw [if_neg hv]
    omega
  unfold toDouble
  split
  · simp [JSNumber.atLeastLimit, hv]
  · exact hri

/-- An integer up to `-2 ^ 53` is held by a negative number. -/
theorem toDouble_of_le_neg (v : Int) (h : v ≤ -safeLimit) :
    toDouble v = JSNumber.infinite true ∨ ∃ w, toDouble v = JSNumber.finite w ∧ w < 0 := by
  unfold safeLimit at h
  have hn : 2 ^ 53 ≤ v.natAbs := by omega
  have hr := limit_le_roundNat v.natAbs hn
  have hv : v < 0 := by omega
  have hri : roundInt v < 0 := by
    unfold roundInt
    rw [if_pos hv]
    omega
  unfold toDouble
  split
  · left; simp [hv]
  · right
    exact ⟨roundInt v, rfl, hri⟩

theorem toDouble_ne_nan (v : Int) : toDouble v ≠ JSNumber.nan := by
  unfold toDouble
  split <;> simp

theorem toDouble_limit_succ : toDouble (safeLimit + 1) = JSNumber.finite safeLimit := by
  decide

/-- Rounding at the integers beyond `2 ^ 53` that the concrete cases use: a tie goes to the
even significand, downwards at `2 ^ 53 + 1` and upwards at `2 ^ 53 + 3`. -/
theorem toDouble_examples :
    toDouble 9007199254740993 = JSNumber.finite 9007199254740992 ∧
      toDouble 9007199254740995 = JSNumber.finite 9007199254740996 ∧
      toDouble 18014398509482101 = JSNumber.finite 18014398509482100 ∧
      toDouble (90 + 18014398509482280) = JSNumber.finite 18014398509482368 ∧
      jsRem 18014398509482368 360 = 88 ∧
      toDouble (-9007199254740993) = JSNumber.finite (-9007199254740992) := by
  decide

theorem le_of_atLeastLimit (x : JSNumber) (e : Int) (hx : x.atLeastLimit) (he : e < safeLimit) :
    JSNumber.le x (JSNumber.finite e) = false := by
  cases x with
  | nan => exact absurd hx (by simp [JSNumber.atLeastLimit])
  | finite w =>
    simp only [JSNumber.atLeastLimit] at hx
    simp only [JSNumber.le, decide_eq_false_iff_not]
    omega
  | infinite negative =>
    simp only [JSNumber.atLeastLimit] at hx
    simp [JSNumber.le, hx]

theorem le_atLeastLimit (v : Int) (e : JSNumber) (hv : v ≤ safeLimit) (he : e.atLeastLimit) :
    JSNumber.le (JSNumber.finite v) e = true := by
  cases e with
  | nan => exact absurd he (by simp [JSNumber.atLeastLimit])
  | finite w =>
    simp only [JSNumber.atLeastLimit] at he
    simp only [JSNumber.le, decide_eq_true_eq]
    omega
  | infinite negative =>
    simp only [JSNumber.atLeastLimit] at he
    simp [JSNumber.le, he]

theorem increment_atLeastLimit (x : JSNumber) (hx : x.atLeastLimit) :
    x.increment.atLeastLimit := by
  cases x with
  | nan => exact absurd hx (by simp [JSNumber.atLeastLimit])
  | finite w =>
    simp only [JSNumber.atLeastLimit] at hx
    exact toDouble_atLeastLimit (w + 1) (by omega)
  | infinite negative => exact hx

theorem bodyRun_atLeastLimit (n : Int) (s : List Int) (x : JSNumber) (hn : n < safeLimit)
    (hx : x.atLeastLimit) : bodyRun n s x = s := by
  cases x with
  | nan => rfl
  | finite w =>
    simp only [JSNumber.atLeastLimit] at hx
    have : ¬ (0 < w ∧ w ≤ n) := by omega
    simp only [bodyRun, this, if_false]
  | infinite negative => rfl

theorem bodyRun_exact (n : Int) (s : List Int) (v : Int) (h1 : -safeLimit < v)
    (h2 : v ≤ safeLimit) : bodyRun n s (JSNumber.finite v) = rangeBody n s v := by
  simp only [bodyRun, rangeBody]
  rw [roundInt_of_abs_le (v - 1) (by omega) (by omega)]

/-- While the end of the pair is below `2 ^ 53`, the loop on doubles is the loop on
integers. -/
theorem loopRun_exact (n e : Int) (he : e < safeLimit) : ∀ (fuel : Nat) (v : Int) (s : List Int),
    -safeLimit < v → loopRun n (JSNumber.finite e) fuel (JSNumber.finite v) s =
      rangeLoopBounded n e fuel v s := by
  intro fuel
  induction fuel with
  | zero =>
    intro v s _
    simp only [loopRun, rangeLoopBounded, JSNumber.le, decide_eq_true_eq]
  | succ fuel ih =>
    intro v s hv
    by_cases hve : v ≤ e
    · simp only [loopRun, rangeLoopBounded, JSNumber.le, hve, decide_True, if_true]
      rw [bodyRun_exact n s v hv (by omega)]
      have hinc : (JSNumber.finite v).increment = JSNumber.finite (v + 1) := by
        simp only [JSNumber.increment]
        exact toDouble_of_abs_le (v + 1) (by omega) (by omega)
      rw [hinc]
      exact ih (v + 1) _ (by omega)
    · simp only [loopRun, rangeLoopBounded, JSNumber.le, hve, decide_False, if_false]
      simp

/-- From `2 ^ 53` on the loop adds no index of a document with fewer than `2 ^ 53` pages. -/
theorem loopRun_atLeastLimit (n : Int) (e : JSNumber) (hn : n < safeLimit) :
    ∀ (fuel : Nat) (i : JSNumber) (s l : List Int), i.atLeastLimit →
      loopRun n e fuel i s = some l → l = s := by
  intro fuel
  induction fuel with
  | zero =>
    intro i s l _ h
    simp only [loopRun] at h
    split at h
    · cases h
    · simp only [Option.some.injEq] at h
      exact h.symm
  | succ fuel ih =>
    intro i s l hi h
    simp only [loopRun] at h
    split at h
    · rw [bodyRun_atLeastLimit n s i hn hi] at h
      exact ih _ _ _ (increment_atLeastLimit i hi) h
    · simp only [Option.some.injEq] at h
      exact h.symm

/-- A loop that starts at or below `2 ^ 53` and whose end is `2 ^ 53` or more never stops: `i`
reaches `2 ^ 53`, and `2 ^ 53 + 1` is rounded to `2 ^ 53` again. -/
theorem loopRun_never_stops (n : Int) (e : JSNumber) (he : e.atLeastLimit) :
    ∀ (fuel : Nat) (v : Int) (s : List Int), -safeLimit < v → v ≤ safeLimit →
      loopRun n e fuel (JSNumber.finite v) s = none := by
  intro fuel
  induction fuel with
  | zero =>
    intro v s _ h2
    simp only [loopRun, le_atLeastLimit v e h2 he, if_true]
  | succ fuel ih =>
    intro v s h1 h2
    simp only [loopRun, le_atLeastLimit v e h2 he, if_true]
    by_cases hv : v = safeLimit
    · subst hv
      have hinc : (JSNumber.finite safeLimit).increment = JSNumber.finite safeLimit := by
        simp only [JSNumber.increment]
        exact toDouble_limit_succ
      rw [hinc]
      exact ih _ _ h1 (Int.le_refl _)
    · have hinc : (JSNumber.finite v).increment = JSNumber.finite (v + 1) := by
        simp only [JSNumber.increment]
        exact toDouble_of_abs_le (v + 1) (by omega) (by omega)
      rw [hinc]
      exact ih _ _ (by omega) (by omega)

theorem rangeLoop_above (n e : Int) : ∀ (fuel : Nat) (i : Int) (s : List Int),
    n < i → rangeLoop n e fuel i s = s := by
  intro fuel
  induction fuel with
  | zero => intro i s _; rfl
  | succ fuel ih =>
    intro i s h
    have hb : rangeBody n s i = s := by
      have : ¬ (0 < i ∧ i ≤ n) := by omega
      simp only [rangeBody, this, if_false]
    simp only [rangeLoop, hb]
    split
    · exact ih _ _ (by omega)
    · rfl

theorem rangeLoopBounded_some (n e : Int) : ∀ (fuel : Nat) (i : Int) (s l : List Int),
    rangeLoopBounded n e fuel i s = some l → l = rangeLoop n e (rangePasses i e) i s := by
  intro fuel
  induction fuel with
  | zero =>
    intro i s l h
    simp only [rangeLoopBounded] at h
    split at h
    · cases h
    · rename_i hie
      have hk : rangePasses i e = 0 := by unfold rangePasses; omega
      simp only [Option.some.injEq] at h
      rw [hk, ← h]
      rfl
  | succ fuel ih =>
    intro i s l h
    simp only [rangeLoopBounded] at h
    split at h
    · rename_i hie
      have hk : rangePasses i e = rangePasses (i + 1) e + 1 := by unfold rangePasses; omega
      rw [hk]
      simp only [rangeLoop, hie, if_true]
      exact ih _ _ _ h
    · rename_i hie
      have hk : rangePasses i e = 0 := by unfold rangePasses; omega
      simp only [Option.some.injEq] at h
      rw [hk, ← h]
      rfl

/-! ## Facts about rotation -/

theorem dvd_jsRem (x : Int) : (90 : Int) ∣ jsRem x 360 ↔ (90 : Int) ∣ x := by
  unfold jsRem
  have h := Int.tmod_def x 360
  generalize Int.tdiv x 360 = q at h
  rw [h]
  omega

theorem jsRem_of_nonneg (x : Int) (h : 0 ≤ x) : jsRem x 360 = x % 360 := by
  unfold jsRem
  exact Int.tmod_eq_emod h (by decide)

/-- A sum of magnitude at most `2 ^ 53` is exact, so the new rotation is its remainder. -/
theorem newRotation_exact (c delta : Int) (h1 : -safeLimit ≤ c + delta)
    (h2 : c + delta ≤ safeLimit) :
    newRotation c (JSNumber.finite delta) = some (jsRem (c + delta) 360) := by
  simp only [newRotation, toDouble_of_abs_le (c + delta) h1 h2]

/-- A page keeps its content and takes the remainder of the sum when the sum is a multiple of
90 of magnitude at most `2 ^ 53`. -/
theorem setRotation_newRotation (page : PDFPage) (delta : Int)
    (h90 : (90 : Int) ∣ page.rotation + delta) (h1 : -safeLimit ≤ page.rotation + delta)
    (h2 : page.rotation + delta ≤ safeLimit) :
    page.setRotation (newRotation page.rotation (JSNumber.finite delta)) =
      some { page with rotation := jsRem (page.rotation + delta) 360 } := by
  have hd : Int.tmod (jsRem (page.rotation + delta) 360) 90 = 0 :=
    Int.tmod_eq_zero_of_dvd ((dvd_jsRem _).mpr h90)
  simp only [newRotation_exact _ _ h1 h2, PDFPage.setRotation, hd, if_true]

theorem rotatePages_of_multiple (delta : Int) : ∀ pages : List PDFPage,
    (∀ p ∈ pages, (90 : Int) ∣ p.rotation + delta ∧ -safeLimit ≤ p.rotation + delta ∧
      p.rotation + delta ≤ safeLimit) →
    rotatePages (JSNumber.finite delta) pages =
      some (pages.map (fun p => { p with rotation := jsRem (p.rotation + delta) 360 })) := by
  intro pages
  induction pages with
  | nil => intro _; rfl
  | cons page rest ih =>
    intro h
    obtain ⟨h90, h1, h2⟩ := h page (List.mem_cons_self _ _)
    simp only [rotatePages, setRotation_newRotation page delta h90 h1 h2,
      ih (fun p hp => h p (List.mem_cons_of_mem _ hp)), List.map_cons]

theorem rotatePages_not_multiple (delta : Int) (page : PDFPage) (rest : List PDFPage)
    (h : ¬ (90 : Int) ∣ page.rotation + delta) (h1 : -safeLimit ≤ page.rotation + delta)
    (h2 : page.rotation + delta ≤ safeLimit) :
    rotatePages (JSNumber.finite delta) (page :: rest) = none := by
  have hd : ¬ Int.tmod (jsRem (page.rotation + delta) 360) 90 = 0 := by
    intro hd
    exact h ((dvd_jsRem _).mp (Int.dvd_of_tmod_eq_zero hd))
  simp only [rotatePages, newRotation_exact _ _ h1 h2, PDFPage.setRotation, hd, if_false]

/-- A text whose integer is at most `2 ^ 53` in magnitude is read as that integer. -/
theorem parseIntDouble_of_parseInt (s : List Char) (v : Int) (h : parseInt s = some v)
    (h1 : -safeLimit ≤ v) (h2 : v ≤ safeLimit) : parseIntDouble s = JSNumber.finite v := by
  simp only [parseIntDouble, h, toDouble_of_abs_le v h1 h2]

theorem parseInt_nil : parseInt [] = none := by
  rfl

/-- The handler of rotate on a document that loads and whose rotations are below 360 in
magnitude, for an angle that reads as `delta` within the limit, when every sum `c + delta` is
a multiple of 90: the document is saved with the remainder of every sum. -/
theorem rotateHandler_of_multiple (env : Env) (file : UploadedFile) (doc : PDFDocument)
    (angle : List Char) (delta : Int)
    (hload : env.load file.buffer = some doc) (hangle : parseInt angle = some delta)
    (hbound : -angleLimit ≤ delta ∧ delta ≤ angleLimit)
    (hall : ∀ p ∈ doc.pages,
      (90 : Int) ∣ p.rotation + delta ∧ -360 < p.rotation ∧ p.rotation < 360) :
    rotateHandler env ⟨some file, some angle⟩ =
      writeAndDownload env "rotated"
        ⟨doc.pages.map (fun p => { p with rotation := jsRem (p.rotation + delta) 360 })⟩ := by
  have hne : angle ≠ [] := by
    intro h
    subst h
    rw [parseInt_nil] at hangle
    cases hangle
  unfold angleLimit at hbound
  have hread := parseIntDouble_of_parseInt angle delta hangle (by unfold safeLimit; omega)
    (by unfold safeLimit; omega)
  have hsum : ∀ p ∈ doc.pages, (90 : Int) ∣ p.rotation + delta ∧
      -safeLimit ≤ p.rotation + delta ∧ p.rotation + delta ≤ safeLimit := by
    intro p hp
    obtain ⟨h90, h1, h2⟩ := hall p hp
    exact ⟨h90, by unfold safeLimit; omega, by unfold safeLimit; omega⟩
  simp only [rotateHandler, hne, if_false, hload, hread,
    rotatePages_of_multiple delta doc.pages hsum]

/-! ## The claims about split, merge and rotate -/

/-- C6: for every split request that carries a file, if the range expression is missing or
empty, or `parsePageRanges(ranges, pageCount)` is the empty sequence, the handler only sends a
validation failure (status 400): no document is created, no file is written and nothing is
downloaded. -/
theorem split_rejects_empty_range (env : Env) (file : UploadedFile)
    (ranges : Option (List Char))
    (h : ranges = none ∨ ranges = some [] ∨
      ∃ r doc, ranges = some r ∧ env.load file.buffer = some doc ∧
        parsePageRanges r doc.getPageCount = []) :
    ∃ message, splitHandler env ⟨some file, ranges⟩ = [Action.send 400 message] ∧
      Action.createDocument ∉ splitHandler env ⟨some file, ranges⟩ ∧
      (∀ path data, Action.writeFile path data ∉ splitHandler env ⟨some file, ranges⟩) ∧
      (∀ path name, Action.download path name ∉ splitHandler env ⟨some file, ranges⟩) := by
  have key : ∃ message, splitHandler env ⟨some file, ranges⟩ = [Action.send 400 message] := by
    rcases h with h | h | ⟨r, doc, h, hload, hparse⟩
    · subst h
      exact ⟨_, rfl⟩
    · subst h
      exact ⟨_, rfl⟩
    · subst h
      by_cases hr : r = []
      · subst hr
        exact ⟨_, rfl⟩
      · refine ⟨"Invalid page ranges provided.", ?_⟩
        simp only [splitHandler, hr, if_false, hload, hparse, List.length_nil, if_true]
  obtain ⟨message, hm⟩ := key
  refine ⟨message, hm, ?_, ?_, ?_⟩
  · rw [hm]; simp
  · intro path data; rw [hm]; simp
  · intro path name; rw [hm]; simp

/-- On the five-page sample the expression `0,100` selects no page, and the split handler only
answers with status 400. -/
theorem split_rejects_empty_range_witness :
    ∃ message,
      splitHandler sampleEnv ⟨some sampleFive, some "0,100".toList⟩ = [Action.send 400 message] ∧
      Action.createDocument ∉ splitHandler sampleEnv ⟨some sampleFive, some "0,100".toList⟩ ∧
      (∀ path data,
        Action.writeFile path data ∉
          splitHandler sampleEnv ⟨some sampleFive, some "0,100".toList⟩) ∧
      (∀ path name,
        Action.download path name ∉
          splitHandler sampleEnv ⟨some sampleFive, some "0,100".toList⟩) :=
  split_rejects_empty_range sampleEnv sampleFive (some "0,100".toList)
    (Or.inr (Or.inr ⟨"0,100".toList, _, rfl, rfl, by decide⟩))

/-- C7: for a document that loads and a range expression whose parse is not empty, the document
that split saves consists of exactly the original pages at the indices
`parsePageRanges(ranges, n)`, in that strictly ascending order and each once; and the handler
gives the same result for every order in which comma-free tokens are written. -/
theorem split_extracts_pages (env : Env) (file : UploadedFile) (doc : PDFDocument)
    (ranges : List Char) (toks toks' : List (List Char))
    (hload : env.load file.buffer = some doc)
    (hne : parsePageRanges ranges doc.getPageCount ≠ [])
    (hfree : ∀ tok ∈ toks, ',' ∉ tok) (hperm : toks.Perm toks') :
    (∃ picked : List PDFPage,
      List.Forall₂ (fun i page => doc.pageAt i = some page)
        (parsePageRanges ranges doc.getPageCount) picked ∧
      splitHandler env ⟨some file, some ranges⟩ =
        Action.createDocument :: writeAndDownload env "split" ⟨picked⟩) ∧
    (parsePageRanges ranges doc.getPageCount).Sorted (· < ·) ∧
    splitHandler env ⟨some file, some (joinComma toks)⟩ =
      splitHandler env ⟨some file, some (joinComma toks')⟩ := by
  refine ⟨?_, sorted_parsePageRanges _ _, splitHandler_perm env _ toks toks' hfree hperm⟩
  have hr : ranges ≠ [] := by
    intro hr
    subst hr
    exact hne rfl
  have hlen : ¬ (parsePageRanges ranges doc.getPageCount).length = 0 := by
    intro hl
    exact hne (List.length_eq_zero.mp hl)
  obtain ⟨picked, hcopy, hforall⟩ := copyPages_of_bounds doc
    (parsePageRanges ranges doc.getPageCount) (by
      intro i hi
      obtain ⟨_, _, p, _, h1, h2, h3⟩ := (mem_parsePageRanges_iff _ _ _).mp hi
      omega)
  refine ⟨picked, hforall, ?_⟩
  simp only [splitHandler, hr, if_false, hload, hlen, hcopy, foldl_addPage,
    PDFDocument.create, List.nil_append]

/-- The ranges `5,1-2` on the five-page sample give the original pages 1, 2 and 5 in that
order, as `1-2,5` does. -/
theorem split_extracts_pages_witness :
    ((∃ picked : List PDFPage,
      List.Forall₂ (fun i page => PDFDocument.pageAt
          ⟨[⟨0, 0⟩, ⟨4, 0⟩, ⟨8, 0⟩, ⟨12, 0⟩, ⟨16, 0⟩]⟩ i = some page)
        (parsePageRanges "5,1-2".toList 5) picked ∧
      splitHandler sampleEnv ⟨some sampleFive, some "5,1-2".toList⟩ =
        Action.createDocument :: writeAndDownload sampleEnv "split" ⟨picked⟩) ∧
    (parsePageRanges "5,1-2".toList 5).Sorted (· < ·) ∧
    splitHandler sampleEnv ⟨some sampleFive, some (joinComma ["5".toList, "1-2".toList])⟩ =
      splitHandler sampleEnv ⟨some sampleFive, some (joinComma ["1-2".toList, "5".toList])⟩) ∧
    splitHandler sampleEnv ⟨some sampleFive, some "5,1-2".toList⟩ =
      [Action.createDocument,
        Action.writeFile "uploads/split-0.pdf" (FileData.saved ⟨[⟨0, 0⟩, ⟨4, 0⟩, ⟨16, 0⟩]⟩),
        Action.download "uploads/split-0.pdf" "split-0.pdf",
        Action.unlink "uploads/split-0.pdf"] :=
  ⟨split_extracts_pages sampleEnv sampleFive ⟨[⟨0, 0⟩, ⟨4, 0⟩, ⟨8, 0⟩, ⟨12, 0⟩, ⟨16, 0⟩]⟩
      "5,1-2".toList ["5".toList, "1-2".toList] ["1-2".toList, "5".toList] rfl (by decide)
      (by decide) (List.Perm.swap _ _ _),
    by decide⟩

/-- C8: for every non-empty list of files that all load, the document that merge saves is the
concatenation of the page sequences of the inputs, in the order of the list and inside each
input in its page order; its page count is the sum of the page counts of the inputs. -/
theorem merge_concatenates (env : Env) (files : List UploadedFile) (docs : List PDFDocument)
    (hne : files ≠ []) (hload : files.map (fun f => env.load f.buffer) = docs.map some) :
    mergeHandler env ⟨some files⟩ =
        Action.createDocument ::
          writeAndDownload env "merged" ⟨(docs.map (fun d => d.pages)).flatten⟩ ∧
      (docs.map (fun d => d.pages)).flatten.length = (docs.map (fun d => d.pages.length)).sum := by
  constructor
  · have hlen : ¬ files.length = 0 := fun h => hne (List.length_eq_zero.mp h)
    simp only [mergeHandler, hlen, if_false, mergeLoop_eq env files docs _ hload,
      PDFDocument.create, List.nil_append]
  · rw [List.length_flatten, List.map_map]
    rfl

/-- Merging the two-page sample and the three-page sample gives five pages in the order
A1, A2, B1, B2, B3. -/
theorem merge_concatenates_witness :
    mergeHandler sampleEnv ⟨some [sampleA, sampleB]⟩ =
        Action.createDocument ::
          writeAndDownload sampleEnv "merged"
            ⟨[⟨0, 0⟩, ⟨4, 0⟩, ⟨8, 0⟩, ⟨12, 0⟩, ⟨16, 0⟩]⟩ ∧
      ([⟨0, 0⟩, ⟨4, 0⟩, ⟨8, 0⟩, ⟨12, 0⟩, ⟨16, 0⟩] : List PDFPage).length = 2 + 3 :=
  merge_concatenates sampleEnv [sampleA, sampleB]
    [⟨[⟨0, 0⟩, ⟨4, 0⟩]⟩, ⟨[⟨8, 0⟩, ⟨12, 0⟩, ⟨16, 0⟩]⟩] (by decide) rfl


/-- C9, as stated, fails on the backend: with exactly one file the merge handler sends no
validation error; it creates, writes and sends a merged document. -/
theorem merge_single_file_proceeds :
    mergeHandler sampleEnv ⟨some [sampleA]⟩ =
        [Action.createDocument,
          Action.writeFile "uploads/merged-0.pdf" (FileData.saved ⟨[⟨0, 0⟩, ⟨4, 0⟩]⟩),
          Action.download "uploads/merged-0.pdf" "merged-0.pdf",
          Action.unlink "uploads/merged-0.pdf"] ∧
      Action.send 400 "No files uploaded." ∉ mergeHandler sampleEnv ⟨some [sampleA]⟩ := by
  decide

/-- C9, amended: the merge handler of the backend only sends a validation error (status 400)
when no file is supplied, and with one or more files that load it creates and sends a merged
document; `handleMerge` of the frontend shows an alert and sends no request when fewer than 2
files are selected, and posts the selected files when there are at least 2. -/
theorem merge_validation (env : Env) (files : List UploadedFile) (docs : List PDFDocument)
    (hload : files.map (fun f => env.load f.buffer) = docs.map some) :
    mergeHandler env ⟨none⟩ = [Action.send 400 "No files uploaded."] ∧
    mergeHandler env ⟨some []⟩ = [Action.send 400 "No files uploaded."] ∧
    (1 ≤ files.length →
      ∃ mergedPdf, mergeHandler env ⟨some files⟩ =
        Action.createDocument :: writeAndDownload env "merged" mergedPdf) ∧
    (files.length < 2 →
      handleMerge files = [ClientAction.alert "Please select at least 2 files to merge."]) ∧
    (2 ≤ files.length →
      handleMerge files = [ClientAction.post "http://localhost:5000/api/merge" files]) := by
  refine ⟨rfl, rfl, ?_, ?_, ?_⟩
  · intro h1
    have hlen : ¬ files.length = 0 := by omega
    refine ⟨⟨(docs.map (fun d => d.pages)).flatten⟩, ?_⟩
    simp only [mergeHandler, hlen, if_false, mergeLoop_eq env files docs _ hload,
      PDFDocument.create, List.nil_append]
  · intro h2
    simp only [handleMerge, h2, if_true]
  · intro h2
    have hlt : ¬ files.length < 2 := by omega
    simp only [handleMerge, hlt, if_false]

/-- With the one-file list the backend proceeds and the frontend refuses. -/
theorem merge_validation_witness :
    (∃ mergedPdf, mergeHandler sampleEnv ⟨some [sampleA]⟩ =
      Action.createDocument :: writeAndDownload sampleEnv "merged" mergedPdf) ∧
    handleMerge [sampleA] = [ClientAction.alert "Please select at least 2 files to merge."] :=
  ⟨(merge_validation sampleEnv [sampleA] [⟨[⟨0, 0⟩, ⟨4, 0⟩]⟩] rfl).2.2.1 (by decide),
    (merge_validation sampleEnv [sampleA] [⟨[⟨0, 0⟩, ⟨4, 0⟩]⟩] rfl).2.2.2.1 (by decide)⟩

/-- C10, as stated, fails: a page at rotation 0 rotated by -90 is saved with rotation -90, which
is neither `(0 + -90) mod 360 = 270` nor in `[0, 360)`; and an angle of 45 makes the handler
fail with status 500.  Beyond `2 ^ 53` the numbers are rounded: the angle `18014398509482280`,
a multiple of 360, makes the handler fail on a page at rotation 90, because the sum is rounded
to a number with remainder 88; and the angle `18014398509482101`, no multiple of 90, is read
as `18014398509482100` and saves a page at rotation 0 with rotation 180. -/
theorem rotate_negative_or_odd_angle :
    rotateHandler sampleEnv ⟨some ⟨"r.pdf", [0]⟩, some "-90".toList⟩ =
        [Action.writeFile "uploads/rotated-0.pdf" (FileData.saved ⟨[⟨0, -90⟩]⟩),
          Action.download "uploads/rotated-0.pdf" "rotated-0.pdf",
          Action.unlink "uploads/rotated-0.pdf"] ∧
      sampleEnv.load [0] = some ⟨[⟨0, 0⟩]⟩ ∧
      ((0 : Int) + -90) % 360 = 270 ∧ ¬ ((0 : Int) ≤ -90) ∧
      rotateHandler sampleEnv ⟨some ⟨"r.pdf", [0]⟩, some "45".toList⟩ =
        [Action.logError "Error rotating PDF:",
          Action.send 500 "An error occurred while rotating the PDF."] ∧
      sampleEnv.load [1] = some ⟨[⟨1, 90⟩]⟩ ∧
      parseInt "18014398509482280".toList = some 18014398509482280 ∧
      ((90 : Int) + 18014398509482280) % 360 = 90 ∧
      rotateHandler sampleEnv ⟨some ⟨"r.pdf", [1]⟩, some "18014398509482280".toList⟩ =
        [Action.logError "Error rotating PDF:",
          Action.send 500 "An error occurred while rotating the PDF."] ∧
      parseInt "18014398509482101".toList = some 18014398509482101 ∧
      ¬ (90 : Int) ∣ 18014398509482101 ∧
      rotateHandler sampleEnv ⟨some ⟨"r.pdf", [0]⟩, some "18014398509482101".toList⟩ =
        writeAndDownload sampleEnv "rotated" ⟨[⟨0, 180⟩]⟩ := by
  decide

/-- C10, amended: for a document whose pages are at rotation 0, 90, 180 or 270 and an angle
that reads as an integer `delta` of magnitude at most `2 ^ 53 - 360`: if `delta` is a multiple
of 90, the handler saves the document, and every page with `c + delta` not negative is saved
with rotation `(c + delta) mod 360`, a value in `[0, 360)`; if `delta` is not a multiple of 90
and the document has a page, the handler fails with status 500 and saves nothing. -/
theorem rotate_by_multiple_of_90 (env : Env) (file : UploadedFile) (doc : PDFDocument)
    (angle : List Char) (delta : Int)
    (hload : env.load file.buffer = some doc)
    (hangle : parseInt angle = some delta)
    (hbound : -angleLimit ≤ delta ∧ delta ≤ angleLimit)
    (hrot : ∀ p ∈ doc.pages,
      p.rotation = 0 ∨ p.rotation = 90 ∨ p.rotation = 180 ∨ p.rotation = 270) :
    ((90 : Int) ∣ delta →
      rotateHandler env ⟨some file, some angle⟩ =
          writeAndDownload env "rotated"
            ⟨doc.pages.map (fun p => { p with rotation := jsRem (p.rotation + delta) 360 })⟩ ∧
        ∀ p ∈ doc.pages, 0 ≤ p.rotation + delta →
          jsRem (p.rotation + delta) 360 = (p.rotation + delta) % 360 ∧
            0 ≤ (p.rotation + delta) % 360 ∧ (p.rotation + delta) % 360 < 360) ∧
    (¬ (90 : Int) ∣ delta → doc.pages ≠ [] →
      rotateHandler env ⟨some file, some angle⟩ =
        [Action.logError "Error rotating PDF:",
          Action.send 500 "An error occurred while rotating the PDF."]) := by
  have hne : angle ≠ [] := by
    intro h
    subst h
    rw [parseInt_nil] at hangle
    cases hangle
  have hdvd : ∀ p ∈ doc.pages,
      (90 : Int) ∣ p.rotation ∧ -360 < p.rotation ∧ p.rotation < 360 := by
    intro p hp
    rcases hrot p hp with h | h | h | h <;> rw [h] <;> decide
  constructor
  · intro h90
    constructor
    · exact rotateHandler_of_multiple env file doc angle delta hload hangle hbound
        (fun p hp => ⟨Int.dvd_add (hdvd p hp).1 h90, (hdvd p hp).2⟩)
    · intro p _ h0
      exact ⟨jsRem_of_nonneg _ h0, by omega, by omega⟩
  · intro h90 hpages
    cases hd : doc.pages with
    | nil => exact absurd hd hpages
    | cons page rest =>
      have hpage : page ∈ doc.pages := by rw [hd]; exact List.mem_cons_self _ _
      have hnot : ¬ (90 : Int) ∣ page.rotation + delta := by
        intro h
        exact h90 ((Int.dvd_add_right (hdvd page hpage).1).mp h)
      have hp := (hdvd page hpage).2
      unfold angleLimit at hbound
      have hread := parseIntDouble_of_parseInt angle delta hangle (by unfold safeLimit; omega)
        (by unfold safeLimit; omega)
      simp only [rotateHandler, hne, if_false, hload, hread, hd,
        rotatePages_not_multiple delta page rest hnot (by unfold safeLimit; omega)
          (by unfold safeLimit; omega)]

/-- A document with a page at rotation 0 and a page at rotation 180, rotated by -90: the
handler saves it, and the page at 180, for which the sum is not negative, is saved at
rotation 90. -/
theorem rotate_by_multiple_of_90_witness :
    sampleEnv.load [0, 2] = some ⟨[⟨0, 0⟩, ⟨2, 180⟩]⟩ ∧
      rotateHandler sampleEnv ⟨some ⟨"r.pdf", [0, 2]⟩, some "-90".toList⟩ =
        writeAndDownload sampleEnv "rotated" ⟨[⟨0, -90⟩, ⟨2, 90⟩]⟩ ∧
      (jsRem ((180 : Int) + -90) 360 = ((180 : Int) + -90) % 360 ∧
        0 ≤ ((180 : Int) + -90) % 360 ∧ ((180 : Int) + -90) % 360 < 360) :=
  ⟨rfl,
    ((rotate_by_multiple_of_90 sampleEnv ⟨"r.pdf", [0, 2]⟩ ⟨[⟨0, 0⟩, ⟨2, 180⟩]⟩ "-90".toList
      (-90) rfl (by decide) (by decide) (by decide)).1 (by decide)).1.trans (by decide),
    ((rotate_by_multiple_of_90 sampleEnv ⟨"r.pdf", [0, 2]⟩ ⟨[⟨0, 0⟩, ⟨2, 180⟩]⟩ "-90".toList
      (-90) rfl (by decide) (by decide) (by decide)).1 (by decide)).2 ⟨2, 180⟩ (by decide)
      (by decide)⟩


/-! ## Parsing a comma-joined expression -/

theorem sorted_ascendingUnion (xs ys : List Int) : (ascendingUnion xs ys).Sorted (· < ·) := by
  unfold ascendingUnion
  refine (List.sorted_insertionSort (· ≤ ·) _).lt_of_le ?_
  exact (List.perm_insertionSort _ _).nodup_iff.mpr (List.nodup_dedup _)

theorem mem_ascendingUnion (xs ys : List Int) (k : Int) :
    k ∈ ascendingUnion xs ys ↔ k ∈ xs ∨ k ∈ ys := by
  unfold ascendingUnion
  rw [(List.perm_insertionSort _ _).mem_iff, List.mem_dedup, List.mem_append]

theorem mem_parsePageRanges_append (a b : List Char) (n k : Int) :
    k ∈ parsePageRanges (a ++ ',' :: b) n ↔
      k ∈ parsePageRanges a n ∨ k ∈ parsePageRanges b n := by
  simp only [mem_parsePageRanges_iff, split_append_sep, List.mem_append]
  constructor
  · rintro ⟨part, hpart | hpart, h⟩
    · exact Or.inl ⟨part, hpart, h⟩
    · exact Or.inr ⟨part, hpart, h⟩
  · rintro (⟨part, hpart, h⟩ | ⟨part, hpart, h⟩)
    · exact ⟨part, Or.inl hpart, h⟩
    · exact ⟨part, Or.inr hpart, h⟩

/-- C19: parsing distributes over joining two expressions with a comma: the result is the
ascending duplicate-free union of the two results; so writing an expression twice changes
nothing. -/
theorem parsePageRanges_comma_union :
    (∀ (a b : List Char) (n : Int),
      parsePageRanges (a ++ ',' :: b) n =
          ascendingUnion (parsePageRanges a n) (parsePageRanges b n) ∧
        (parsePageRanges (a ++ ',' :: b) n).Sorted (· < ·) ∧
        ∀ k, k ∈ parsePageRanges (a ++ ',' :: b) n ↔
          k ∈ parsePageRanges a n ∨ k ∈ parsePageRanges b n) ∧
    (∀ (a : List Char) (n : Int), parsePageRanges (a ++ ',' :: a) n = parsePageRanges a n) ∧
    parsePageRanges ("4,1".toList ++ ',' :: "2-4".toList) 5 = [0, 1, 2, 3] := by
  refine ⟨?_, ?_, by decide⟩
  · intro a b n
    refine ⟨?_, sorted_parsePageRanges _ _, mem_parsePageRanges_append a b n⟩
    have s1 := sorted_parsePageRanges (a ++ ',' :: b) n
    have s2 := sorted_ascendingUnion (parsePageRanges a n) (parsePageRanges b n)
    refine List.eq_of_perm_of_sorted ((List.perm_ext_iff_of_nodup s1.nodup s2.nodup).mpr ?_) s1 s2
    intro k
    rw [mem_parsePageRanges_append, mem_ascendingUnion]
  · intro a n
    apply parsePageRanges_ext
    intro k
    rw [mem_parsePageRanges_append, or_self]

/-! ## Rotating twice -/

/-- C11, as stated, fails: from rotation 0, rotating by -90 and then by -90 leaves the page at
-180, while rotating once by `(-90 + -90) mod 360 = 180` leaves it at 180; and rotating by 45
fails with status 500, so that 45 and then 45 gives no document, while `(45 + 45) mod 360 = 90`
does.  Beyond `2 ^ 53` the sum is rounded: rotating a page at rotation 90 by
`18014398509482280`, a multiple of 360, fails with status 500, so that this angle and then 0
gives no document, while rotating once by `(18014398509482280 + 0) mod 360 = 0` does. -/
theorem rotate_twice_negative_or_odd :
    rotateHandler pairEnv ⟨some ⟨"r.pdf", [0, 4]⟩, some "-90".toList⟩ =
        writeAndDownload pairEnv "rotated" ⟨[⟨0, -90⟩]⟩ ∧
      pairEnv.load [0, 4] = some ⟨[⟨0, 0⟩]⟩ ∧ pairEnv.load [0, 3] = some ⟨[⟨0, -90⟩]⟩ ∧
      rotateHandler pairEnv ⟨some ⟨"r1.pdf", [0, 3]⟩, some "-90".toList⟩ =
        writeAndDownload pairEnv "rotated" ⟨[⟨0, -180⟩]⟩ ∧
      ((-90 : Int) + -90) % 360 = 180 ∧
      rotateHandler pairEnv ⟨some ⟨"r.pdf", [0, 4]⟩, some "180".toList⟩ =
        writeAndDownload pairEnv "rotated" ⟨[⟨0, 180⟩]⟩ ∧
      rotateHandler pairEnv ⟨some ⟨"r.pdf", [0, 4]⟩, some "45".toList⟩ =
        [Action.logError "Error rotating PDF:",
          Action.send 500 "An error occurred while rotating the PDF."] ∧
      ((45 : Int) + 45) % 360 = 90 ∧
      rotateHandler pairEnv ⟨some ⟨"r.pdf", [0, 4]⟩, some "90".toList⟩ =
        writeAndDownload pairEnv "rotated" ⟨[⟨0, 90⟩]⟩ ∧
      pairEnv.load [0, 5] = some ⟨[⟨0, 90⟩]⟩ ∧
      parseInt "18014398509482280".toList = some 18014398509482280 ∧
      rotateHandler pairEnv ⟨some ⟨"r.pdf", [0, 5]⟩, some "18014398509482280".toList⟩ =
        [Action.logError "Error rotating PDF:",
          Action.send 500 "An error occurred while rotating the PDF."] ∧
      ((18014398509482280 : Int) + 0) % 360 = 0 ∧
      rotateHandler pairEnv ⟨some ⟨"r.pdf", [0, 5]⟩, some "0".toList⟩ =
        writeAndDownload pairEnv "rotated" ⟨[⟨0, 90⟩]⟩ := by
  decide

/-- C11, amended: for a document whose pages are at rotation 0, 90, 180 or 270 and multiples
`d1`, `d2` of 90 of magnitude at most `2 ^ 53 - 360`: rotating by `d1`, rotating the saved
result by `d2`, and rotating once by `(d1 + d2) mod 360` each save a document; every page for
which neither `c + d1` nor `((c + d1) mod 360) + d2` is negative has the same rotation after
the two rotations as after the single one, namely `(c + d1 + d2) mod 360`; when this holds of
every page, the two responses are the same; and rotating by 360 saves the document with every
rotation unchanged. -/
theorem rotate_twice (env : Env) (file1 file2 : UploadedFile) (doc : PDFDocument)
    (a1 a2 a12 a360 : List Char) (d1 d2 : Int)
    (hload1 : env.load file1.buffer = some doc)
    (hload2 : env.load file2.buffer =
      some ⟨doc.pages.map (fun p => { p with rotation := jsRem (p.rotation + d1) 360 })⟩)
    (ha1 : parseInt a1 = some d1) (ha2 : parseInt a2 = some d2)
    (ha12 : parseInt a12 = some ((d1 + d2) % 360)) (ha360 : parseInt a360 = some 360)
    (hrot : ∀ p ∈ doc.pages,
      p.rotation = 0 ∨ p.rotation = 90 ∨ p.rotation = 180 ∨ p.rotation = 270)
    (h1 : (90 : Int) ∣ d1) (h2 : (90 : Int) ∣ d2)
    (hb1 : -angleLimit ≤ d1 ∧ d1 ≤ angleLimit) (hb2 : -angleLimit ≤ d2 ∧ d2 ≤ angleLimit) :
    rotateHandler env ⟨some file1, some a1⟩ =
        writeAndDownload env "rotated"
          ⟨doc.pages.map (fun p => { p with rotation := jsRem (p.rotation + d1) 360 })⟩ ∧
      rotateHandler env ⟨some file2, some a2⟩ =
        writeAndDownload env "rotated"
          ⟨doc.pages.map (fun p =>
            { p with rotation := jsRem (jsRem (p.rotation + d1) 360 + d2) 360 })⟩ ∧
      rotateHandler env ⟨some file1, some a12⟩ =
        writeAndDownload env "rotated"
          ⟨doc.pages.map (fun p =>
            { p with rotation := jsRem (p.rotation + (d1 + d2) % 360) 360 })⟩ ∧
      (∀ p ∈ doc.pages, 0 ≤ p.rotation + d1 → 0 ≤ (p.rotation + d1) % 360 + d2 →
        jsRem (jsRem (p.rotation + d1) 360 + d2) 360 = (p.rotation + d1 + d2) % 360 ∧
          jsRem (p.rotation + (d1 + d2) % 360) 360 = (p.rotation + d1 + d2) % 360) ∧
      ((∀ p ∈ doc.pages, 0 ≤ p.rotation + d1 ∧ 0 ≤ (p.rotation + d1) % 360 + d2) →
        rotateHandler env ⟨some file2, some a2⟩ = rotateHandler env ⟨some file1, some a12⟩) ∧
      rotateHandler env ⟨some file1, some a360⟩ = writeAndDownload env "rotated" doc := by
  have hdvd : ∀ p ∈ doc.pages, (90 : Int) ∣ p.rotation ∧ 0 ≤ p.rotation ∧ p.rotation < 360 := by
    intro p hp
    rcases hrot p hp with h | h | h | h <;> rw [h] <;> decide
  have hrem : ∀ x : Int, -360 < jsRem x 360 ∧ jsRem x 360 < 360 := by
    intro x
    unfold jsRem
    cases x with
    | ofNat m =>
      have h : Int.tmod (Int.ofNat m) 360 = ((m % 360 : Nat) : Int) := rfl
      rw [h]
      omega
    | negSucc m =>
      have h : Int.tmod (Int.negSucc m) 360 = -(((m + 1) % 360 : Nat) : Int) := rfl
      rw [h]
      omega
  have hpage : ∀ p ∈ doc.pages, 0 ≤ p.rotation + d1 → 0 ≤ (p.rotation + d1) % 360 + d2 →
      jsRem (jsRem (p.rotation + d1) 360 + d2) 360 = (p.rotation + d1 + d2) % 360 ∧
        jsRem (p.rotation + (d1 + d2) % 360) 360 = (p.rotation + d1 + d2) % 360 := by
    intro p hp hn1 hn2
    have := hdvd p hp
    rw [jsRem_of_nonneg _ hn1, jsRem_of_nonneg _ hn2, jsRem_of_nonneg _ (by omega)]
    omega
  have hfirst := rotateHandler_of_multiple env file1 doc a1 d1 hload1 ha1 hb1
    (fun p hp => ⟨Int.dvd_add (hdvd p hp).1 h1, by have := hdvd p hp; omega,
      (hdvd p hp).2.2⟩)
  have hsecond := rotateHandler_of_multiple env file2 _ a2 d2 hload2 ha2 hb2 (by
    intro q hq
    simp only [List.mem_map] at hq
    obtain ⟨p, hp, rfl⟩ := hq
    have hr := hrem (p.rotation + d1)
    exact ⟨Int.dvd_add ((dvd_jsRem _).mpr (Int.dvd_add (hdvd p hp).1 h1)) h2, hr.1, hr.2⟩)
  have hsingle := rotateHandler_of_multiple env file1 doc a12 ((d1 + d2) % 360) hload1 ha12
    (by unfold angleLimit; omega)
    (fun p hp => ⟨by have := hdvd p hp; omega, by have := hdvd p hp; omega, (hdvd p hp).2.2⟩)
  simp only [List.map_map] at hsecond
  refine ⟨hfirst, hsecond, hsingle, hpage, ?_, ?_⟩
  · intro hall
    rw [hsecond, hsingle]
    congr 2
    apply List.map_congr_left
    intro p hp
    obtain ⟨e1, e2⟩ := hpage p hp (hall p hp).1 (hall p hp).2
    simp only [Function.comp]
    rw [e1, e2]
  · rw [rotateHandler_of_multiple env file1 doc a360 360 hload1 ha360
      (by unfold angleLimit; decide)
      (fun p hp => ⟨by have := hdvd p hp; omega, by have := hdvd p hp; omega, (hdvd p hp).2.2⟩)]
    congr 1
    cases doc with
    | mk pages =>
      congr 1
      simp only
      conv_rhs => rw [← List.map_id pages]
      apply List.map_congr_left
      intro p hp
      have := hdvd p hp
      have hr : jsRem (p.rotation + 360) 360 = p.rotation := by
        rw [jsRem_of_nonneg _ (by omega)]
        omega
      rw [hr]
      rfl

/-- A document with a page at rotation 0 and a page at rotation 270, rotated by -90 and then
by 180: the three rotations save a document, and the page at 270, for which no sum is
negative, ends at rotation 0 both ways; rotating by 360 saves the rotations 0 and 270. -/
theorem rotate_twice_witness :
    rotateHandler pairEnv ⟨some ⟨"r.pdf", [0, 4, 3, 7]⟩, some "-90".toList⟩ =
        writeAndDownload pairEnv "rotated" ⟨[⟨0, -90⟩, ⟨3, 180⟩]⟩ ∧
      rotateHandler pairEnv ⟨some ⟨"r1.pdf", [0, 3, 3, 6]⟩, some "180".toList⟩ =
        writeAndDownload pairEnv "rotated" ⟨[⟨0, 90⟩, ⟨3, 0⟩]⟩ ∧
      rotateHandler pairEnv ⟨some ⟨"r.pdf", [0, 4, 3, 7]⟩, some "90".toList⟩ =
        writeAndDownload pairEnv "rotated" ⟨[⟨0, 90⟩, ⟨3, 0⟩]⟩ ∧
      (jsRem (jsRem ((270 : Int) + -90) 360 + 180) 360 = ((270 : Int) + -90 + 180) % 360 ∧
        jsRem ((270 : Int) + (-90 + 180) % 360) 360 = ((270 : Int) + -90 + 180) % 360) ∧
      rotateHandler pairEnv ⟨some ⟨"r.pdf", [0, 4, 3, 7]⟩, some "360".toList⟩ =
        writeAndDownload pairEnv "rotated" ⟨[⟨0, 0⟩, ⟨3, 270⟩]⟩ :=
  have h := rotate_twice pairEnv ⟨"r.pdf", [0, 4, 3, 7]⟩ ⟨"r1.pdf", [0, 3, 3, 6]⟩
    ⟨[⟨0, 0⟩, ⟨3, 270⟩]⟩ "-90".toList "180".toList "90".toList "360".toList (-90) 180
    (by decide) (by decide) (by decide) (by decide) (by decide) (by decide) (by decide)
    (by decide) (by decide) (by decide) (by decide)
  ⟨h.1.trans (by decide), h.2.1.trans (by decide), h.2.2.1.trans (by decide),
    h.2.2.2.1 ⟨3, 270⟩ (by decide) (by decide) (by decide), h.2.2.2.2.2⟩


/-! ## Unlock and watermark -/

/-- C13: for every unlock request that carries a file: the document is opened with the password
when a non-empty one is supplied and without a password otherwise; if opening fails the handler
only sends the authentication error (status 401), so no document bytes and no status 500; if
opening succeeds the document is saved with `save()` without options and sent. -/
theorem unlock_auth_error (env : Env)
    (loadWithPassword : List Nat → List Char → Option PDFDocument) (file : UploadedFile)
    (password : Option (List Char)) :
    (unlockOpen env loadWithPassword file password = none →
      unlockHandler env loadWithPassword ⟨some file, password⟩ =
          [Action.send 401
            "Failed to unlock PDF. Incorrect password or file is not encrypted."] ∧
        (∀ message, Action.send 500 message ∉
          unlockHandler env loadWithPassword ⟨some file, password⟩) ∧
        (∀ path name, Action.download path name ∉
          unlockHandler env loadWithPassword ⟨some file, password⟩)) ∧
    (∀ doc, unlockOpen env loadWithPassword file password = some doc →
      unlockHandler env loadWithPassword ⟨some file, password⟩ =
        writeAndDownload env "unlocked" doc) ∧
    (password = none ∨ password = some [] →
      unlockOpen env loadWithPassword file password = env.load file.buffer) ∧
    (∀ pw, password = some pw → pw ≠ [] →
      unlockOpen env loadWithPassword file password = loadWithPassword file.buffer pw) := by
  refine ⟨?_, ?_, ?_, ?_⟩
  · intro h
    have hm : unlockHandler env loadWithPassword ⟨some file, password⟩ =
        [Action.send 401
          "Failed to unlock PDF. Incorrect password or file is not encrypted."] := by
      simp only [unlockHandler, h]
    refine ⟨hm, ?_, ?_⟩
    · intro message
      rw [hm]
      simp
    · intro path name
      rw [hm]
      simp
  · intro doc h
    simp only [unlockHandler, h]
  · rintro (h | h)
    · subst h; rfl
    · subst h; rfl
  · intro pw h hne
    subst h
    simp only [unlockOpen, hne, if_false]

/-- A wrong password on the toy codec gives status 401 and nothing else; the right one gives
the saved document. -/
theorem unlock_auth_error_witness :
    unlockHandler sampleEnv sampleLoadWithPassword ⟨some sampleA, some "guess".toList⟩ =
        [Action.send 401
          "Failed to unlock PDF. Incorrect password or file is not encrypted."] ∧
      unlockHandler sampleEnv sampleLoadWithPassword ⟨some sampleA, some "secret".toList⟩ =
        writeAndDownload sampleEnv "unlocked" ⟨[⟨0, 0⟩, ⟨4, 0⟩]⟩ :=
  ⟨((unlock_auth_error sampleEnv sampleLoadWithPassword sampleA (some "guess".toList)).1
      (by decide)).1,
    (unlock_auth_error sampleEnv sampleLoadWithPassword sampleA (some "secret".toList)).2.1
      ⟨[⟨0, 0⟩, ⟨4, 0⟩]⟩ (by decide)⟩

/-- C14, as stated, fails on the backend: a text of one space is not rejected; the document is
loaded, the text is drawn on its page and the result is sent. -/
theorem watermark_blank_text_proceeds :
    watermarkHandler sampleWatermarkEnv ⟨some ⟨"w.pdf", [1]⟩, some " ".toList⟩ =
        [WatermarkAction.embedFont "Helvetica-Bold",
          WatermarkAction.writeFile "uploads/watermarked-0.pdf"
            [⟨600, 800, [⟨" ".toList, 285, 375, 50, 0.3, (0.5, 0.5, 0.5)⟩]⟩],
          WatermarkAction.download "uploads/watermarked-0.pdf" "watermarked-0.pdf",
          WatermarkAction.unlink "uploads/watermarked-0.pdf"] ∧
      trim " ".toList = [] := by
  decide!

/-- The text drawn on a page by the watermark loop for a text of width `w` at size 50. -/
theorem drawWatermark_eq (env : WatermarkEnv) (text : List Char) (w : ℚ) (page : CanvasPage)
    (hw : env.widthOfTextAtSize text 50 = some w) :
    drawWatermark env text page =
      some { page with
        drawn := page.drawn ++
          [⟨text, page.width / 2 - w / 2, page.height / 2 - 50 / 2, 50, 0.3,
            (0.5, 0.5, 0.5)⟩] } := by
  simp only [drawWatermark, hw]

theorem watermarkPages_eq (env : WatermarkEnv) (text : List Char) (w : ℚ)
    (hw : env.widthOfTextAtSize text 50 = some w) : ∀ pages : List CanvasPage,
    watermarkPages env text pages =
      some (pages.map (fun page => { page with
        drawn := page.drawn ++
          [⟨text, page.width / 2 - w / 2, page.height / 2 - 50 / 2, 50, 0.3,
            (0.5, 0.5, 0.5)⟩] })) := by
  intro pages
  induction pages with
  | nil => rfl
  | cons page rest ih =>
    simp only [watermarkPages, drawWatermark_eq env text w page hw, ih, List.map_cons]

/-- C14, amended: the watermark handler of the backend answers a missing or empty text with
status 400 and nothing else, whatever the environment is (the document is not loaded); every
other text, also one of white space only, is drawn when the document loads and the font can
measure the text; the function `handleWatermark` of the frontend shows an alert and sends no
request for a text that is empty or only white space, and posts the text otherwise. -/
theorem watermark_validation (env other : WatermarkEnv) (req : WatermarkRequest)
    (file : UploadedFile) (text : List Char) (pages : List CanvasPage) (w : ℚ)
    (h : req.text = none ∨ req.text = some []) :
    (∃ message, watermarkHandler env req = [WatermarkAction.send 400 message]) ∧
    watermarkHandler other req = watermarkHandler env req ∧
    (text ≠ [] → env.load file.buffer = some pages →
      env.widthOfTextAtSize text 50 = some w →
      ∃ marked, watermarkHandler env ⟨some file, some text⟩ =
        [WatermarkAction.embedFont "Helvetica-Bold",
          WatermarkAction.writeFile
            (env.uploadsDir ++ "/" ++ ("watermarked-" ++ toString env.now ++ ".pdf")) marked,
          WatermarkAction.download
            (env.uploadsDir ++ "/" ++ ("watermarked-" ++ toString env.now ++ ".pdf"))
            ("watermarked-" ++ toString env.now ++ ".pdf"),
          WatermarkAction.unlink
            (env.uploadsDir ++ "/" ++ ("watermarked-" ++ toString env.now ++ ".pdf"))]) ∧
    (trim text = [] →
      handleWatermark (some file) text =
        [WatermarkClientAction.alert "Please enter watermark text."]) ∧
    (trim text ≠ [] →
      handleWatermark (some file) text =
        [WatermarkClientAction.post "http://localhost:5000/api/watermark" file text]) := by
  obtain ⟨reqFile, reqText⟩ := req
  simp only at h
  refine ⟨?_, ?_, ?_, ?_, ?_⟩
  · cases reqFile with
    | none => exact ⟨_, rfl⟩
    | some f =>
      rcases h with h | h <;> subst h <;> exact ⟨_, rfl⟩
  · cases reqFile with
    | none => rfl
    | some f =>
      rcases h with h | h <;> subst h <;> rfl
  · intro htext hload hw
    refine ⟨pages.map (fun page => { page with
      drawn := page.drawn ++
        [⟨text, page.width / 2 - w / 2, page.height / 2 - 50 / 2, 50, 0.3,
          (0.5, 0.5, 0.5)⟩] }), ?_⟩
    simp only [watermarkHandler, htext, if_false, hload, watermarkPages_eq env text w hw]
  · intro ht
    simp only [handleWatermark, ht, if_true]
  · intro ht
    simp only [handleWatermark, ht, if_false]

/-- The backend rejects the empty text with status 400 and the frontend rejects the text of
one space. -/
theorem watermark_validation_witness :
    (∃ message, watermarkHandler sampleWatermarkEnv ⟨some ⟨"w.pdf", [1]⟩, some []⟩ =
      [WatermarkAction.send 400 message]) ∧
    handleWatermark (some ⟨"w.pdf", [1]⟩) " ".toList =
      [WatermarkClientAction.alert "Please enter watermark text."] :=
  ⟨(watermark_validation sampleWatermarkEnv sampleWatermarkEnv ⟨some ⟨"w.pdf", [1]⟩, some []⟩
      ⟨"w.pdf", [1]⟩ " ".toList [] 0 (Or.inr rfl)).1,
    (watermark_validation sampleWatermarkEnv sampleWatermarkEnv ⟨some ⟨"w.pdf", [1]⟩, some []⟩
      ⟨"w.pdf", [1]⟩ " ".toList [] 0 (Or.inr rfl)).2.2.2.1 (by decide)⟩

/-- C15: for a text whose width at size 50 is `w`, the watermark handler draws the text on
every page of size `(width, height)` at `x = width/2 - w/2`, `y = height/2 - 50/2`, with size
50 and opacity 0.3; the midpoint of `[x, x + w]` is `width/2` and the midpoint of `[y, y + 50]`
is `height/2`. -/
theorem watermark_centred (env : WatermarkEnv) (file : UploadedFile) (text : List Char)
    (w : ℚ) (pages : List CanvasPage)
    (htext : text ≠ []) (hload : env.load file.buffer = some pages)
    (hw : env.widthOfTextAtSize text 50 = some w) :
    watermarkHandler env ⟨some file, some text⟩ =
        [WatermarkAction.embedFont "Helvetica-Bold",
          WatermarkAction.writeFile
            (env.uploadsDir ++ "/" ++ ("watermarked-" ++ toString env.now ++ ".pdf"))
            (pages.map (fun page => { page with
              drawn := page.drawn ++
                [⟨text, page.width / 2 - w / 2, page.height / 2 - 50 / 2, 50, 0.3,
                  (0.5, 0.5, 0.5)⟩] })),
          WatermarkAction.download
            (env.uploadsDir ++ "/" ++ ("watermarked-" ++ toString env.now ++ ".pdf"))
            ("watermarked-" ++ toString env.now ++ ".pdf"),
          WatermarkAction.unlink
            (env.uploadsDir ++ "/" ++ ("watermarked-" ++ toString env.now ++ ".pdf"))] ∧
      ∀ page ∈ pages,
        ((page.width / 2 - w / 2) + ((page.width / 2 - w / 2) + w)) / 2 = page.width / 2 ∧
        ((page.height / 2 - 50 / 2) + ((page.height / 2 - 50 / 2) + 50)) / 2 =
          page.height / 2 := by
  constructor
  · simp only [watermarkHandler, htext, if_false, hload, watermarkPages_eq env text w hw]
  · intro page _
    constructor <;> ring

/-- On a page of 600 by 800 the text DRAFT, 150 wide, is drawn at (225, 375). -/
theorem watermark_centred_witness :
    watermarkHandler sampleWatermarkEnv ⟨some ⟨"w.pdf", [1]⟩, some "DRAFT".toList⟩ =
      [WatermarkAction.embedFont "Helvetica-Bold",
        WatermarkAction.writeFile "uploads/watermarked-0.pdf"
          [⟨600, 800, [⟨"DRAFT".toList, 225, 375, 50, 0.3, (0.5, 0.5, 0.5)⟩]⟩],
        WatermarkAction.download "uploads/watermarked-0.pdf" "watermarked-0.pdf",
        WatermarkAction.unlink "uploads/watermarked-0.pdf"] := by
  have h := (watermark_centred sampleWatermarkEnv ⟨"w.pdf", [1]⟩ "DRAFT".toList 150
    [⟨600, 800, []⟩] (by decide) rfl (by decide!)).1
  rw [h]
  decide!

/-! ## Decimal numerals -/

theorem digitChar_mem (d : Nat) (h : d < 10) :
    Nat.digitChar d ∈ "0123456789".toList ∧ (Nat.digitChar d).toNat - 48 = d := by
  interval_cases d <;> decide

theorem decimal_char_props : ∀ c ∈ "0123456789".toList,
    c.isDigit = true ∧ isWhiteSpace c = false ∧ c ≠ '-' ∧ c ≠ '+' ∧ c ≠ ',' := by
  decide

theorem digitsValue_append_singleton (pre : List Char) (c : Char) :
    digitsValue (pre ++ [c]) = 10 * digitsValue pre + (c.toNat - 48) := by
  simp [digitsValue, List.foldl_append]

theorem toDigitsCore_spec : ∀ (fuel n : Nat) (ds : List Char), n < fuel →
    ∃ pre, Nat.toDigitsCore 10 fuel n ds = pre ++ ds ∧ pre ≠ [] ∧
      (∀ c ∈ pre, c ∈ "0123456789".toList) ∧ digitsValue pre = n := by
  intro fuel
  induction fuel with
  | zero => intro n ds h; omega
  | succ fuel ih =>
    intro n ds h
    have hd := digitChar_mem (n % 10) (Nat.mod_lt _ (by decide))
    by_cases h0 : n / 10 = 0
    · refine ⟨[Nat.digitChar (n % 10)], ?_, by simp, ?_, ?_⟩
      · simp [Nat.toDigitsCore, h0]
      · intro c hc
        rw [List.mem_singleton] at hc
        rw [hc]; exact hd.1
      · have : digitsValue [Nat.digitChar (n % 10)] = (Nat.digitChar (n % 10)).toNat - 48 := by
          simp [digitsValue]
        rw [this, hd.2]
        omega
    · obtain ⟨pre, hpre, _, hall, hval⟩ := ih (n / 10) (Nat.digitChar (n % 10) :: ds) (by omega)
      refine ⟨pre ++ [Nat.digitChar (n % 10)], ?_, by simp, ?_, ?_⟩
      · simp [Nat.toDigitsCore, h0, hpre]
      · intro c hc
        rcases List.mem_append.mp hc with hc | hc
        · exact hall c hc
        · rw [List.mem_singleton] at hc
          rw [hc]; exact hd.1
      · rw [digitsValue_append_singleton, hval, hd.2]
        omega

theorem parseInt_of_decimal (pre : List Char) (hne : pre ≠ [])
    (hall : ∀ c ∈ pre, c ∈ "0123456789".toList) :
    parseInt pre = some (digitsValue pre : Int) := by
  cases pre with
  | nil => exact absurd rfl hne
  | cons c cs =>
    have hc := decimal_char_props c (hall c (List.mem_cons_self _ _))
    have hdrop : List.dropWhile isWhiteSpace (c :: cs) = c :: cs := by
      simp [List.dropWhile, hc.2.1]
    have htake : List.takeWhile Char.isDigit (c :: cs) = c :: cs := by
      rw [List.takeWhile_eq_self_iff]
      intro x hx
      exact (decimal_char_props x (hall x hx)).1
    have hm : (match (c :: cs : List Char) with
        | '-' :: rest => ((-1 : Int), rest)
        | '+' :: rest => (1, rest)
        | _ => (1, c :: cs)) = (1, c :: cs) := by
      split
      · rename_i heq
        simp only [List.cons.injEq] at heq
        exact absurd heq.1 hc.2.2.1
      · rename_i heq
        simp only [List.cons.injEq] at heq
        exact absurd heq.1 hc.2.2.2.1
      · rfl
    unfold parseInt
    simp only [hdrop, hm, htake]
    simp

theorem parseInt_toString (n : Nat) : parseInt (toString n).toList = some (n : Int) := by
  obtain ⟨pre, hpre, hne, hall, hval⟩ := toDigitsCore_spec (n + 1) n [] (by omega)
  have : (toString n).toList = pre := by
    show (Nat.repr n).toList = pre
    simp [Nat.repr, Nat.toDigits, hpre, List.asString]
  rw [this, parseInt_of_decimal pre hne hall, hval]

theorem trim_of_no_whiteSpace (s : List Char) (h : ∀ c ∈ s, isWhiteSpace c = false) :
    trim s = s := by
  have hdrop : ∀ l : List Char, (∀ c ∈ l, isWhiteSpace c = false) →
      l.dropWhile isWhiteSpace = l := by
    intro l hl
    cases l with
    | nil => rfl
    | cons c cs => simp [List.dropWhile, hl c (List.mem_cons_self _ _)]
  unfold trim trimStart trimEnd
  rw [hdrop s.reverse (fun c hc => h c (List.mem_reverse.mp hc)), List.reverse_reverse, hdrop s h]

/-- A strictly ascending sequence whose elements are exactly `0, ..., n - 1`. -/
theorem eq_range_of_sorted (l : List Int) (n : Nat) (hs : l.Sorted (· < ·))
    (hmem : ∀ k : Int, k ∈ l ↔ 0 ≤ k ∧ k < n) : l = (List.range n).map Int.ofNat := by
  have hr : ((List.range n).map Int.ofNat).Sorted (· < ·) := by
    apply List.Pairwise.map _ _ (List.pairwise_lt_range n)
    intro a b hab
    exact Int.ofNat_lt.mpr hab
  refine List.eq_of_perm_of_sorted ((List.perm_ext_iff_of_nodup hs.nodup hr.nodup).mpr ?_) hs hr
  intro k
  rw [hmem, List.mem_map]
  constructor
  · rintro ⟨h0, h1⟩
    refine ⟨k.toNat, List.mem_range.mpr (by omega), ?_⟩
    show ((k.toNat : Nat) : Int) = k
    omega
  · rintro ⟨a, ha, rfl⟩
    have := List.mem_range.mp ha
    constructor
    · exact Int.ofNat_nonneg a
    · exact Int.ofNat_lt.mpr this

/-- The single range `1-n` selects every page of a document of `n` pages. -/
theorem parsePageRanges_one_to_n (n : Nat) :
    parsePageRanges ("1-" ++ toString n).toList n = (List.range n).map Int.ofNat := by
  obtain ⟨pre, hpre, hne, hall, hval⟩ := toDigitsCore_spec (n + 1) n [] (by omega)
  have hstr : ("1-" ++ toString n).toList = '1' :: '-' :: pre := by
    show ("1-" ++ Nat.repr n).data = '1' :: '-' :: pre
    simp [Nat.repr, Nat.toDigits, hpre, List.asString]
  have hprops := fun c hc => decimal_char_props c (hall c hc)
  have hnodash : '-' ∉ pre := fun h => (hprops _ h).2.2.1 rfl
  have hnocomma : ',' ∉ '1' :: '-' :: pre := by
    intro h
    simp only [List.mem_cons] at h
    rcases h with h | h | h
    · exact absurd h (by decide)
    · exact absurd h (by decide)
    · exact (hprops _ h).2.2.2.2 rfl
  have hpair : hyphenPair ('1' :: '-' :: pre) = some (1, (n : Int)) := by
    have hsplit : split '-' ('1' :: '-' :: pre) = [['1'], pre] := by
      show split '-' (['1'] ++ '-' :: pre) = [['1'], pre]
      rw [split_append_sep, split_of_not_mem '-' ['1'] (by decide),
        split_of_not_mem '-' pre hnodash]
      rfl
    have h1 : parseInt (trim ['1']) = some 1 := by decide
    have h2 : parseInt (trim pre) = some (n : Int) := by
      rw [trim_of_no_whiteSpace pre (fun c hc => (hprops c hc).2.1),
        parseInt_of_decimal pre hne hall, hval]
    unfold hyphenPair
    simp [hsplit, h1, h2]
  have hsingle : singleInteger ('1' :: '-' :: pre) = none := by
    simp [singleInteger]
  rw [hstr]
  apply eq_range_of_sorted _ _ (sorted_parsePageRanges _ _)
  intro k
  rw [mem_parsePageRanges_iff, split_of_not_mem ',' _ hnocomma]
  simp only [List.mem_singleton, exists_eq_left, tokenSelects, hsingle, hpair,
    Option.some.injEq, Prod.mk.injEq]
  constructor
  · rintro ⟨p, (h | ⟨a, b, ⟨ha, hb⟩, h1, h2⟩), h3, h4, h5⟩
    · cases h
    · omega
  · rintro ⟨h0, h1⟩
    exact ⟨k + 1, Or.inr ⟨1, n, ⟨rfl, rfl⟩, by omega, by omega⟩, by omega, by omega, by omega⟩

/-! ## Splitting by ranges and merging the pieces -/

theorem forall2_pageAt_eq (doc : PDFDocument) (indices : List Int) (picked : List PDFPage)
    (h : List.Forall₂ (fun i page => doc.pageAt i = some page) indices picked) :
    picked = indices.filterMap doc.pageAt := by
  induction h with
  | nil => rfl
  | cons hat _ ih => rw [List.filterMap_cons_some hat, ← ih]

/-- The pages of a document are its pages at the indices `0, ..., n - 1`. -/
theorem pages_eq_filterMap (doc : PDFDocument) :
    doc.pages = ((List.range doc.pages.length).map Int.ofNat).filterMap doc.pageAt := by
  obtain ⟨picked, hcopy, hforall⟩ := copyPages_of_bounds doc doc.getPageIndices (by
    intro i hi
    unfold PDFDocument.getPageIndices at hi
    unfold PDFDocument.getPageCount
    rw [List.mem_map] at hi
    obtain ⟨a, ha, rfl⟩ := hi
    have := List.mem_range.mp ha
    exact ⟨Int.ofNat_nonneg a, Int.ofNat_lt.mpr this⟩)
  rw [copyPages_all] at hcopy
  cases hcopy
  exact forall2_pageAt_eq doc _ _ hforall

/-- When the handler of split answers with a saved document, that document holds the pages at
the parsed indices. -/
theorem splitHandler_saved (env : Env) (file : UploadedFile) (doc piece : PDFDocument)
    (r : List Char) (hload : env.load file.buffer = some doc)
    (h : splitHandler env ⟨some file, some r⟩ =
      Action.createDocument :: writeAndDownload env "split" piece) :
    piece.pages = (parsePageRanges r doc.getPageCount).filterMap doc.pageAt := by
  by_cases hr : r = []
  · subst hr
    exact absurd h (by simp [splitHandler])
  · by_cases hlen : (parsePageRanges r doc.getPageCount).length = 0
    · simp only [splitHandler, hr, if_false, hload, hlen, if_true] at h
      exact absurd h (by simp)
    · obtain ⟨picked, hcopy, hforall⟩ := copyPages_of_bounds doc
        (parsePageRanges r doc.getPageCount) (by
          intro i hi
          obtain ⟨_, _, p, _, h1, h2, h3⟩ := (mem_parsePageRanges_iff _ _ _).mp hi
          omega)
      simp only [splitHandler, hr, if_false, hload, hlen, hcopy, foldl_addPage,
        PDFDocument.create, List.nil_append, writeAndDownload, List.cons.injEq,
        Action.writeFile.injEq, FileData.saved.injEq, true_and, and_true] at h
      rw [← forall2_pageAt_eq doc _ _ hforall]
      cases piece with
      | mk pages =>
        cases h
        rfl

theorem pieces_eq (env : Env) (file : UploadedFile) (doc : PDFDocument)
    (hload : env.load file.buffer = some doc) (rs : List (List Char))
    (pieces : List PDFDocument)
    (hsplit : List.Forall₂ (fun r piece => splitHandler env ⟨some file, some r⟩ =
      Action.createDocument :: writeAndDownload env "split" piece) rs pieces) :
    pieces.map (fun d => d.pages) =
      (rs.map (fun r => parsePageRanges r doc.getPageCount)).map
        (fun l => l.filterMap doc.pageAt) := by
  induction hsplit with
  | nil => rfl
  | cons h _ ih =>
    simp only [List.map_cons, ih, splitHandler_saved env file doc _ _ hload h]

/-- Pages picked at indices that lie in the document are as many as the indices. -/
theorem length_filterMap_pageAt (doc : PDFDocument) : ∀ indices : List Int,
    (∀ i ∈ indices, 0 ≤ i ∧ i < doc.getPageCount) →
    (indices.filterMap doc.pageAt).length = indices.length := by
  intro indices h
  obtain ⟨picked, _, hforall⟩ := copyPages_of_bounds doc indices h
  rw [← forall2_pageAt_eq doc _ _ hforall]
  exact hforall.length_eq.symm

/-- C17: when every page `1..n` of a document with `n ≥ 1` pages lies in exactly one of the
ranges of a list, splitting by each range and merging the saved pieces gives a document with
exactly `n` pages; when the ranges are in ascending order the merged pages are the original
pages in their order; and the single range `1-n` parses to `[0, ..., n-1]`. -/
theorem split_then_merge (env : Env) (file : UploadedFile) (doc : PDFDocument)
    (rs : List (List Char)) (pieces : List PDFDocument) (pieceFiles : List UploadedFile)
    (hload : env.load file.buffer = some doc)
    (hpos : 1 ≤ doc.pages.length)
    (hcover : ∀ k : Int, 0 ≤ k → k < doc.getPageCount →
      ∃ r ∈ rs, k ∈ parsePageRanges r doc.getPageCount)
    (hdisj : (rs.map (fun r => parsePageRanges r doc.getPageCount)).Pairwise List.Disjoint)
    (hsplit : List.Forall₂ (fun r piece => splitHandler env ⟨some file, some r⟩ =
      Action.createDocument :: writeAndDownload env "split" piece) rs pieces)
    (hpieces : pieceFiles.map (fun f => env.load f.buffer) = pieces.map some) :
    mergeHandler env ⟨some pieceFiles⟩ =
        Action.createDocument ::
          writeAndDownload env "merged" ⟨(pieces.map (fun d => d.pages)).flatten⟩ ∧
      (pieces.map (fun d => d.pages)).flatten.length = doc.pages.length ∧
      ((rs.map (fun r => parsePageRanges r doc.getPageCount)).Pairwise
          (fun l₁ l₂ => ∀ x ∈ l₁, ∀ y ∈ l₂, x < y) →
        (pieces.map (fun d => d.pages)).flatten = doc.pages) ∧
      parsePageRanges ("1-" ++ toString doc.pages.length).toList doc.getPageCount =
        (List.range doc.pages.length).map Int.ofNat := by
  have hbounds : ∀ i ∈ (rs.map (fun r => parsePageRanges r doc.getPageCount)).flatten,
      0 ≤ i ∧ i < doc.getPageCount := by
    intro i hi
    rw [List.mem_flatten] at hi
    obtain ⟨l, hl, hil⟩ := hi
    rw [List.mem_map] at hl
    obtain ⟨r, _, rfl⟩ := hl
    obtain ⟨_, _, p, _, h1, h2, h3⟩ := (mem_parsePageRanges_iff _ _ _).mp hil
    omega
  have hmem : ∀ k : Int, k ∈ (rs.map (fun r => parsePageRanges r doc.getPageCount)).flatten ↔
      0 ≤ k ∧ k < (doc.pages.length : Nat) := by
    intro k
    constructor
    · intro hk
      exact hbounds k hk
    · rintro ⟨h0, h1⟩
      obtain ⟨r, hr, hkr⟩ := hcover k h0 h1
      exact List.mem_flatten.mpr ⟨_, List.mem_map.mpr ⟨r, hr, rfl⟩, hkr⟩
  have hflat : (pieces.map (fun d => d.pages)).flatten =
      ((rs.map (fun r => parsePageRanges r doc.getPageCount)).flatten).filterMap
        doc.pageAt := by
    rw [pieces_eq env file doc hload rs pieces hsplit, List.filterMap_flatten]
  have hnodup : ((rs.map (fun r => parsePageRanges r doc.getPageCount)).flatten).Nodup := by
    rw [List.nodup_flatten]
    refine ⟨?_, hdisj⟩
    intro l hl
    rw [List.mem_map] at hl
    obtain ⟨r, _, rfl⟩ := hl
    exact (sorted_parsePageRanges _ _).nodup
  have hrs : pieceFiles ≠ [] := by
    intro hnil
    subst hnil
    have hp : pieces = [] := by
      cases pieces with
      | nil => rfl
      | cons d ds => simp at hpieces
    subst hp
    cases hsplit
    obtain ⟨r, hr, _⟩ := hcover 0 (le_refl 0) (by
      unfold PDFDocument.getPageCount
      omega)
    cases hr
  refine ⟨?_, ?_, ?_, ?_⟩
  · have hlen : ¬ pieceFiles.length = 0 := fun h => hrs (List.length_eq_zero.mp h)
    simp only [mergeHandler, hlen, if_false, mergeLoop_eq env pieceFiles pieces _ hpieces,
      PDFDocument.create, List.nil_append]
  · rw [hflat, length_filterMap_pageAt doc _ hbounds]
    have hperm : ((rs.map (fun r => parsePageRanges r doc.getPageCount)).flatten).Perm
        ((List.range doc.pages.length).map Int.ofNat) := by
      refine (List.perm_ext_iff_of_nodup hnodup ?_).mpr ?_
      · exact (List.nodup_range _).map (fun a b h => Int.ofNat.inj h)
      · intro k
        rw [hmem, List.mem_map]
        constructor
        · rintro ⟨h0, h1⟩
          refine ⟨k.toNat, List.mem_range.mpr (by omega), ?_⟩
          show ((k.toNat : Nat) : Int) = k
          omega
        · rintro ⟨a, ha, rfl⟩
          have := List.mem_range.mp ha
          exact ⟨Int.ofNat_nonneg a, Int.ofNat_lt.mpr this⟩
    rw [hperm.length_eq, List.length_map, List.length_range]
  · intro hasc
    have hsorted : ((rs.map (fun r => parsePageRanges r doc.getPageCount)).flatten).Sorted
        (· < ·) := by
      unfold List.Sorted
      rw [List.pairwise_flatten]
      refine ⟨?_, hasc⟩
      intro l hl
      rw [List.mem_map] at hl
      obtain ⟨r, _, rfl⟩ := hl
      exact sorted_parsePageRanges _ _
    rw [hflat, eq_range_of_sorted _ _ hsorted hmem]
    exact (pages_eq_filterMap doc).symm
  · exact parsePageRanges_one_to_n doc.pages.length

/-- The pieces of the five-page sample for `1-2` and `3-5` are the two-page and the three-page
sample; merged in that order they give the five pages again. -/
theorem split_then_merge_witness :
    mergeHandler sampleEnv ⟨some [sampleA, sampleB]⟩ =
        Action.createDocument ::
          writeAndDownload sampleEnv "merged"
            ⟨[⟨0, 0⟩, ⟨4, 0⟩, ⟨8, 0⟩, ⟨12, 0⟩, ⟨16, 0⟩]⟩ ∧
      sampleEnv.load sampleFive.buffer = some ⟨[⟨0, 0⟩, ⟨4, 0⟩, ⟨8, 0⟩, ⟨12, 0⟩, ⟨16, 0⟩]⟩ ∧
      parsePageRanges "1-5".toList 5 = [0, 1, 2, 3, 4] := by
  have h := split_then_merge sampleEnv sampleFive ⟨[⟨0, 0⟩, ⟨4, 0⟩, ⟨8, 0⟩, ⟨12, 0⟩, ⟨16, 0⟩]⟩
    ["1-2".toList, "3-5".toList] [⟨[⟨0, 0⟩, ⟨4, 0⟩]⟩, ⟨[⟨8, 0⟩, ⟨12, 0⟩, ⟨16, 0⟩]⟩]
    [sampleA, sampleB] rfl (by decide)
    (by
      intro k h0 h5
      have h5 : k < 5 := h5
      have e1 : parsePageRanges "1-2".toList
          (PDFDocument.getPageCount ⟨[⟨0, 0⟩, ⟨4, 0⟩, ⟨8, 0⟩, ⟨12, 0⟩, ⟨16, 0⟩]⟩) = [0, 1] := by
        decide
      have e2 : parsePageRanges "3-5".toList
          (PDFDocument.getPageCount ⟨[⟨0, 0⟩, ⟨4, 0⟩, ⟨8, 0⟩, ⟨12, 0⟩, ⟨16, 0⟩]⟩) = [2, 3, 4] := by
        decide
      simp only [List.mem_cons, List.mem_nil_iff, or_false, exists_eq_or_imp, exists_eq_left,
        e1, e2]
      omega)
    (by
      have e1 : parsePageRanges "1-2".toList
          (PDFDocument.getPageCount ⟨[⟨0, 0⟩, ⟨4, 0⟩, ⟨8, 0⟩, ⟨12, 0⟩, ⟨16, 0⟩]⟩) = [0, 1] := by
        decide
      have e2 : parsePageRanges "3-5".toList
          (PDFDocument.getPageCount ⟨[⟨0, 0⟩, ⟨4, 0⟩, ⟨8, 0⟩, ⟨12, 0⟩, ⟨16, 0⟩]⟩) = [2, 3, 4] := by
        decide
      simp only [List.map_cons, List.map_nil, e1, e2]
      simp [List.Disjoint])
    (List.Forall₂.cons (by decide) (List.Forall₂.cons (by decide) List.Forall₂.nil))
    rfl
  exact ⟨h.1, rfl, by decide⟩


/-! ## The temporary files of compress and convert -/

theorem mem_removePath (disk : List (List Char)) (path x : List Char) :
    x ∈ removePath disk path ↔ x ∈ disk ∧ x ≠ path := by
  simp [removePath]

theorem setupFailure_disk (t : ToolTexts) (inp out : List Char) (disk : List (List Char)) :
    inp ∉ (setupFailure t inp out disk).disk ∧ out ∉ (setupFailure t inp out disk).disk := by
  unfold setupFailure
  simp only
  by_cases hi : inp ∈ disk
  · rw [if_pos hi]
    by_cases ho : out ∈ removePath disk inp
    · rw [if_pos ho]
      constructor
      · intro h
        exact ((mem_removePath _ _ _).mp ((mem_removePath _ _ _).mp h).1).2 rfl
      · intro h
        exact ((mem_removePath _ _ _).mp h).2 rfl
    · rw [if_neg ho]
      exact ⟨fun h => ((mem_removePath _ _ _).mp h).2 rfl, ho⟩
  · rw [if_neg hi]
    by_cases ho : out ∈ disk
    · rw [if_pos ho]
      constructor
      · intro h
        exact hi ((mem_removePath _ _ _).mp h).1
      · intro h
        exact ((mem_removePath _ _ _).mp h).2 rfl
    · rw [if_neg ho]
      exact ⟨hi, ho⟩

theorem successCleanup_disk (inp out : List Char) (disk : List (List Char)) (h : inp ∈ disk) :
    inp ∉ (successCleanup inp out disk).disk ∧ out ∉ (successCleanup inp out disk).disk := by
  unfold successCleanup
  rw [if_pos h]
  by_cases ho : out ∈ removePath disk inp
  · rw [if_pos ho]
    constructor
    · intro h1
      exact ((mem_removePath _ _ _).mp ((mem_removePath _ _ _).mp h1).1).2 rfl
    · intro h1
      exact ((mem_removePath _ _ _).mp h1).2 rfl
  · rw [if_neg ho]
    exact ⟨fun h1 => ((mem_removePath _ _ _).mp h1).2 rfl, ho⟩

theorem failureCleanup_disk (inp out : List Char) (disk : List (List Char)) (h : inp ∈ disk) :
    inp ∉ (failureCleanup inp out disk).disk ∧ out ∉ (failureCleanup inp out disk).disk := by
  unfold failureCleanup
  rw [if_pos h]
  by_cases ho : out ∈ removePath disk inp
  · rw [if_pos ho]
    constructor
    · intro h1
      exact ((mem_removePath _ _ _).mp ((mem_removePath _ _ _).mp h1).1).2 rfl
    · intro h1
      exact ((mem_removePath _ _ _).mp h1).2 rfl
  · rw [if_neg ho]
    exact ⟨fun h1 => ((mem_removePath _ _ _).mp h1).2 rfl, ho⟩

/-- On every path of the shared part but the one on which the child emits `error`, neither
path is on disk at the end. -/
theorem runTool_disk (t : ToolTexts) (args : List (List Char)) (inp out name : List Char)
    (buffer : List Nat) (world : World) (disk : List (List Char))
    (h : ¬ (world.stage = StageOutcome.written ∧ world.child = ChildOutcome.errorEvent)) :
    inp ∉ (runTool t args inp out name buffer world disk).disk ∧
      out ∉ (runTool t args inp out name buffer world disk).disk := by
  obtain ⟨stage, child, n2⟩ := world
  cases stage with
  | failed created => exact setupFailure_disk t inp out _
  | written =>
    cases child with
    | spawnThrows => exact setupFailure_disk t inp out _
    | errorEvent => exact absurd ⟨rfl, rfl⟩ h
    | closed code stderr created =>
      have hin : inp ∈ created ++ inp :: disk := by simp
      by_cases hc : code = some 0
      · simp only [runTool, hc, if_true]
        exact successCleanup_disk inp out _ hin
      · simp only [runTool, hc, if_false]
        exact failureCleanup_disk inp out _ hin

/-- C12: on every path of compress and of convert on which the child does not emit `error`
(exit code 0, another exit code, `spawn` throwing, staging failing) neither the input path nor
the output path is on disk at the end; when the child emits `error`, which is how a tool that
cannot be started is reported, no listener and no `catch` block runs and the staged input stays
on disk. -/
theorem tool_cleanup :
    (∀ (env : Env) (world : World) (disk : List (List Char)) (file : UploadedFile),
      ¬ (world.stage = StageOutcome.written ∧ world.child = ChildOutcome.errorEvent) →
      compressInputPath env ∉ (compressHandler env world disk ⟨some file⟩).disk ∧
        compressOutputPath env world ∉ (compressHandler env world disk ⟨some file⟩).disk) ∧
    (∀ (env : Env) (world : World) (disk : List (List Char)) (file : UploadedFile)
        (f : List Char), f ≠ [] →
      ¬ (world.stage = StageOutcome.written ∧ world.child = ChildOutcome.errorEvent) →
      convertInputPath env file ∉ (convertHandler env world disk ⟨some file, some f⟩).disk ∧
        convertOutputPath env file f ∉
          (convertHandler env world disk ⟨some file, some f⟩).disk) ∧
    (∀ (env : Env) (disk : List (List Char)) (file : UploadedFile) (n2 : Nat),
      compressInputPath env ∈
        (compressHandler env ⟨StageOutcome.written, ChildOutcome.errorEvent, n2⟩ disk
          ⟨some file⟩).disk) ∧
    (∀ (env : Env) (disk : List (List Char)) (file : UploadedFile) (f : List Char) (n2 : Nat),
      f ≠ [] →
      convertInputPath env file ∈
        (convertHandler env ⟨StageOutcome.written, ChildOutcome.errorEvent, n2⟩ disk
          ⟨some file, some f⟩).disk) ∧
    compressHandler procEnv ⟨StageOutcome.written, ChildOutcome.errorEvent, 8⟩ []
        ⟨some ⟨"a.pdf", [1]⟩⟩ =
      { actions :=
          [ProcAction.writeFile "/srv/app/uploads/input-7.pdf".toList [1],
            ProcAction.spawn "gs"
              ["-sDEVICE=pdfwrite".toList, "-dCompatibilityLevel=1.4".toList,
                "-dPDFSETTINGS=/ebook".toList, "-dNOPAUSE".toList, "-dBATCH".toList,
                "-sOutputFile=/srv/app/uploads/compressed-8.pdf".toList,
                "/srv/app/uploads/input-7.pdf".toList],
            ProcAction.uncaught "unhandled error event of the child"],
        disk := ["/srv/app/uploads/input-7.pdf".toList] } := by
  refine ⟨?_, ?_, ?_, ?_, by decide⟩
  · intro env world disk file h
    exact runTool_disk gsTexts _ _ _ _ file.buffer world disk h
  · intro env world disk file f hf h
    simp only [convertHandler, hf, if_false]
    exact runTool_disk sofficeTexts _ _ _ _ file.buffer world disk h
  · intro env disk file n2
    simp [compressHandler, runTool]
  · intro env disk file f n2 hf
    simp [convertHandler, runTool, hf]

/-- With a tool that exits with code 1 and writes nothing, compress leaves neither path on
disk. -/
theorem tool_cleanup_witness :
    compressInputPath procEnv ∉
        (compressHandler procEnv ⟨StageOutcome.written, ChildOutcome.closed (some 1) [] [], 8⟩
          [] ⟨some ⟨"a.pdf", [1]⟩⟩).disk ∧
      compressOutputPath procEnv ⟨StageOutcome.written, ChildOutcome.closed (some 1) [] [], 8⟩ ∉
        (compressHandler procEnv ⟨StageOutcome.written, ChildOutcome.closed (some 1) [] [], 8⟩
          [] ⟨some ⟨"a.pdf", [1]⟩⟩).disk :=
  tool_cleanup.1 procEnv ⟨StageOutcome.written, ChildOutcome.closed (some 1) [] [], 8⟩ []
    ⟨"a.pdf", [1]⟩ (by decide)

/-! ## The response when the tool fails -/

theorem responseOf_append (xs ys : List ProcAction) :
    responseOf (xs ++ ys) = responseOf xs ++ responseOf ys := by
  simp [responseOf, List.filter_append]

theorem responseOf_cons (a : ProcAction) (l : List ProcAction) :
    responseOf (a :: l) = responseOf [a] ++ responseOf l :=
  responseOf_append [a] l

theorem responseOf_logs (label : String) (stderr : List String) :
    responseOf (stderr.map (fun chunk => ProcAction.logError (label ++ chunk))) = [] := by
  induction stderr with
  | nil => rfl
  | cons chunk rest ih =>
    simp only [List.map_cons]
    rw [responseOf_cons, ih]
    rfl

theorem responseOf_successCleanup (inp out : List Char) (disk : List (List Char)) :
    responseOf (successCleanup inp out disk).actions = [] := by
  unfold successCleanup
  split
  · split <;> rfl
  · rfl

theorem responseOf_failureCleanup (inp out : List Char) (disk : List (List Char)) :
    responseOf (failureCleanup inp out disk).actions = [] := by
  unfold failureCleanup
  split
  · split <;> rfl
  · rfl

/-- The response of the shared part after `close`: the download on exit code 0, the fixed
message with status 500 otherwise; the chunks of `stderr` do not appear in it. -/
theorem runTool_response (t : ToolTexts) (args : List (List Char)) (inp out name : List Char)
    (buffer : List Nat) (code : Option Int) (stderr : List String)
    (created : List (List Char)) (n2 : Nat) (disk : List (List Char)) :
    responseOf (runTool t args inp out name buffer
        ⟨StageOutcome.written, ChildOutcome.closed code stderr created, n2⟩ disk).actions =
      if code = some 0 then [ProcAction.download out name]
      else [ProcAction.send 500 t.failedMessage] := by
  by_cases hc : code = some 0
  · simp only [runTool, hc, if_true]
    rw [responseOf_append, responseOf_append, responseOf_logs,
      responseOf_cons (ProcAction.download out name), responseOf_successCleanup]
    rfl
  · simp only [runTool, hc, if_false]
    rw [responseOf_append, responseOf_append, responseOf_append, responseOf_logs,
      responseOf_failureCleanup]
    rfl

/-- The paths on disk after the shared part do not depend on the chunks of `stderr`. -/
theorem runTool_disk_stderr (t : ToolTexts) (args : List (List Char))
    (inp out name : List Char) (buffer : List Nat) (stage : StageOutcome) (code : Option Int)
    (s1 s2 : List String) (created : List (List Char)) (n2 : Nat) (disk : List (List Char)) :
    (runTool t args inp out name buffer ⟨stage, ChildOutcome.closed code s1 created, n2⟩
        disk).disk =
      (runTool t args inp out name buffer ⟨stage, ChildOutcome.closed code s2 created, n2⟩
        disk).disk := by
  cases stage with
  | failed c => rfl
  | written =>
    by_cases hc : code = some 0
    · simp only [runTool, hc, if_true]
    · simp only [runTool, hc, if_false]

/-- C18: when the tool exits with a non-zero code, compress and convert answer with status 500
and a fixed message, `PDF compression failed.` and `File conversion failed.`; two runs that
differ only in what the child wrote to `stderr` have the same response and leave the same
paths on disk. -/
theorem tool_failure_response (env : Env) (code : Option Int) (s1 s2 : List String)
    (created : List (List Char)) (n2 : Nat) (disk : List (List Char)) (file : UploadedFile)
    (f : List Char) (hcode : code ≠ some 0) (hf : f ≠ []) :
    responseOf (compressHandler env
        ⟨StageOutcome.written, ChildOutcome.closed code s1 created, n2⟩ disk
        ⟨some file⟩).actions = [ProcAction.send 500 "PDF compression failed."] ∧
    responseOf (compressHandler env
        ⟨StageOutcome.written, ChildOutcome.closed code s2 created, n2⟩ disk
        ⟨some file⟩).actions = [ProcAction.send 500 "PDF compression failed."] ∧
    responseOf (convertHandler env
        ⟨StageOutcome.written, ChildOutcome.closed code s1 created, n2⟩ disk
        ⟨some file, some f⟩).actions = [ProcAction.send 500 "File conversion failed."] ∧
    responseOf (convertHandler env
        ⟨StageOutcome.written, ChildOutcome.closed code s2 created, n2⟩ disk
        ⟨some file, some f⟩).actions = [ProcAction.send 500 "File conversion failed."] ∧
    (compressHandler env ⟨StageOutcome.written, ChildOutcome.closed code s1 created, n2⟩ disk
        ⟨some file⟩).disk =
      (compressHandler env ⟨StageOutcome.written, ChildOutcome.closed code s2 created, n2⟩
        disk ⟨some file⟩).disk ∧
    (convertHandler env ⟨StageOutcome.written, ChildOutcome.closed code s1 created, n2⟩ disk
        ⟨some file, some f⟩).disk =
      (convertHandler env ⟨StageOutcome.written, ChildOutcome.closed code s2 created, n2⟩
        disk ⟨some file, some f⟩).disk := by
  refine ⟨?_, ?_, ?_, ?_, ?_, ?_⟩
  · simp only [compressHandler]
    rw [runTool_response, if_neg hcode]
    rfl
  · simp only [compressHandler]
    rw [runTool_response, if_neg hcode]
    rfl
  · simp only [convertHandler, hf, if_false]
    rw [runTool_response, if_neg hcode]
    rfl
  · simp only [convertHandler, hf, if_false]
    rw [runTool_response, if_neg hcode]
    rfl
  · simp only [compressHandler]
    exact runTool_disk_stderr _ _ _ _ _ _ _ _ _ _ _ _ _
  · simp only [convertHandler, hf, if_false]
    exact runTool_disk_stderr _ _ _ _ _ _ _ _ _ _ _ _ _

/-- Two runs of compress with exit code 1 and different texts on `stderr` both answer with
status 500 and `PDF compression failed.`. -/
theorem tool_failure_response_witness :
    responseOf (compressHandler procEnv
        ⟨StageOutcome.written, ChildOutcome.closed (some 1) ["secret path /etc"] [], 8⟩ []
        ⟨some ⟨"a.pdf", [1]⟩⟩).actions = [ProcAction.send 500 "PDF compression failed."] ∧
    responseOf (compressHandler procEnv
        ⟨StageOutcome.written, ChildOutcome.closed (some 1) [] [], 8⟩ []
        ⟨some ⟨"a.pdf", [1]⟩⟩).actions = [ProcAction.send 500 "PDF compression failed."] :=
  ⟨(tool_failure_response procEnv (some 1) ["secret path /etc"] [] [] 8 [] ⟨"a.pdf", [1]⟩
      "pdf".toList (by decide) (by decide)).1,
    (tool_failure_response procEnv (some 1) ["secret path /etc"] [] [] 8 [] ⟨"a.pdf", [1]⟩
      "pdf".toList (by decide) (by decide)).2.1⟩

/-! ## Facts about paths -/

theorem split_joinSep (sep : Char) : ∀ toks : List (List Char), toks ≠ [] →
    (∀ tok ∈ toks, sep ∉ tok) → split sep (joinSep sep toks) = toks := by
  intro toks
  induction toks with
  | nil => intro h; exact absurd rfl h
  | cons tok rest ih =>
    intro _ hfree
    cases rest with
    | nil =>
      simp only [joinSep]
      exact split_of_not_mem sep tok (hfree tok (List.mem_cons_self _ _))
    | cons tok2 rest2 =>
      simp only [joinSep]
      rw [split_append_sep, split_of_not_mem sep tok (hfree tok (List.mem_cons_self _ _))]
      have := ih (by simp) (fun t ht => hfree t (List.mem_cons_of_mem _ ht))
      simp only [joinSep] at this
      rw [this]
      rfl

theorem joinSep_append_singleton (sep : Char) (name : List Char) :
    ∀ segs : List (List Char), segs ≠ [] →
    joinSep sep (segs ++ [name]) = joinSep sep segs ++ sep :: name := by
  intro segs
  induction segs with
  | nil => intro h; exact absurd rfl h
  | cons seg rest ih =>
    intro _
    cases rest with
    | nil => rfl
    | cons seg2 rest2 =>
      show seg ++ sep :: joinSep sep ((seg2 :: rest2) ++ [name]) =
        (seg ++ sep :: joinSep sep (seg2 :: rest2)) ++ sep :: name
      rw [ih (by simp)]
      simp

theorem normalizeStep_plain (b : Bool) (res : List (List Char)) (seg : List Char)
    (h : plainName seg) : normalizeStep b res seg = res ++ [seg] := by
  obtain ⟨h1, _, h3, h4⟩ := h
  simp [normalizeStep, h1, h3, h4]

theorem foldl_normalizeStep_plain (b : Bool) : ∀ (segs res : List (List Char)),
    (∀ seg ∈ segs, plainName seg) → segs.foldl (normalizeStep b) res = res ++ segs := by
  intro segs
  induction segs with
  | nil => intro res _; simp
  | cons seg rest ih =>
    intro res h
    rw [List.foldl_cons, normalizeStep_plain b res seg (h seg (List.mem_cons_self _ _)),
      ih _ (fun s hs => h s (List.mem_cons_of_mem _ hs))]
    simp

theorem getLast?_append_cons_ne (xs ys : List Char) (c : Char) (hys : ys ≠ [])
    (h : c ∉ ys) : (xs ++ ys).getLast? ≠ some c := by
  intro hl
  rw [List.getLast?_append_of_ne_nil _ hys] at hl
  exact h (List.mem_of_getLast?_eq_some hl)

/-- Joining an absolute directory in normal form with a plain name appends `/` and the
name. -/
theorem pathJoin_plain (dir name : List Char) (hdir : absoluteDir dir)
    (hname : plainName name) : pathJoin dir name = dir ++ '/' :: name := by
  obtain ⟨segs, hne, hplain, rfl⟩ := hdir
  have hname' := hname
  obtain ⟨hn1, hn2, _, _⟩ := hname'
  have hfree : ∀ seg ∈ segs, '/' ∉ seg := fun seg hs => (hplain seg hs).2.1
  have hsplit : split '/' ('/' :: (joinSep '/' segs ++ '/' :: name)) =
      [] :: (segs ++ [name]) := by
    rw [split_cons_sep, split_append_sep, split_joinSep '/' segs hne hfree,
      split_of_not_mem '/' name hn2]
  have hlast : ('/' :: (joinSep '/' segs ++ '/' :: name)).getLast? ≠ some '/' := by
    have : '/' :: (joinSep '/' segs ++ '/' :: name) =
        (('/' :: joinSep '/' segs) ++ ['/']) ++ name := by simp
    rw [this]
    exact getLast?_append_cons_ne _ name '/' hn1 hn2
  have hfold : (([] : List Char) :: (segs ++ [name])).foldl (normalizeStep false) [] =
      segs ++ [name] := by
    rw [List.foldl_cons]
    have h0 : normalizeStep false [] [] = [] := by simp [normalizeStep]
    rw [h0, foldl_normalizeStep_plain false _ [] (by
      intro seg hs
      rcases List.mem_append.mp hs with hs | hs
      · exact hplain seg hs
      · rw [List.mem_singleton] at hs
        rw [hs]
        exact hname)]
    rfl
  have hbody : joinSep '/' (segs ++ [name]) ≠ [] := by
    rw [joinSep_append_singleton '/' name segs hne]
    simp
  unfold pathJoin
  rw [if_neg (by simp), if_neg hn1]
  unfold normalize
  rw [if_neg (by simp)]
  simp only [List.cons_append, hsplit, List.head?_cons, decide_True, Bool.not_true, hfold,
    hbody, if_false, if_true, hlast, decide_False, Bool.false_eq_true, List.append_nil,
    List.nil_append, List.singleton_append]
  rw [joinSep_append_singleton '/' name segs hne]

theorem length_le_of_mem_split (sep : Char) : ∀ (s piece : List Char),
    piece ∈ split sep s → piece.length ≤ s.length := by
  intro s
  induction s with
  | nil =>
    intro piece h
    simp only [split, List.mem_singleton] at h
    rw [h]
  | cons c cs ih =>
    intro piece h
    by_cases hc : c = sep
    · subst hc
      rw [split_cons_sep, List.mem_cons] at h
      rcases h with h | h
      · rw [h]; simp
      · have := ih piece h
        simp only [List.length_cons]
        omega
    · cases hs : split sep cs with
      | nil => exact absurd hs (split_ne_nil sep cs)
      | cons first rest =>
        rw [split_cons_ne sep c cs first rest hc hs, List.mem_cons] at h
        rcases h with h | h
        · have := ih first (by rw [hs]; exact List.mem_cons_self _ _)
          rw [h]
          simp only [List.length_cons]
          omega
        · have := ih piece (by rw [hs]; exact List.mem_cons_of_mem _ h)
          simp only [List.length_cons]
          omega

theorem lastPortion_length_le (path : List Char) : (lastPortion path).length ≤ path.length := by
  unfold lastPortion
  have hle : ((path.reverse.dropWhile (fun c => c = '/')).reverse).length ≤ path.length := by
    rw [List.length_reverse]
    calc (path.reverse.dropWhile (fun c => c = '/')).length
        ≤ path.reverse.length := (List.dropWhile_sublist _).length_le
      _ = path.length := List.length_reverse _
  cases hl : (split '/' (path.reverse.dropWhile (fun c => c = '/')).reverse).getLast? with
  | none => simp
  | some piece =>
    have := length_le_of_mem_split '/' _ piece (List.mem_of_getLast?_eq_some hl)
    simp only [Option.getD_some]
    omega

theorem lastPortion_of_no_slash (name : List Char) (h : '/' ∉ name) :
    lastPortion name = name := by
  have hdrop : name.reverse.dropWhile (fun c => c = '/') = name.reverse := by
    cases hr : name.reverse with
    | nil => rfl
    | cons c cs =>
      have hc : c ≠ '/' := by
        intro hc
        subst hc
        exact h (List.mem_reverse.mp (by rw [hr]; exact List.mem_cons_self _ _))
      simp [List.dropWhile, hc]
  unfold lastPortion
  rw [hdrop, List.reverse_reverse, split_of_not_mem '/' name h]
  rfl

theorem cutAtLastDot_append : ∀ (p stem ext : List Char),
    cutAtLastDot p = some (stem, ext) → stem ++ ext = p ∧ ext ≠ [] := by
  intro p
  induction p with
  | nil => intro stem ext h; simp [cutAtLastDot] at h
  | cons c cs ih =>
    intro stem ext h
    unfold cutAtLastDot at h
    cases hc : cutAtLastDot cs with
    | some pair =>
      obtain ⟨st, ex⟩ := pair
      rw [hc] at h
      simp only [Option.some.injEq, Prod.mk.injEq] at h
      obtain ⟨rfl, rfl⟩ := h
      obtain ⟨h1, h2⟩ := ih st ex hc
      exact ⟨by rw [List.cons_append, h1], h2⟩
    | none =>
      rw [hc] at h
      by_cases hd : c = '.'
      · simp only [hd, if_true, Option.some.injEq, Prod.mk.injEq] at h
        obtain ⟨rfl, rfl⟩ := h
        exact ⟨by rw [hd]; rfl, by simp⟩
      · simp [hd] at h

theorem cutAtLastDot_of_no_dot : ∀ e : List Char, '.' ∉ e → cutAtLastDot e = none := by
  intro e
  induction e with
  | nil => intro _; rfl
  | cons c cs ih =>
    intro h
    have hc : c ≠ '.' := fun hc => h (by rw [hc]; exact List.mem_cons_self _ _)
    have hcs : '.' ∉ cs := fun hcs => h (List.mem_cons_of_mem _ hcs)
    simp [cutAtLastDot, ih hcs, hc]

theorem cutAtLastDot_stem_dot (e : List Char) (he : '.' ∉ e) : ∀ stem : List Char,
    cutAtLastDot (stem ++ '.' :: e) = some (stem, '.' :: e) := by
  intro stem
  induction stem with
  | nil => simp [cutAtLastDot, cutAtLastDot_of_no_dot e he]
  | cons c cs ih => simp [cutAtLastDot, ih]

/-- The base name and the extension that the convert handler computes are the two parts of the
last portion of the file name. -/
theorem basename_append_extname (path : List Char) :
    basename path (extname path) ++ extname path = lastPortion path := by
  by_cases hext : extname path = []
  · rw [hext]
    simp [basename]
  · have hport : lastPortion path ≠ ['.', '.'] := by
      intro h
      exact hext (by simp [extname, h])
    cases hcut : cutAtLastDot (lastPortion path) with
    | none => exact absurd (by simp [extname, hcut]) hext
    | some pair =>
      obtain ⟨stem, ext⟩ := pair
      have hstem : stem ≠ [] := by
        intro h
        exact hext (by simp [extname, hcut, h])
      have he : extname path = ext := by simp [extname, hport, hcut, hstem]
      obtain ⟨happ, _⟩ := cutAtLastDot_append _ _ _ hcut
      have hlen := lastPortion_length_le path
      have hlen2 : (lastPortion path).length = stem.length + ext.length := by
        rw [← happ, List.length_append]
      have hpos : 0 < stem.length := List.length_pos.mpr hstem
      rw [he]
      have hne : ext ≠ path := by
        intro h
        have hel : ext.length = path.length := by rw [h]
        omega
      have hdrop : (lastPortion path).drop ((lastPortion path).length - ext.length) = ext := by
        rw [hlen2, Nat.add_sub_cancel, ← happ, List.drop_left]
      have htake : (lastPortion path).take ((lastPortion path).length - ext.length) = stem := by
        rw [hlen2, Nat.add_sub_cancel, ← happ, List.take_left]
      unfold basename
      simp only
      rw [if_pos ⟨by rw [← he]; exact hext, by omega⟩, if_neg hne,
        if_pos ⟨by omega, hdrop⟩, htake, happ]

/-- The extension of a name `stem.e` whose `e` has no `.`, other than the name `..`. -/
theorem extname_stem_dot (stem e : List Char) (hstem : stem ≠ []) (hs : '/' ∉ stem)
    (he1 : '/' ∉ e) (he2 : '.' ∉ e) (hdd : stem ++ '.' :: e ≠ ['.', '.']) :
    extname (stem ++ '.' :: e) = '.' :: e := by
  have hno : '/' ∉ stem ++ '.' :: e := by
    intro h
    rcases List.mem_append.mp h with h | h
    · exact hs h
    · rcases List.mem_cons.mp h with h | h
      · exact absurd h (by decide)
      · exact he1 h
  unfold extname
  simp only [lastPortion_of_no_slash _ hno, hdd, if_false, cutAtLastDot_stem_dot e he2 stem,
    hstem]

theorem extname_length_lt (path : List Char) (h : lastPortion path ≠ []) :
    (extname path).length < (lastPortion path).length := by
  have hpos : 0 < (lastPortion path).length := List.length_pos.mpr h
  unfold extname
  simp only
  split
  · simpa using hpos
  · cases hcut : cutAtLastDot (lastPortion path) with
    | none => simpa using hpos
    | some pair =>
      obtain ⟨stem, ext⟩ := pair
      simp only
      by_cases hstem : stem = []
      · simpa [hstem] using hpos
      · obtain ⟨happ, _⟩ := cutAtLastDot_append _ _ _ hcut
        have hsp : 0 < stem.length := List.length_pos.mpr hstem
        rw [if_neg hstem, ← happ, List.length_append]
        omega

theorem extname_of_no_dot (name : List Char) (hs : '/' ∉ name) (hd : '.' ∉ name) :
    extname name = [] := by
  unfold extname
  simp only [lastPortion_of_no_slash name hs, cutAtLastDot_of_no_dot name hd]
  split <;> rfl

/-- The output name of a plain file name for a format without `/` is a plain file name. -/
theorem plainName_convertOutputName (name f : List Char) (hname : plainName name)
    (hf : f ≠ []) (hfs : '/' ∉ f) : plainName (convertOutputName name f) := by
  obtain ⟨hn1, hn2, _, _⟩ := hname
  have hport := lastPortion_of_no_slash name hn2
  have happ := basename_append_extname name
  rw [hport] at happ
  have hlt := extname_length_lt name (by rw [hport]; exact hn1)
  rw [hport] at hlt
  have hlen : (basename name (extname name)).length + (extname name).length = name.length := by
    rw [← List.length_append, happ]
  have hfpos : 0 < f.length := List.length_pos.mpr hf
  have hbase : '/' ∉ basename name (extname name) := by
    intro h
    exact hn2 (by rw [← happ]; exact List.mem_append_left _ h)
  have hlen3 : 3 ≤ (convertOutputName name f).length := by
    simp only [convertOutputName, List.length_append, List.length_cons]
    omega
  refine ⟨?_, ?_, ?_, ?_⟩
  · intro h
    rw [h] at hlen3
    simp at hlen3
  · intro h
    simp only [convertOutputName] at h
    rcases List.mem_append.mp h with h | h
    · exact hbase h
    · rcases List.mem_cons.mp h with h | h
      · exact absurd h (by decide)
      · exact hfs h
  · intro h
    rw [h] at hlen3
    simp at hlen3
  · intro h
    rw [h] at hlen3
    simp at hlen3

/-! ## The names and paths of convert -/

/-- C16: for every original file name and every non-empty format `f` the convert handler
stages the input at `path.join(uploadsDir, originalname)`, which for a plain name is the
uploads directory, `/` and the unchanged name, and names the output with the base name of the
original name, its extension removed, followed by `.` and `f`: `report.docx` with `pdf` gives
`report.pdf`. -/
theorem convert_names :
    (∀ name f : List Char, ∃ base,
      base ++ extname name = lastPortion name ∧ convertOutputName name f = base ++ '.' :: f) ∧
    (∀ stem e f : List Char, stem ≠ [] → '/' ∉ stem → '/' ∉ e → '.' ∉ e →
      stem ++ '.' :: e ≠ ['.', '.'] →
      convertOutputName (stem ++ '.' :: e) f = stem ++ '.' :: f) ∧
    (∀ name f : List Char, '/' ∉ name → '.' ∉ name →
      convertOutputName name f = name ++ '.' :: f) ∧
    (∀ (env : Env) (file : UploadedFile), absoluteDir env.uploadsDir.toList →
      plainName file.originalname.toList →
      convertInputPath env file = env.uploadsDir.toList ++ '/' :: file.originalname.toList) ∧
    (∀ (env : Env) (file : UploadedFile) (f : List Char) (stderr : List String)
        (created : List (List Char)) (n2 : Nat) (disk : List (List Char)), f ≠ [] →
      (convertHandler env ⟨StageOutcome.written, ChildOutcome.closed (some 0) stderr created, n2⟩
          disk ⟨some file, some f⟩).actions =
        [ProcAction.writeFile (convertInputPath env file) file.buffer,
          ProcAction.spawn "soffice"
            ["--headless".toList, "--convert-to".toList, f, convertInputPath env file,
              "--outdir".toList, env.uploadsDir.toList]] ++
          stderr.map (fun chunk => ProcAction.logError ("LibreOffice stderr: " ++ chunk)) ++
          ProcAction.download (convertOutputPath env file f)
              (convertOutputName file.originalname.toList f) ::
            (successCleanup (convertInputPath env file) (convertOutputPath env file f)
              (created ++ convertInputPath env file :: disk)).actions) ∧
    convertOutputName "report.docx".toList "pdf".toList = "report.pdf".toList := by
  refine ⟨?_, ?_, ?_, ?_, ?_, by decide⟩
  · intro name f
    exact ⟨basename name (extname name), basename_append_extname name, rfl⟩
  · intro stem e f hstem hs he1 he2 hdd
    have hext := extname_stem_dot stem e hstem hs he1 he2 hdd
    have hno : '/' ∉ stem ++ '.' :: e := by
      intro h
      rcases List.mem_append.mp h with h | h
      · exact hs h
      · rcases List.mem_cons.mp h with h | h
        · exact absurd h (by decide)
        · exact he1 h
    have happ := basename_append_extname (stem ++ '.' :: e)
    rw [hext, lastPortion_of_no_slash _ hno] at happ
    have hbase : basename (stem ++ '.' :: e) ('.' :: e) = stem := List.append_cancel_right happ
    simp only [convertOutputName, hext, hbase]
  · intro name f hs hd
    have hext := extname_of_no_dot name hs hd
    have happ := basename_append_extname name
    rw [hext, lastPortion_of_no_slash _ hs, List.append_nil] at happ
    simp only [convertOutputName, hext, happ]
  · intro env file hdir hname
    exact pathJoin_plain _ _ hdir hname
  · intro env file f stderr created n2 disk hf
    simp [convertHandler, runTool, hf, sofficeTexts]

/-- The file `report.docx` converted to `pdf` under `/srv/app/uploads`. -/
theorem convert_names_witness :
    convertOutputName ("report" ++ ".docx").toList "pdf".toList = "report.pdf".toList ∧
      convertInputPath procEnv ⟨"report.docx", [1]⟩ = "/srv/app/uploads/report.docx".toList :=
  ⟨convert_names.2.1 "report".toList "docx".toList "pdf".toList (by decide) (by decide)
      (by decide) (by decide) (by decide),
    convert_names.2.2.2.1 procEnv ⟨"report.docx", [1]⟩
      ⟨["srv".toList, "app".toList, "uploads".toList], by decide, by decide, by decide⟩
      (by decide)⟩

/-- C20, as stated, fails for a format with `/`: for the name `pdf` and the format `x/../pdf`
the input path and the output path are both `/srv/app/uploads/pdf`, while the extension of
`pdf` is empty. -/
theorem convert_same_path_by_dots :
    convertInputPath procEnv ⟨"pdf", [1]⟩ = "/srv/app/uploads/pdf".toList ∧
      convertOutputName "pdf".toList "x/../pdf".toList = "pdf.x/../pdf".toList ∧
      convertOutputPath procEnv ⟨"pdf", [1]⟩ "x/../pdf".toList = "/srv/app/uploads/pdf".toList ∧
      extname "pdf".toList = [] ∧
      ¬ (convertInputPath procEnv ⟨"pdf", [1]⟩ =
            convertOutputPath procEnv ⟨"pdf", [1]⟩ "x/../pdf".toList ↔
          extname "pdf".toList = '.' :: "x/../pdf".toList) := by
  decide

/-- C20, amended: for an original file name without a directory part and a non-empty format
`f` without `/`, under an absolute uploads directory, the input path and the output path of
convert are the same path exactly when the extension of the name is `.` followed by `f`; then,
on exit code 0, the callback of the download unlinks that path and its second `unlinkSync`
meets a file that is already removed. -/
theorem convert_same_path (env : Env) (file : UploadedFile) (f : List Char)
    (stderr : List String) (created : List (List Char)) (n2 : Nat) (disk : List (List Char))
    (hdir : absoluteDir env.uploadsDir.toList) (hname : plainName file.originalname.toList)
    (hf : f ≠ []) (hfs : '/' ∉ f) :
    (convertInputPath env file = convertOutputPath env file f ↔
      extname file.originalname.toList = '.' :: f) ∧
    (convertInputPath env file = convertOutputPath env file f →
      (convertHandler env ⟨StageOutcome.written, ChildOutcome.closed (some 0) stderr created, n2⟩
          disk ⟨some file, some f⟩).actions =
        [ProcAction.writeFile (convertInputPath env file) file.buffer,
          ProcAction.spawn "soffice"
            ["--headless".toList, "--convert-to".toList, f, convertInputPath env file,
              "--outdir".toList, env.uploadsDir.toList]] ++
          stderr.map (fun chunk => ProcAction.logError ("LibreOffice stderr: " ++ chunk)) ++
          [ProcAction.download (convertInputPath env file)
              (convertOutputName file.originalname.toList f),
            ProcAction.unlink (convertInputPath env file),
            ProcAction.uncaught "ENOENT: no such file or directory, unlink"] ∧
      convertInputPath env file ∉
        (convertHandler env
          ⟨StageOutcome.written, ChildOutcome.closed (some 0) stderr created, n2⟩
          disk ⟨some file, some f⟩).disk) := by
  have hout := plainName_convertOutputName _ f hname hf hfs
  have hin : convertInputPath env file =
      env.uploadsDir.toList ++ '/' :: file.originalname.toList := pathJoin_plain _ _ hdir hname
  have hop : convertOutputPath env file f =
      env.uploadsDir.toList ++ '/' :: convertOutputName file.originalname.toList f :=
    pathJoin_plain _ _ hdir hout
  have happ := basename_append_extname file.originalname.toList
  rw [lastPortion_of_no_slash _ hname.2.1] at happ
  constructor
  · rw [hin, hop]
    have key : ∀ (dir name base ext : List Char), base ++ ext = name →
        (dir ++ '/' :: name = dir ++ '/' :: (base ++ '.' :: f) ↔ ext = '.' :: f) := by
      intro dir name base ext hbe
      constructor
      · intro h
        have h1 : name = base ++ '.' :: f := (List.cons.inj (List.append_cancel_left h)).2
        rw [← hbe] at h1
        exact List.append_cancel_left h1
      · intro h
        rw [← hbe, h]
    exact key _ _ _ _ happ
  · intro hsame
    have hmem : convertInputPath env file ∈ created ++ convertInputPath env file :: disk := by
      simp
    have hnot : convertInputPath env file ∉
        removePath (created ++ convertInputPath env file :: disk) (convertInputPath env file) :=
      fun h => ((mem_removePath _ _ _).mp h).2 rfl
    have hclean : successCleanup (convertInputPath env file) (convertInputPath env file)
        (created ++ convertInputPath env file :: disk) =
        { actions := [ProcAction.unlink (convertInputPath env file),
            ProcAction.uncaught "ENOENT: no such file or directory, unlink"],
          disk := removePath (created ++ convertInputPath env file :: disk)
            (convertInputPath env file) } := by
      unfold successCleanup
      rw [if_pos hmem, if_neg hnot]
    constructor
    · simp only [convertHandler, hf, if_false, runTool, if_true, ← hsame, hclean, sofficeTexts]
    · simp only [convertHandler, hf, if_false, runTool, if_true, ← hsame, hclean]
      exact hnot

/-- The file `a.pdf` converted to `pdf`: one path, unlinked once, and the second `unlinkSync`
fails. -/
theorem convert_same_path_witness :
    (convertInputPath procEnv ⟨"a.pdf", [1]⟩ = convertOutputPath procEnv ⟨"a.pdf", [1]⟩
        "pdf".toList ↔ extname "a.pdf".toList = '.' :: "pdf".toList) ∧
      (convertHandler procEnv
        ⟨StageOutcome.written, ChildOutcome.closed (some 0) [] [], 8⟩ []
        ⟨some ⟨"a.pdf", [1]⟩, some "pdf".toList⟩) =
        { actions :=
            [ProcAction.writeFile "/srv/app/uploads/a.pdf".toList [1],
              ProcAction.spawn "soffice"
                ["--headless".toList, "--convert-to".toList, "pdf".toList,
                  "/srv/app/uploads/a.pdf".toList, "--outdir".toList,
                  "/srv/app/uploads".toList],
              ProcAction.download "/srv/app/uploads/a.pdf".toList "a.pdf".toList,
              ProcAction.unlink "/srv/app/uploads/a.pdf".toList,
              ProcAction.uncaught "ENOENT: no such file or directory, unlink"],
          disk := [] } :=
  ⟨(convert_same_path procEnv ⟨"a.pdf", [1]⟩ "pdf".toList [] [] 8 []
      ⟨["srv".toList, "app".toList, "uploads".toList], by decide, by decide, by decide⟩
      (by decide) (by decide) (by decide)).1,
    by decide⟩

/-! ## The run on doubles and the result on integers -/

theorem not_mem_of_mem_split (sep : Char) : ∀ (s piece : List Char),
    piece ∈ split sep s → sep ∉ piece := by
  intro s
  induction s with
  | nil =>
    intro piece h
    simp only [split, List.mem_singleton] at h
    subst h
    simp
  | cons c cs ih =>
    intro piece h
    by_cases hc : c = sep
    · rw [hc, split_cons_sep] at h
      rcases List.mem_cons.mp h with h | h
      · subst h; simp
      · exact ih piece h
    · cases hs : split sep cs with
      | nil => exact absurd hs (split_ne_nil sep cs)
      | cons first pieces =>
        rw [split_cons_ne sep c cs first pieces hc hs] at h
        rcases List.mem_cons.mp h with h | h
        · subst h
          have hfirst : sep ∉ first := ih first (by rw [hs]; exact List.mem_cons_self _ _)
          intro hmem
          rcases List.mem_cons.mp hmem with h1 | h1
          · exact hc h1.symm
          · exact hfirst h1
        · exact ih piece (by rw [hs]; exact List.mem_cons_of_mem _ h)

theorem mem_of_mem_trim (s : List Char) (c : Char) (h : c ∈ trim s) : c ∈ s := by
  unfold trim trimStart trimEnd at h
  have h1 := (List.dropWhile_sublist isWhiteSpace).subset h
  rw [List.mem_reverse] at h1
  have h2 := (List.dropWhile_sublist isWhiteSpace).subset h1
  exact List.mem_reverse.mp h2

/-- A text without a hyphen reads as a number that is not negative. -/
theorem parseInt_nonneg (s : List Char) (v : Int) (hs : '-' ∉ s) (h : parseInt s = some v) :
    0 ≤ v := by
  unfold parseInt at h
  have hbody : '-' ∉ s.dropWhile isWhiteSpace :=
    fun hm => hs ((List.dropWhile_sublist isWhiteSpace).subset hm)
  generalize s.dropWhile isWhiteSpace = body at h hbody
  have hsign : (match body with
      | '-' :: rest => ((-1 : Int), rest)
      | '+' :: rest => (1, rest)
      | _ => (1, body)).1 = 1 := by
    split
    · exact absurd (List.mem_cons_self _ _) hbody
    · rfl
    · rfl
  simp only at h
  rw [hsign] at h
  split at h
  · cases h
  · simp only [Option.some.injEq] at h
    omega

theorem split_of_mem (sep : Char) : ∀ s : List Char, sep ∈ s →
    ∃ first second rest, split sep s = first :: second :: rest := by
  intro s
  induction s with
  | nil => intro h; simp at h
  | cons c cs ih =>
    intro h
    by_cases hc : c = sep
    · rw [hc, split_cons_sep]
      cases hs : split sep cs with
      | nil => exact absurd hs (split_ne_nil sep cs)
      | cons first pieces => exact ⟨[], first, pieces, rfl⟩
    · have hmem : sep ∈ cs := by
        rcases List.mem_cons.mp h with h1 | h1
        · exact absurd h1.symm hc
        · exact h1
      obtain ⟨first, second, rest, hs⟩ := ih hmem
      exact ⟨c :: first, second, rest, split_cons_ne sep c cs first (second :: rest) hc hs⟩

/-- The two numbers of a pair are not negative. -/
theorem hyphenPair_nonneg (tok : List Char) (start e : Int)
    (h : hyphenPair tok = some (start, e)) : 0 ≤ start ∧ 0 ≤ e := by
  unfold hyphenPair at h
  by_cases hmem : '-' ∈ tok
  · obtain ⟨first, second, rest, hs⟩ := split_of_mem '-' tok hmem
    have h1 : '-' ∉ first :=
      not_mem_of_mem_split '-' tok first (by rw [hs]; exact List.mem_cons_self _ _)
    have h2 : '-' ∉ second :=
      not_mem_of_mem_split '-' tok second (by rw [hs]; simp)
    simp only [hmem, if_true, hs, List.getElem?_cons_zero, List.getElem?_cons_succ,
      Option.bind] at h
    cases ha : parseInt (trim first) with
    | none => rw [ha] at h; simp at h
    | some a =>
      cases hb : parseInt (trim second) with
      | none => rw [ha, hb] at h; simp at h
      | some b =>
        rw [ha, hb] at h
        simp only [Option.some.injEq, Prod.mk.injEq] at h
        obtain ⟨rfl, rfl⟩ := h
        exact ⟨parseInt_nonneg _ _ (fun hm => h1 (mem_of_mem_trim _ _ hm)) ha,
          parseInt_nonneg _ _ (fun hm => h2 (mem_of_mem_trim _ _ hm)) hb⟩
  · simp [hmem] at h

/-- The body of the loop over the parts on doubles, written with the two readers of a
token. -/
theorem processPartRun_eq (fuel : Nat) (n : Int) (s : List Int) (part : List Char) :
    processPartRun fuel n s part =
      match hyphenPair part with
      | some (start, e) => loopRun n (toDouble e) fuel (toDouble start) s
      | none =>
        match singleInteger part with
        | some p =>
          (match toDouble p with
            | JSNumber.finite pageNum =>
              if 0 < pageNum ∧ pageNum ≤ n then some (setAdd s (roundInt (pageNum - 1)))
              else some s
            | _ => some s)
        | none => some s := by
  unfold processPartRun hyphenPair singleInteger includes parseIntDouble
  by_cases h : '-' ∈ part
  · simp only [h, decide_True, if_true, List.getElem?_map]
    generalize (split '-' part)[0]? = o0
    generalize (split '-' part)[1]? = o1
    cases o0 with
    | none => simp
    | some f0 =>
      cases o1 with
      | none =>
        simp only [Option.map, Option.bind]
        generalize parseInt (trim f0) = a
        cases a <;> simp
      | some f1 =>
        simp only [Option.map, Option.bind]
        generalize parseInt (trim f0) = a
        generalize parseInt (trim f1) = b
        cases a <;> cases b <;> simp [toDouble_ne_nan]
  · simp only [h, decide_False, if_false]
    generalize parseInt (trim part) = a
    cases a <;> simp

/-- A single number on doubles and on integers, for a page count below `2 ^ 53`. -/
theorem single_agree (n v : Int) (s : List Int) (hn : n < safeLimit) :
    (match toDouble v with
      | JSNumber.finite pageNum =>
        if 0 < pageNum ∧ pageNum ≤ n then some (setAdd s (roundInt (pageNum - 1))) else some s
      | _ => some s) = some (if 0 < v ∧ v ≤ n then setAdd s (v - 1) else s) := by
  by_cases h1 : v ≤ -safeLimit
  · have hint : ¬ (0 < v ∧ v ≤ n) := by unfold safeLimit at h1; omega
    rw [if_neg hint]
    rcases toDouble_of_le_neg v h1 with h | ⟨w, h, hw⟩
    · rw [h]
    · rw [h]
      have : ¬ (0 < w ∧ w ≤ n) := by omega
      simp only [this, if_false]
  · by_cases h2 : v < safeLimit
    · rw [toDouble_of_abs_le v (by omega) (by omega)]
      simp only
      by_cases hc : 0 < v ∧ v ≤ n
      · rw [if_pos hc, if_pos hc, roundInt_of_abs_le (v - 1) (by omega) (by omega)]
      · rw [if_neg hc, if_neg hc]
    · have hint : ¬ (0 < v ∧ v ≤ n) := by omega
      rw [if_neg hint]
      have hbig := toDouble_atLeastLimit v (by omega)
      cases hd : toDouble v with
      | nan => rfl
      | finite w =>
        rw [hd] at hbig
        simp only [JSNumber.atLeastLimit] at hbig
        have : ¬ (0 < w ∧ w ≤ n) := by omega
        simp only [this, if_false]
      | infinite negative => rfl

/-- The body of the loop over the parts, for a page count below `2 ^ 53`: when the run on
doubles returns, it returns the set of the run on integers; and it returns when the end of the
pair is below `2 ^ 53` and the bound allows the passes of the loop. -/
theorem processPartRun_spec (fuel : Nat) (n : Int) (s : List Int) (part : List Char)
    (hn : n < safeLimit) :
    (∀ l, processPartRun fuel n s part = some l → l = processPart n s part) ∧
    ((∀ start e, hyphenPair part = some (start, e) → e < safeLimit) → tokenPasses part ≤ fuel →
      processPartRun fuel n s part = some (processPart n s part)) := by
  rw [processPartRun_eq, processPart_eq]
  unfold tokenPasses
  cases hp : hyphenPair part with
  | none =>
    simp only
    cases singleInteger part with
    | none => exact ⟨fun l h => by simpa using h.symm, fun _ _ => rfl⟩
    | some p =>
      simp only
      rw [single_agree n p s hn]
      exact ⟨fun l h => by simpa using h.symm, fun _ _ => rfl⟩
  | some se =>
    obtain ⟨start, e⟩ := se
    obtain ⟨hs0, he0⟩ := hyphenPair_nonneg part start e hp
    simp only
    by_cases hstart : start < safeLimit
    · rw [toDouble_of_abs_le start (by unfold safeLimit; omega) (by omega)]
      by_cases he : e < safeLimit
      · rw [toDouble_of_abs_le e (by unfold safeLimit; omega) (by omega),
          loopRun_exact n e he fuel start s (by unfold safeLimit; omega)]
        exact ⟨fun l h => rangeLoopBounded_some n e fuel start s l h,
          fun _ hfuel => rangeLoopBounded_eq n e fuel start s hfuel⟩
      · rw [loopRun_never_stops n (toDouble e) (toDouble_atLeastLimit e (by omega)) fuel start s
          (by unfold safeLimit; omega) (by omega)]
        constructor
        · intro l h; cases h
        · intro hsafe _
          exact absurd (hsafe start e rfl) he
    · have hbig := toDouble_atLeastLimit start (by omega)
      have hint : rangeLoop n e (rangePasses start e) start s = s :=
        rangeLoop_above n e _ start s (by omega)
      rw [hint]
      constructor
      · intro l h
        exact loopRun_atLeastLimit n (toDouble e) hn fuel (toDouble start) s l hbig h
      · intro hsafe _
        have he := hsafe start e rfl
        rw [toDouble_of_abs_le e (by unfold safeLimit; omega) (by omega)]
        have hle := le_of_atLeastLimit (toDouble start) e hbig he
        cases fuel with
        | zero => simp only [loopRun, hle]; rfl
        | succ fuel => simp only [loopRun, hle]; rfl

theorem collectRun_spec (fuel : Nat) (n : Int) (hn : n < safeLimit) :
    ∀ (parts : List (List Char)) (s : List Int),
      (∀ l, collectRun fuel n parts s = some l → l = parts.foldl (processPart n) s) ∧
      ((∀ tok ∈ parts, ∀ start e, hyphenPair tok = some (start, e) → e < safeLimit) →
        passesNeeded parts ≤ fuel →
        collectRun fuel n parts s = some (parts.foldl (processPart n) s)) := by
  intro parts
  induction parts with
  | nil =>
    intro s
    exact ⟨fun l h => by simpa [collectRun] using h.symm, fun _ _ => rfl⟩
  | cons part rest ih =>
    intro s
    obtain ⟨h1, h2⟩ := processPartRun_spec fuel n s part hn
    constructor
    · intro l h
      simp only [collectRun] at h
      cases hp : processPartRun fuel n s part with
      | none => rw [hp] at h; cases h
      | some next =>
        rw [hp] at h
        rw [List.foldl_cons, ← h1 next hp]
        exact (ih next).1 l h
    · intro hsafe hfuel
      simp only [passesNeeded] at hfuel
      have hp := h2 (hsafe part (List.mem_cons_self _ _)) (by omega)
      simp only [collectRun, hp, List.foldl_cons]
      exact (ih _).2 (fun tok htok => hsafe tok (List.mem_cons_of_mem _ htok)) (by omega)

/-- Whenever the run on doubles returns, for a page count below `2 ^ 53`, it returns the
sequence of the run on integers. -/
theorem parsePageRangesRun_some (fuel : Nat) (ranges : List Char) (n : Int) (l : List Int)
    (hn : n < safeLimit) (h : parsePageRangesRun fuel ranges n = some l) :
    l = parsePageRanges ranges n := by
  unfold parsePageRangesRun at h
  cases hc : collectRun fuel n (split ',' ranges) [] with
  | none => rw [hc] at h; cases h
  | some indices =>
    rw [hc] at h
    simp only [Option.map, Option.some.injEq] at h
    rw [← h, (collectRun_spec fuel n hn (split ',' ranges) []).1 indices hc]
    rfl

/-- The run on doubles returns when the end of every pair is below `2 ^ 53` and the bound
allows the passes of the longest loop. -/
theorem parsePageRangesRun_of_safe (fuel : Nat) (ranges : List Char) (n : Int)
    (hn : n < safeLimit) (hsafe : pairEndsSafe ranges)
    (hfuel : passesNeeded (split ',' ranges) ≤ fuel) :
    parsePageRangesRun fuel ranges n = some (parsePageRanges ranges n) := by
  unfold parsePageRangesRun
  rw [(collectRun_spec fuel n hn (split ',' ranges) []).2
    (fun tok htok start e hpair => hsafe tok htok (start, e) hpair) hfuel]
  rfl

/-- The body of the loop over the parts returns, for every page count, when the end of the pair
is below `2 ^ 53` and the bound allows the passes of the loop. -/
theorem processPartRun_returns (fuel : Nat) (n : Int) (s : List Int) (part : List Char)
    (hsafe : ∀ start e, hyphenPair part = some (start, e) → e < safeLimit)
    (hfuel : tokenPasses part ≤ fuel) : ∃ l, processPartRun fuel n s part = some l := by
  rw [processPartRun_eq]
  unfold tokenPasses at hfuel
  cases hp : hyphenPair part with
  | none =>
    simp only
    cases singleInteger part with
    | none => exact ⟨s, rfl⟩
    | some p =>
      simp only
      cases toDouble p with
      | nan => exact ⟨s, rfl⟩
      | finite w =>
        simp only
        split
        · exact ⟨_, rfl⟩
        · exact ⟨_, rfl⟩
      | infinite negative => exact ⟨s, rfl⟩
  | some se =>
    obtain ⟨start, e⟩ := se
    obtain ⟨hs0, he0⟩ := hyphenPair_nonneg part start e hp
    have he := hsafe start e hp
    rw [hp] at hfuel
    simp only at hfuel ⊢
    rw [toDouble_of_abs_le e (by unfold safeLimit; omega) (by omega)]
    by_cases hstart : start < safeLimit
    · rw [toDouble_of_abs_le start (by unfold safeLimit; omega) (by omega),
        loopRun_exact n e he fuel start s (by unfold safeLimit; omega)]
      exact ⟨_, rangeLoopBounded_eq n e fuel start s hfuel⟩
    · have hle := le_of_atLeastLimit (toDouble start) e
        (toDouble_atLeastLimit start (by omega)) he
      cases fuel with
      | zero => exact ⟨s, by simp only [loopRun, hle]; rfl⟩
      | succ fuel => exact ⟨s, by simp only [loopRun, hle]; rfl⟩

theorem collectRun_returns (fuel : Nat) (n : Int) : ∀ (parts : List (List Char)) (s : List Int),
    (∀ tok ∈ parts, ∀ start e, hyphenPair tok = some (start, e) → e < safeLimit) →
    passesNeeded parts ≤ fuel → ∃ l, collectRun fuel n parts s = some l := by
  intro parts
  induction parts with
  | nil => intro s _ _; exact ⟨s, rfl⟩
  | cons part rest ih =>
    intro s hsafe hfuel
    simp only [passesNeeded] at hfuel
    obtain ⟨next, hnext⟩ := processPartRun_returns fuel n s part
      (hsafe part (List.mem_cons_self _ _)) (by omega)
    simp only [collectRun, hnext]
    exact ih next (fun tok htok => hsafe tok (List.mem_cons_of_mem _ htok)) (by omega)

/-- The run on doubles returns, for every page count, when the end of every pair is below
`2 ^ 53` and the bound allows the passes of the longest loop. -/
theorem parsePageRangesRun_returns (fuel : Nat) (ranges : List Char) (n : Int)
    (hsafe : pairEndsSafe ranges) (hfuel : passesNeeded (split ',' ranges) ≤ fuel) :
    ∃ l, parsePageRangesRun fuel ranges n = some l := by
  obtain ⟨indices, h⟩ := collectRun_returns fuel n (split ',' ranges) []
    (fun tok htok start e hpair => hsafe tok htok (start, e) hpair) hfuel
  exact ⟨_, by unfold parsePageRangesRun; rw [h]; rfl⟩

theorem collectRun_none (fuel : Nat) (n : Int) (tok : List Char)
    (htok : ∀ s, processPartRun fuel n s tok = none) :
    ∀ (parts : List (List Char)) (s : List Int), tok ∈ parts → collectRun fuel n parts s = none := by
  intro parts
  induction parts with
  | nil => intro s h; simp at h
  | cons part rest ih =>
    intro s h
    simp only [collectRun]
    cases hp : processPartRun fuel n s part with
    | none => rfl
    | some next =>
      simp only
      rcases List.mem_cons.mp h with h1 | h1
      · subst h1
        rw [htok s] at hp
        cases hp
      · exact ih next h1

/-- A pair that starts at or below `2 ^ 53` and ends at `2 ^ 53` or above keeps the call from
returning, whatever the other tokens and the page count are. -/
theorem parsePageRangesRun_never_returns (ranges tok : List Char) (start e : Int)
    (htok : tok ∈ split ',' ranges) (hpair : hyphenPair tok = some (start, e))
    (hstart : start ≤ safeLimit) (he : safeLimit ≤ e) (fuel : Nat) (n : Int) :
    parsePageRangesRun fuel ranges n = none := by
  have hs0 := (hyphenPair_nonneg tok start e hpair).1
  have hnone : ∀ s, processPartRun fuel n s tok = none := by
    intro s
    rw [processPartRun_eq, hpair]
    simp only
    rw [toDouble_of_abs_le start (by unfold safeLimit; omega) hstart]
    exact loopRun_never_stops n (toDouble e) (toDouble_atLeastLimit e he) fuel start s
      (by unfold safeLimit; omega) hstart
  unfold parsePageRangesRun
  rw [collectRun_none fuel n tok hnone _ _ htok]
  rfl

theorem collectRun_append (fuel : Nat) (n : Int) : ∀ (front back : List (List Char))
    (s : List Int), collectRun fuel n (front ++ back) s =
      (collectRun fuel n front s).bind (collectRun fuel n back) := by
  intro front
  induction front with
  | nil => intro back s; rfl
  | cons part rest ih =>
    intro back s
    simp only [List.cons_append, collectRun]
    cases processPartRun fuel n s part with
    | none => rfl
    | some next => exact ih back next

/-- A malformed pair token whose end, if it has one, is below `2 ^ 53` leaves the set as it
is. -/
theorem processPartRun_malformed (fuel : Nat) (n : Int) (s : List Int) (tok : List Char)
    (h : malformedPair tok)
    (hsafe : ∀ start e, hyphenPair tok = some (start, e) → e < safeLimit) :
    processPartRun fuel n s tok = some s := by
  rw [processPartRun_eq]
  obtain ⟨hmem, hbad⟩ := h
  have hs : singleInteger tok = none := by simp [singleInteger, hmem]
  rcases hbad with hnone | ⟨start, e, hpair, hlt⟩
  · simp [hnone, hs]
  · have he := hsafe start e hpair
    have he0 := (hyphenPair_nonneg tok start e hpair).2
    simp only [hpair]
    rw [toDouble_of_abs_le e (by unfold safeLimit; omega) (by omega)]
    have hle : JSNumber.le (toDouble start) (JSNumber.finite e) = false := by
      by_cases hstart : start < safeLimit
      · rw [toDouble_of_abs_le start (by unfold safeLimit; omega) (by omega)]
        simp only [JSNumber.le, decide_eq_false_iff_not]
        omega
      · exact le_of_atLeastLimit _ e (toDouble_atLeastLimit start (by omega)) he
    cases fuel with
    | zero => simp only [loopRun, hle]; rfl
    | succ fuel => simp only [loopRun, hle]; rfl

theorem collectRun_malformed (fuel : Nat) (n : Int) (a b tok : List Char) (hfree : ',' ∉ tok)
    (hbad : malformedPair tok)
    (hsafe : ∀ start e, hyphenPair tok = some (start, e) → e < safeLimit) :
    collectRun fuel n (split ',' (a ++ ',' :: tok ++ ',' :: b)) [] =
        collectRun fuel n (split ',' (a ++ ',' :: b)) [] ∧
      collectRun fuel n (split ',' (tok ++ ',' :: b)) [] = collectRun fuel n (split ',' b) [] ∧
      collectRun fuel n (split ',' (a ++ ',' :: tok)) [] = collectRun fuel n (split ',' a) [] ∧
      collectRun fuel n (split ',' tok) [] = some [] := by
  have hstep : ∀ (rest : List (List Char)) (s : List Int),
      collectRun fuel n (tok :: rest) s = collectRun fuel n rest s := by
    intro rest s
    simp only [collectRun, processPartRun_malformed fuel n s tok hbad hsafe]
  have hone : collectRun fuel n [tok] = fun s => some s := by
    funext s
    rw [hstep]
    rfl
  refine ⟨?_, ?_, ?_, ?_⟩
  · rw [split_append_sep, split_append_sep, split_append_sep, split_of_not_mem ',' tok hfree,
      collectRun_append, collectRun_append, collectRun_append, hone]
    cases collectRun fuel n (split ',' a) [] <;> rfl
  · rw [split_append_sep, split_of_not_mem ',' tok hfree]
    exact hstep _ _
  · rw [split_append_sep, split_of_not_mem ',' tok hfree, collectRun_append, hone]
    cases collectRun fuel n (split ',' a) [] <;> rfl
  · rw [split_of_not_mem ',' tok hfree, hstep]
    rfl

/-- A text that is a decimal integer and nothing else is read by `parseInt` with its value. -/
theorem parseInt_of_decimalInteger (text : List Char) (v : Int)
    (h : decimalInteger text = some v) : parseInt (trim text) = some v := by
  unfold decimalInteger at h
  split at h
  · rename_i hd
    simp only [Option.some.injEq] at h
    rw [parseInt_of_decimal (trim text) hd.1 hd.2, ← h]
  · cases h

theorem hyphenPair_of_strictPair (tok : List Char) (start e : Int)
    (h : strictPair tok = some (start, e)) : hyphenPair tok = some (start, e) := by
  unfold strictPair at h
  split at h
  · rename_i first second hs
    have hmem : '-' ∈ tok := by
      by_contra hno
      rw [split_of_not_mem '-' tok hno] at hs
      simp at hs
    cases h1 : decimalInteger first with
    | none => rw [h1] at h; simp at h
    | some a =>
      cases h2 : decimalInteger second with
      | none => rw [h1, h2] at h; simp at h
      | some b =>
        rw [h1, h2] at h
        simp only [Option.some.injEq, Prod.mk.injEq] at h
        obtain ⟨rfl, rfl⟩ := h
        unfold hyphenPair
        simp only [hmem, if_true, hs, List.getElem?_cons_zero, List.getElem?_cons_succ,
          Option.bind, parseInt_of_decimalInteger first _ h1,
          parseInt_of_decimalInteger second _ h2]
  · cases h

/-- What a token selects in the strict reading, it selects as the code reads it. -/
theorem tokenSelects_of_strictlySelects (tok : List Char) (p : Int)
    (h : strictlySelects tok p) : tokenSelects tok p := by
  rcases h with h | ⟨start, e, h, h1, h2⟩
  · left
    unfold strictSingle at h
    unfold singleInteger
    split at h
    · cases h
    · rename_i hno
      rw [if_neg hno]
      exact parseInt_of_decimalInteger tok p h
  · right
    exact ⟨start, e, hyphenPair_of_strictPair tok start e h, h1, h2⟩

/-- A pair token that the code skips is malformed in the strict reading too. -/
theorem strictlyMalformed_of_malformedPair (tok : List Char) (h : malformedPair tok) :
    strictlyMalformed tok := by
  obtain ⟨hmem, hbad⟩ := h
  refine ⟨hmem, ?_⟩
  cases hs : strictPair tok with
  | none => exact Or.inl rfl
  | some se =>
    obtain ⟨start, e⟩ := se
    have hp := hyphenPair_of_strictPair tok start e hs
    rcases hbad with hnone | ⟨a, b, hab, hlt⟩
    · rw [hnone] at hp; cases hp
    · rw [hp] at hab
      simp only [Option.some.injEq, Prod.mk.injEq] at hab
      obtain ⟨rfl, rfl⟩ := hab
      exact Or.inr ⟨start, e, rfl, hlt⟩

/-- Why the page count is taken below `2 ^ 53`, which every document that can be loaded
satisfies: with `2 ^ 53` pages the token `9007199254740993`, an integer above the page count,
would be read as `2 ^ 53` and give the index `2 ^ 53 - 1`. -/
theorem parsePageRangesRun_limit_pages :
    parsePageRangesRun 0 "9007199254740993".toList 9007199254740992 =
        some [9007199254740991] ∧
      singleInteger "9007199254740993".toList = some 9007199254740993 := by
  decide

/-! ## The claims about reading the tokens -/

/-- The pair whose two ends both read as `2 ^ 53` keeps the call from returning. -/
theorem processPartRun_reversed_limit (fuel : Nat) (n : Int) (s : List Int) :
    processPartRun fuel n s "9007199254740993-9007199254740992".toList = none := by
  have hpair : hyphenPair "9007199254740993-9007199254740992".toList =
      some (9007199254740993, 9007199254740992) := by decide
  have h1 : toDouble 9007199254740993 = JSNumber.finite safeLimit := by decide
  have h2 : toDouble 9007199254740992 = JSNumber.finite safeLimit := by decide
  rw [processPartRun_eq, hpair]
  simp only
  rw [h1, h2]
  exact loopRun_never_stops n (JSNumber.finite safeLimit) (Int.le_refl _) fuel safeLimit s
    (by decide) (Int.le_refl _)

/-- C2, as stated, fails: on 5 pages the expression `1.9` gives `[0]`, though its one token is
neither a single integer equal to 1 nor a pair `start-end`; in
`3,9007199254740992-9007199254740993` the token `3` is a single integer equal to 3 with
`1 ≤ 3 ≤ 5`, yet the call never returns, whatever number of passes the loop is given. -/
theorem parsePageRanges_membership_fails :
    parsePageRangesRun 0 "1.9".toList 5 = some [0] ∧
      (∀ tok ∈ split ',' "1.9".toList, ¬ strictlySelects tok 1) ∧
      "3".toList ∈ split ',' "3,9007199254740992-9007199254740993".toList ∧
      strictlySelects "3".toList 3 ∧
      ∀ fuel, parsePageRangesRun fuel "3,9007199254740992-9007199254740993".toList 5 = none := by
  refine ⟨by decide, ?_, by decide, Or.inl (by decide), ?_⟩
  · intro tok htok hsel
    have hsplit : split ',' "1.9".toList = ["1.9".toList] := by decide
    rw [hsplit, List.mem_singleton] at htok
    subst htok
    have e1 : strictSingle "1.9".toList = none := by decide
    have e2 : strictPair "1.9".toList = none := by decide
    rcases hsel with h | ⟨a, b, h, _⟩
    · rw [e1] at h; cases h
    · rw [e2] at h; cases h
  · intro fuel
    exact parsePageRangesRun_never_returns _ "9007199254740992-9007199254740993".toList
      9007199254740992 9007199254740993 (by decide) (by decide) (by decide) (by decide) fuel 5

/-- C2, amended: for a page count `n` below `2 ^ 53`, whenever the call returns, a zero-based
index `k` is in the result exactly when `1 ≤ k + 1 ≤ n` and some comma-separated token selects
`k + 1` as `parseInt` reads it (a token without a hyphen whose leading integer is `k + 1`, or a
token with a hyphen whose first two fields have the leading integers `start ≤ k + 1 ≤ end`);
the call returns when the end of every pair is below `2 ^ 53`; what a token selects when it is
a single integer or a pair and nothing else, it selects in this reading; and
`parsePageRanges("1-3,5,7-9", 9)` is `[0,1,2,4,6,7,8]`. -/
theorem parsePageRanges_membership :
    (∀ (ranges : List Char) (n k : Int), n < safeLimit →
      ∀ (fuel : Nat) (l : List Int), parsePageRangesRun fuel ranges n = some l →
        (k ∈ l ↔
          1 ≤ k + 1 ∧ k + 1 ≤ n ∧ ∃ tok ∈ split ',' ranges, tokenSelects tok (k + 1))) ∧
    (∀ (ranges : List Char) (n : Int), pairEndsSafe ranges →
      ∀ fuel, passesNeeded (split ',' ranges) ≤ fuel →
        ∃ l, parsePageRangesRun fuel ranges n = some l) ∧
    (∀ (tok : List Char) (p : Int), strictlySelects tok p → tokenSelects tok p) ∧
    parsePageRangesRun 3 "1-3,5,7-9".toList 9 = some [0, 1, 2, 4, 6, 7, 8] := by
  refine ⟨?_, ?_, tokenSelects_of_strictlySelects, by decide⟩
  · intro ranges n k hn fuel l h
    rw [parsePageRangesRun_some fuel ranges n l hn h, mem_parsePageRanges_iff]
    constructor
    · rintro ⟨tok, htok, p, hsel, h1, h2, h3⟩
      have hp : p = k + 1 := by omega
      subst hp
      exact ⟨by omega, h2, tok, htok, hsel⟩
    · rintro ⟨h1, h2, tok, htok, hsel⟩
      exact ⟨tok, htok, k + 1, hsel, by omega, h2, by omega⟩
  · intro ranges n hsafe fuel hfuel
    exact parsePageRangesRun_returns fuel ranges n hsafe hfuel

/-- On 9 pages the expression `1-3,5,7-9` returns within 3 passes of each loop, and index 4 is
in the result because the token `5` reads as 5. -/
theorem parsePageRanges_membership_witness :
    (9 : Int) < safeLimit ∧
      ((4 : Int) ∈ [0, 1, 2, 4, 6, 7, 8] ↔
        1 ≤ (4 : Int) + 1 ∧ (4 : Int) + 1 ≤ 9 ∧
          ∃ tok ∈ split ',' "1-3,5,7-9".toList, tokenSelects tok (4 + 1)) ∧
      ∃ l, parsePageRangesRun 3 "1-3,5,7-9".toList 9 = some l :=
  ⟨by decide,
    parsePageRanges_membership.1 "1-3,5,7-9".toList 9 4 (by decide) 3 _ (by decide),
    parsePageRanges_membership.2.1 "1-3,5,7-9".toList 9 (by decide) 3 (by decide)⟩

/-- C4, as stated, fails: on 5 pages the expression `3abc` gives `[2]`, though its one token
is no integer and no pair, so that no token denotes a page number; and the one token of
`9007199254740992-9007199254740993` denotes no page number in `[1, 5]`, yet the call never
returns instead of returning the empty sequence. -/
theorem parsePageRanges_invalid_token_counts :
    parsePageRangesRun 0 "3abc".toList 5 = some [2] ∧
      (∀ tok ∈ split ',' "3abc".toList, ∀ p : Int, ¬ strictlySelects tok p) ∧
      (∀ tok ∈ split ',' "9007199254740992-9007199254740993".toList, ∀ p : Int,
        1 ≤ p → p ≤ 5 → ¬ strictlySelects tok p ∧ ¬ tokenSelects tok p) ∧
      ∀ fuel, parsePageRangesRun fuel "9007199254740992-9007199254740993".toList 5 = none := by
  refine ⟨by decide, ?_, ?_, ?_⟩
  · intro tok htok p hsel
    have hsplit : split ',' "3abc".toList = ["3abc".toList] := by decide
    rw [hsplit, List.mem_singleton] at htok
    subst htok
    have e1 : strictSingle "3abc".toList = none := by decide
    have e2 : strictPair "3abc".toList = none := by decide
    rcases hsel with h | ⟨a, b, h, _⟩
    · rw [e1] at h; cases h
    · rw [e2] at h; cases h
  · intro tok htok p _ h5
    have hsplit : split ',' "9007199254740992-9007199254740993".toList =
        ["9007199254740992-9007199254740993".toList] := by decide
    rw [hsplit, List.mem_singleton] at htok
    subst htok
    have e1 : singleInteger "9007199254740992-9007199254740993".toList = none := by decide
    have e2 : hyphenPair "9007199254740992-9007199254740993".toList =
        some (9007199254740992, 9007199254740993) := by decide
    have hno : ¬ tokenSelects "9007199254740992-9007199254740993".toList p := by
      rintro (h | ⟨a, b, h, ha, _⟩)
      · rw [e1] at h; cases h
      · rw [e2] at h
        simp only [Option.some.injEq, Prod.mk.injEq] at h
        omega
    exact ⟨fun h => hno (tokenSelects_of_strictlySelects _ p h), hno⟩
  · intro fuel
    exact parsePageRangesRun_never_returns _ "9007199254740992-9007199254740993".toList
      9007199254740992 9007199254740993 (by decide) (by decide) (by decide) (by decide) fuel 5

/-- C4, amended: `parsePageRanges("", n)` is empty for every `n`, and
`parsePageRanges("0,100", 5)` is empty; in general, for a page count `n` below `2 ^ 53`, when
no token selects a page number in `[1, n]` as `parseInt` reads it, the result is empty
whenever the call returns, and the call returns when the end of every pair is below `2 ^ 53`;
a token that selects no page number in this reading selects none as a single integer or a pair
and nothing else. -/
theorem parsePageRanges_no_valid_token :
    (∀ (n : Int) (fuel : Nat), parsePageRangesRun fuel "".toList n = some []) ∧
    (∀ fuel : Nat, parsePageRangesRun fuel "0,100".toList 5 = some []) ∧
    (∀ (ranges : List Char) (n : Int) (fuel : Nat), n < safeLimit →
      (∀ tok ∈ split ',' ranges, ∀ p : Int, 1 ≤ p → p ≤ n → ¬ tokenSelects tok p) →
      (∀ l, parsePageRangesRun fuel ranges n = some l → l = []) ∧
        (pairEndsSafe ranges → passesNeeded (split ',' ranges) ≤ fuel →
          parsePageRangesRun fuel ranges n = some [])) ∧
    (∀ (tok : List Char) (p : Int), ¬ tokenSelects tok p → ¬ strictlySelects tok p) := by
  refine ⟨fun n fuel => rfl, fun fuel => rfl, ?_,
    fun tok p h hs => h (tokenSelects_of_strictlySelects tok p hs)⟩
  intro ranges n fuel hn hnone
  have hempty : parsePageRanges ranges n = [] := by
    rw [List.eq_nil_iff_forall_not_mem]
    intro y hy
    obtain ⟨tok, htok, p, hsel, h1, h2, _⟩ := (mem_parsePageRanges_iff ranges n y).mp hy
    exact hnone tok htok p (by omega) h2 hsel
  constructor
  · intro l h
    rw [parsePageRangesRun_some fuel ranges n l hn h, hempty]
  · intro hsafe hfuel
    rw [parsePageRangesRun_of_safe fuel ranges n hn hsafe hfuel, hempty]

/-- On a 5-page document the expression `abc,0,7-9` has no token that selects a page in
`[1, 5]`, and returns the empty sequence within the 3 passes of the loop of `7-9`. -/
theorem parsePageRanges_no_valid_token_witness :
    parsePageRangesRun 3 "abc,0,7-9".toList 5 = some [] := by
  refine (parsePageRanges_no_valid_token.2.2.1 "abc,0,7-9".toList 5 3 (by decide) ?_).2
    (by decide) (by decide)
  intro tok htok p h1 h5 hsel
  have hsplit : split ',' "abc,0,7-9".toList = ["abc".toList, "0".toList, "7-9".toList] := by
    decide
  rw [hsplit] at htok
  simp only [List.mem_cons, List.mem_nil_iff, or_false] at htok
  have e1 : singleInteger "abc".toList = none := by decide
  have e2 : hyphenPair "abc".toList = none := by decide
  have e3 : singleInteger "0".toList = some 0 := by decide
  have e4 : hyphenPair "0".toList = none := by decide
  have e5 : singleInteger "7-9".toList = none := by decide
  have e6 : hyphenPair "7-9".toList = some (7, 9) := by decide
  unfold tokenSelects at hsel
  rcases htok with rfl | rfl | rfl
  · rcases hsel with h | ⟨a, b, h, _⟩
    · rw [e1] at h; cases h
    · rw [e2] at h; cases h
  · rcases hsel with h | ⟨a, b, h, _⟩
    · rw [e3] at h
      simp only [Option.some.injEq] at h
      omega
    · rw [e4] at h; cases h
  · rcases hsel with h | ⟨a, b, h, ha, hb⟩
    · rw [e5] at h; cases h
    · rw [e6] at h
      simp only [Option.some.injEq, Prod.mk.injEq] at h
      omega

/-- C5, as stated, fails: on `9007199254740992-9007199254740993` the call never returns,
whatever number of passes the loop is given, and neither does it on the reversed range
`9007199254740993-9007199254740992`, whose two ends both read as `2 ^ 53`; and the pair
`1-3x`, whose end is not a number, is not skipped: it contributes the indices 0, 1 and 2. -/
theorem parsePageRanges_hangs_or_keeps_malformed :
    (∀ fuel, parsePageRangesRun fuel "9007199254740992-9007199254740993".toList 5 = none) ∧
      (∀ fuel, parsePageRangesRun fuel "9007199254740993-9007199254740992".toList 5 = none) ∧
      strictlyMalformed "9007199254740993-9007199254740992".toList ∧
      strictlyMalformed "1-3x".toList ∧
      parsePageRangesRun 3 "1-3x".toList 5 = some [0, 1, 2] := by
  refine ⟨?_, ?_, ?_, ?_, by decide⟩
  · intro fuel
    exact parsePageRangesRun_never_returns _ "9007199254740992-9007199254740993".toList
      9007199254740992 9007199254740993 (by decide) (by decide) (by decide) (by decide) fuel 5
  · intro fuel
    have hsplit : split ',' "9007199254740993-9007199254740992".toList =
        ["9007199254740993-9007199254740992".toList] := by decide
    unfold parsePageRangesRun
    rw [hsplit, collectRun_none fuel 5 _ (processPartRun_reversed_limit fuel 5) _ _
      (List.mem_singleton.mpr rfl)]
    rfl
  · exact ⟨by decide, Or.inr ⟨9007199254740993, 9007199254740992, by decide, by decide⟩⟩
  · exact ⟨by decide, Or.inl (by decide)⟩

/-- C5, amended: for every page count the call returns a sequence when the end of every pair,
as `parseInt` reads it, is below `2 ^ 53`; a pair token whose start or end has no
leading integer, or whose range is reversed with an end below `2 ^ 53`, adds no index, and the
other tokens of the expression count as they do without it; every such token is malformed also
when a pair must be two integers and nothing else; `parsePageRanges("abc-3,5-2,4", 5)` is
`[3]`. -/
theorem parsePageRanges_skips_malformed :
    (∀ (ranges : List Char) (n : Int) (fuel : Nat), pairEndsSafe ranges →
      passesNeeded (split ',' ranges) ≤ fuel →
      ∃ l, parsePageRangesRun fuel ranges n = some l) ∧
    (∀ (fuel : Nat) (n : Int) (s : List Int) (tok : List Char), malformedPair tok →
      (∀ pair ∈ hyphenPair tok, pair.2 < safeLimit) → processPartRun fuel n s tok = some s) ∧
    (∀ (a b tok : List Char) (n : Int) (fuel : Nat), ',' ∉ tok → malformedPair tok →
      (∀ pair ∈ hyphenPair tok, pair.2 < safeLimit) →
      parsePageRangesRun fuel (a ++ ',' :: tok ++ ',' :: b) n =
          parsePageRangesRun fuel (a ++ ',' :: b) n ∧
        parsePageRangesRun fuel (tok ++ ',' :: b) n = parsePageRangesRun fuel b n ∧
        parsePageRangesRun fuel (a ++ ',' :: tok) n = parsePageRangesRun fuel a n ∧
        parsePageRangesRun fuel tok n = some []) ∧
    (∀ tok : List Char, malformedPair tok → strictlyMalformed tok) ∧
    (∀ fuel : Nat, parsePageRangesRun fuel "abc-3,5-2,4".toList 5 = some [3]) := by
  refine ⟨fun ranges n fuel hsafe hfuel => parsePageRangesRun_returns fuel ranges n hsafe hfuel,
    fun fuel n s tok h hsafe =>
      processPartRun_malformed fuel n s tok h (fun start e hp => hsafe (start, e) hp),
    ?_, strictlyMalformed_of_malformedPair, ?_⟩
  · intro a b tok n fuel hfree hbad hsafe
    obtain ⟨h1, h2, h3, h4⟩ := collectRun_malformed fuel n a b tok hfree hbad
      (fun start e hp => hsafe (start, e) hp)
    unfold parsePageRangesRun
    rw [h1, h2, h3, h4]
    exact ⟨rfl, rfl, rfl, rfl⟩
  · intro fuel
    have hpasses : passesNeeded (split ',' "abc-3,5-2,4".toList) = 0 := by decide
    rw [parsePageRangesRun_of_safe fuel "abc-3,5-2,4".toList 5 (by decide) (by decide)
      (by omega)]
    decide

/-- The reversed pair `5-2` between the tokens `1` and `4` changes nothing: `1,5-2,4` parses as
`1,4` does, to `[0,3]`. -/
theorem parsePageRanges_skips_malformed_witness :
    parsePageRangesRun 0 "1,5-2,4".toList 5 = parsePageRangesRun 0 "1,4".toList 5 ∧
      parsePageRangesRun 0 "1,5-2,4".toList 5 = some [0, 3] :=
  ⟨(parsePageRanges_skips_malformed.2.2.1 "1".toList "4".toList "5-2".toList 5 0 (by decide)
      ⟨by decide, Or.inr ⟨5, 2, by decide, by decide⟩⟩ (by decide)).1, by decide⟩

end PdfManagement
